import Mathlib

/-!
# URI decomposition (`my_util/include/uri.h`)

A shallow embedding of `artanis::Uri` and a verification of its documented
behaviour.  A C++ `std::string` is a list of characters; the regular
expressions of the source are kept as data and run by a backtracking matcher
that follows the ECMAScript rules used by `std::regex` (greedy quantifiers,
alternatives tried left to right, first complete match wins).  The value of
`errno` is passed in and out of the constructor, which reads it, and what the
uninitialised variable of `decode` holds is a parameter (`garbage`) of
`decode` and of the constructor.

The converter `ProtobufUtil` (`my_util/include/protobuf/util.h`) is embedded
after it, over a message seen through its reflection.
-/

set_option linter.dupNamespace false

namespace artanis

/-- A `std::string`, as the list of its characters. -/
abbrev Str := List Char

/-- The sub-matches of a regex match: capture index and captured text.  A
group that took no part in the match has no entry. -/
abbrev Caps := List (Nat × Str)

/-! ## Character classes -/

/-- The class `[0-9]`, which is also `\d` and `isdigit` in the C locale. -/
def isdigit (c : Char) : Bool := decide ('0'.toNat ≤ c.toNat) && decide (c.toNat ≤ '9'.toNat)

/-- The class `[A-Z]`. -/
def isupper (c : Char) : Bool := decide ('A'.toNat ≤ c.toNat) && decide (c.toNat ≤ 'Z'.toNat)

/-- The class `[a-z]`. -/
def islower (c : Char) : Bool := decide ('a'.toNat ≤ c.toNat) && decide (c.toNat ≤ 'z'.toNat)

/-- The class `[a-zA-Z]`. -/
def isalpha (c : Char) : Bool := islower c || isupper c

/-- The class `[a-zA-Z0-9+.-]`. -/
def isSchemeChar (c : Char) : Bool :=
  isalpha c || isdigit c || c == '+' || c == '.' || c == '-'

/-- The atom `.` of ECMAScript: any character but a line terminator. -/
def dot (c : Char) : Bool := c != '\n' && c != '\r'

/-- The C `isspace` in the C locale. -/
def isspace (c : Char) : Bool :=
  c == ' ' || c == '\t' || c == '\n' || c == Char.ofNat 11 || c == Char.ofNat 12 || c == '\r'

/-- The C `isxdigit`. -/
def isxdigit (c : Char) : Bool :=
  isdigit c
    || (decide ('a'.toNat ≤ c.toNat) && decide (c.toNat ≤ 'f'.toNat))
    || (decide ('A'.toNat ≤ c.toNat) && decide (c.toNat ≤ 'F'.toNat))

/-- The value of a hexadecimal digit (0 for any other character). -/
def hexVal (c : Char) : Nat :=
  if isdigit c then c.toNat - '0'.toNat
  else if decide ('a'.toNat ≤ c.toNat) && decide (c.toNat ≤ 'f'.toNat) then c.toNat - 'a'.toNat + 10
  else if decide ('A'.toNat ≤ c.toNat) && decide (c.toNat ≤ 'F'.toNat) then c.toNat - 'A'.toNat + 10
  else 0

/-- The C `tolower` in the C locale. -/
def tolower (c : Char) : Char :=
  if isupper c then Char.ofNat (c.toNat + 32) else c

/-! ## Regular expressions -/

/-- The part of the ECMAScript regex syntax that the patterns of `uri.h` use. -/
inductive Re where
  /-- One character of a class (a literal is a one-character class). -/
  | cls (p : Char → Bool)
  /-- A greedy `*` over a character class. -/
  | star (p : Char → Bool)
  /-- Concatenation. -/
  | seq (a b : Re)
  /-- Alternation `a|b`. -/
  | alt (a b : Re)
  /-- A greedy `?`. -/
  | opt (a : Re)
  /-- The capturing group number `idx`. -/
  | group (idx : Nat) (a : Re)

/-- A literal character. -/
def Re.lit (c : Char) : Re := .cls (fun x => x == c)

/-- The first success of two attempts, the left one preferred. -/
def orElse (a b : Option Caps) : Option Caps :=
  match a with
  | some m => some m
  | none => b

/-- Greedy `p*` followed by the continuation `k`: the longest run is tried
first, then each shorter one. -/
def starExec (p : Char → Bool) (k : Str → Option Caps) : Str → Option Caps
  | [] => k []
  | c :: t => if p c then orElse (starExec p k t) (k (c :: t)) else k (c :: t)

/-- Backtracking execution of a regex on the input `s` with the captures `m`
made so far; `k` is what remains to be matched. -/
def Re.exec : Re → Str → Caps → (Str → Caps → Option Caps) → Option Caps
  | .cls p, s, m, k =>
    match s with
    | c :: t => if p c then k t m else none
    | [] => none
  | .star p, s, m, k => starExec p (fun s1 => k s1 m) s
  | .seq a b, s, m, k => a.exec s m (fun s1 m1 => b.exec s1 m1 k)
  | .alt a b, s, m, k => orElse (a.exec s m k) (b.exec s m k)
  | .opt a, s, m, k => orElse (a.exec s m k) (k s m)
  | .group idx a, s, m, k =>
    a.exec s m (fun s1 m1 => k s1 ((idx, s.take (s.length - s1.length)) :: m1))

/-- The last step of a match of the whole input: nothing may be left. -/
def atEnd (s1 : Str) (m : Caps) : Option Caps :=
  if s1.isEmpty then some m else none

/-- The function `std::regex_match`: the whole input has to be matched. -/
def regex_match (r : Re) (s : Str) : Option Caps :=
  r.exec s [] atEnd

/-- The helper `Uri::submatch`: the text of a sub-match, empty when the group
did not take part. -/
def submatch (m : Caps) (idx : Nat) : Str :=
  match m.lookup idx with
  | some s => s
  | none => []

/-- The class `[^?#]`. -/
def notQueryHash (c : Char) : Bool := c != '?' && c != '#'

/-- The class `[^#]`. -/
def notHash (c : Char) : Bool := c != '#'

/-- The class `[^/]`. -/
def notSlash (c : Char) : Bool := c != '/'

/-- The class `[^@:]`. -/
def notAtColon (c : Char) : Bool := c != '@' && c != ':'

/-- The class `[^@]`. -/
def notAt (c : Char) : Bool := c != '@'

/-- The class `[^\]]`. -/
def notRBracket (c : Char) : Bool := c != ']'

/-- The class `[^\[:]`. -/
def notLBracketColon (c : Char) : Bool := c != '[' && c != ':'

/-- The line `([a-zA-Z][a-zA-Z0-9+.-]*):` of `uri_regex`: the scheme. -/
def uri_scheme_re : Re :=
  .seq (.group 1 (.seq (.cls isalpha) (.star isSchemeChar))) (.lit ':')

/-- The line `([^?#]*)` of `uri_regex`: authority and path. -/
def uri_path_re : Re := .group 2 (.star notQueryHash)

/-- The line `(?:\?([^#]*))?` of `uri_regex`: the query. -/
def uri_query_re : Re := .opt (.seq (.lit '?') (.group 3 (.star notHash)))

/-- The line `(?:#(.*))?` of `uri_regex`: the fragment. -/
def uri_fragment_re : Re := .opt (.seq (.lit '#') (.group 4 (.star dot)))

/-- The pattern `([a-zA-Z][a-zA-Z0-9+.-]*):([^?#]*)(?:\?([^#]*))?(?:#(.*))?`. -/
def uri_regex : Re :=
  .seq uri_scheme_re (.seq uri_path_re (.seq uri_query_re uri_fragment_re))

/-- The pattern `//([^/]*)(/.*)?`. -/
def authority_and_path_regex : Re :=
  .seq (.lit '/')
  (.seq (.lit '/')
  (.seq (.group 1 (.star notSlash))
        (.opt (.group 2 (.seq (.lit '/') (.star dot))))))

/-- The line `(?:([^@:]*)(?::([^@]*))?@)?` of `authority_regex`: user name and
password. -/
def authority_userinfo_re : Re :=
  .opt (.seq (.group 1 (.star notAtColon))
       (.seq (.opt (.seq (.lit ':') (.group 2 (.star notAt))))
             (.lit '@')))

/-- The line `(\[[^\]]*\]|[^\[:]*)` of `authority_regex`: the host, an IP
literal in brackets or a plain name. -/
def authority_host_re : Re :=
  .group 3 (.alt (.seq (.lit '[') (.seq (.star notRBracket) (.lit ']')))
                 (.star notLBracketColon))

/-- The line `(?::(\d*))?` of `authority_regex`: the port. -/
def authority_port_re : Re := .opt (.seq (.lit ':') (.group 4 (.star isdigit)))

/-- The pattern `(?:([^@:]*)(?::([^@]*))?@)?(\[[^\]]*\]|[^\[:]*)(?::(\d*))?`. -/
def authority_regex : Re :=
  .seq authority_userinfo_re (.seq authority_host_re authority_port_re)

/-! ## Library functions used by the constructor -/

/-- The helper `Uri::toLower`. -/
def toLower (s : Str) : Str := s.map tolower

/-- The value of a string of hexadecimal digits. -/
def hexValue (s : Str) : Nat := s.foldl (fun acc c => 16 * acc + hexVal c) 0

/-- The extraction `iss >> std::hex >> d` on a fresh stream over `s`, where `d`
is the value of the variable before: leading white space is skipped, and when
nothing is left the extraction stops there and `d` is not written; otherwise a
sign and a `0x` are accepted, then the hexadecimal digits are read, and `d` is
0 when there is none.  The source only reads strings of at most two
characters, so the value always fits. -/
def istream_hex (d : Int) (s : Str) : Int :=
  let s1 := s.dropWhile isspace
  if s1.isEmpty then d
  else
    let neg := s1.head? == some '-'
    let s2 := if s1.head? == some '-' || s1.head? == some '+' then s1.tail else s1
    let s3 :=
      if s2.head? == some '0' && (s2.tail.head? == some 'x' || s2.tail.head? == some 'X')
      then s2.drop 2 else s2
    let v : Int := hexValue (s3.takeWhile isxdigit)
    if neg then -v else v

/-- The conversion `static_cast<char>(d)`: the low byte of `d`. -/
def toChar (d : Int) : Char := Char.ofNat (d % 256).toNat

/-- The function `Uri::decode`.  The loop index moves by one over a plain
character and by three over a `%`, whatever follows it.  The source declares
`int d;` without a value, so what `d` holds before the extraction is not
determined by the program: `garbage t` stands for it at a `%` followed by the
text `t`, and it shows only where the extraction does not write `d`. -/
def decode (garbage : Str → Int) : Str → Str
  | [] => []
  | c :: t =>
    if c == '%' then
      match t with
      | a :: b :: t1 => toChar (istream_hex (garbage t) [a, b]) :: decode garbage t1
      | _ => [toChar (istream_hex (garbage t) t)]
    else c :: decode garbage t

/-- The content of the uninitialised `d` in the worked examples: 0. -/
def zeroed : Str → Int := fun _ => 0

/-- The largest `unsigned long` (LP64). -/
def ULONG_MAX : Nat := 2 ^ 64 - 1

/-- The value of `ERANGE`. -/
def ERANGE : Nat := 34

/-- The largest `uint16_t`. -/
def UINT16_MAX : Nat := 65535

/-- The value of a string of decimal digits. -/
def decValue (s : Str) : Nat := s.foldl (fun acc c => 10 * acc + (c.toNat - '0'.toNat)) 0

/-- The result of `strtoul(s, &endptr, 10)`: the value, the number of
characters consumed (`endptr - s`), and `errno` afterwards.  `errno` is set to
`ERANGE` on overflow and is left as it was otherwise. -/
def strtoul (s : Str) (errno : Nat) : Nat × Nat × Nat :=
  let s1 := s.dropWhile isspace
  let neg := s1.head? == some '-'
  let s2 := if s1.head? == some '-' || s1.head? == some '+' then s1.tail else s1
  let ds := s2.takeWhile isdigit
  if ds.isEmpty then (0, 0, errno)
  else
    let consumed := s.length - s2.length + ds.length
    let v := decValue ds
    if v > ULONG_MAX then (ULONG_MAX, consumed, ERANGE)
    else if neg then ((ULONG_MAX + 1 - v) % (ULONG_MAX + 1), consumed, errno)
    else (v, consumed, errno)

/-! ## The class `Uri` -/

/-- The exceptions of the constructor, one for each message it throws with. -/
inductive UriError where
  /-- Thrown as `"invalid URI " + str`. -/
  | InvalidUri (str : Str)
  /-- Thrown as `"invalid URI authority " + authority`. -/
  | InvalidAuthority (authority : Str)
  /-- Thrown as `"unsupported cast to uint16_t, port:" + port`. -/
  | InvalidPort (port : Str)
  deriving DecidableEq, Repr

/-- The message of the `std::invalid_argument` thrown. -/
def UriError.what : UriError → Str
  | .InvalidUri str => "invalid URI ".toList ++ str
  | .InvalidAuthority authority => "invalid URI authority ".toList ++ authority
  | .InvalidPort port => "unsupported cast to uint16_t, port:".toList ++ port

/-- The data members of `Uri`. -/
structure Uri where
  scheme_ : Str
  username_ : Str
  password_ : Str
  host_ : Str
  has_authority_ : Bool
  port_ : Nat
  path_ : Str
  query_ : Str
  fragment_ : Str
  query_params_ : List (Str × Str)
  deriving DecidableEq, Repr

/-- The port part of the constructor: the checks on the result of `strtoul`.
The result is the new `port_` or the exception, with `errno` afterwards. -/
def parsePort (port : Str) (errno : Nat) : Except UriError Nat × Nat :=
  if port.isEmpty then (.ok 0, errno)
  else
    let r := strtoul port errno
    if r.2.1 != port.length then (.error (.InvalidPort port), r.2.2)
    else if r.2.2 == ERANGE then (.error (.InvalidPort port), r.2.2)
    else if r.1 > UINT16_MAX then (.error (.InvalidPort port), r.2.2)
    else (.ok (r.1 % 2 ^ 16), r.2.2)

/-- The constructor `Uri::Uri(const std::string&)`.  `errno` is the value of
the C variable when the constructor is entered; the result carries its value
on exit.  `garbage` is what the uninitialised variable of `decode` holds. -/
def Uri.Uri (garbage : Str → Int) (str : Str) (errno : Nat) : Except UriError Uri × Nat :=
  match regex_match uri_regex str with
  | none => (.error (.InvalidUri str), errno)
  | some m =>
    let scheme := toLower (submatch m 1)
    let authority_and_path := submatch m 2
    match regex_match authority_and_path_regex authority_and_path with
    | none =>
      (.ok { scheme_ := scheme, username_ := [], password_ := [], host_ := [],
             has_authority_ := false, port_ := 0, path_ := authority_and_path,
             query_ := decode garbage (submatch m 3), fragment_ := decode garbage (submatch m 4),
             query_params_ := [] }, errno)
    | some apm =>
      let authority := submatch apm 1
      match regex_match authority_regex authority with
      | none => (.error (.InvalidAuthority authority), errno)
      | some am =>
        match parsePort (decode garbage (submatch am 4)) errno with
        | (.error e, errno1) => (.error e, errno1)
        | (.ok port, errno1) =>
          (.ok { scheme_ := scheme,
                 username_ := decode garbage (submatch am 1),
                 password_ := decode garbage (submatch am 2),
                 host_ := decode garbage (submatch am 3),
                 has_authority_ := true, port_ := port,
                 path_ := decode garbage (submatch apm 2),
                 query_ := decode garbage (submatch m 3), fragment_ := decode garbage (submatch m 4),
                 query_params_ := [] }, errno1)

/-! ## The words of the specification -/

/-- The class `[^:]`. -/
def notColon (c : Char) : Bool := c != ':'

/-- The text before the first `:` of the input. -/
def beforeColon (str : Str) : Str := str.takeWhile notColon

/-- The text after the first `:` of the input. -/
def afterColon (str : Str) : Str := (str.dropWhile notColon).tail

/-- A scheme: a letter followed by letters, digits, `+`, `.` or `-`. -/
def isScheme : Str → Bool
  | [] => false
  | c :: t => isalpha c && t.all isSchemeChar

/-- The authority-and-path block: the longest prefix of the text after the
scheme that has neither `?` nor `#`. -/
def blockOf (rest : Str) : Str := rest.takeWhile notQueryHash

/-- The raw query: the text between a `?` that follows the block and the next
`#` or the end; empty when the block is not followed by `?`. -/
def queryOf (rest : Str) : Str :=
  match rest.dropWhile notQueryHash with
  | '?' :: q => q.takeWhile notHash
  | _ => []

/-- The raw fragment: everything after the first `#`; empty without a `#`. -/
def fragmentOf (rest : Str) : Str := (rest.dropWhile notHash).tail

/-- The percent-decoding of the specification: from left to right, `%XY` with
two hexadecimal digits becomes the byte 16 * hex X + hex Y, any other
character is copied, and a `%` that is not followed by two hexadecimal digits
is the failure `MalformedEscape` (`none`). -/
def refDecode : Str → Option Str
  | [] => some []
  | c :: t =>
    if c == '%' then
      match t with
      | x :: y :: t1 =>
        if isxdigit x && isxdigit y then
          (refDecode t1).map (fun r => Char.ofNat (16 * hexVal x + hexVal y) :: r)
        else none
      | _ => none
    else (refDecode t).map (fun r => c :: r)

/-- A line terminator of ECMAScript, which the atom `.` does not match. -/
def isLineTerminator (c : Char) : Bool := c == '\n' || c == '\r'

/-! ## The patterns as scanners

Each pattern of the source is matched by a scan without backtracking, which the
theorems below prove equal to the run of the pattern.  The builders describe
the inputs of the claims. -/

/-- What `(?:#(.*))?` followed by the end of the input does. -/
def fragTail (s : Str) (m : Caps) : Option Caps :=
  match s with
  | [] => some m
  | c :: f => if c == '#' && f.all dot then some ((4, f) :: m) else none

/-- What `(?:\?([^#]*))?(?:#(.*))?` followed by the end of the input does. -/
def queryTail (s : Str) (m : Caps) : Option Caps :=
  match s with
  | [] => some m
  | c :: q =>
    if c == '?' then fragTail (q.dropWhile notHash) ((3, q.takeWhile notHash) :: m)
    else fragTail (c :: q) m

/-- What the pattern `uri_regex` does on an input. -/
def uriScan (str : Str) : Option Caps :=
  match str with
  | [] => none
  | c :: t =>
    if isalpha c then
      match t.dropWhile isSchemeChar with
      | [] => none
      | x :: rest =>
        if x == ':' then
          queryTail (rest.dropWhile notQueryHash)
            [(2, rest.takeWhile notQueryHash), (1, c :: t.takeWhile isSchemeChar)]
        else none
    else none

/-- What `(/.*)?` followed by the end of the input does. -/
def pathTail (d : Str) (m : Caps) : Option Caps :=
  match d with
  | [] => some m
  | c :: r => if c == '/' && r.all dot then some ((2, c :: r) :: m) else none

/-- What the pattern `authority_and_path_regex` does on an input. -/
def apScan (s : Str) : Option Caps :=
  match s with
  | c1 :: c2 :: t =>
    if c1 == '/' && c2 == '/' then
      pathTail (t.dropWhile notSlash) [(1, t.takeWhile notSlash)]
    else none
  | _ => none

/-- What `(?::(\d*))?` followed by the end of the input does. -/
def portTail (s : Str) (m : Caps) : Option Caps :=
  match s with
  | [] => some m
  | c :: d => if c == ':' && d.all isdigit then some ((4, d) :: m) else none

/-- What the first alternative of the host, `\[[^\]]*\]`, followed by the
port does; the capture is the text consumed. -/
def bracketScan (s : Str) (m : Caps) : Option Caps :=
  match s with
  | [] => none
  | c :: t =>
    if c == '[' then
      match t.dropWhile notRBracket with
      | [] => none
      | x :: r =>
        if x == ']' then portTail r ((3, (c :: t).take ((c :: t).length - r.length)) :: m)
        else none
    else none

/-- What the host and the port do: the bracketed alternative first, then the
plain one. -/
def hostScan (s : Str) (m : Caps) : Option Caps :=
  orElse (bracketScan s m)
    (portTail (s.dropWhile notLBracketColon) ((3, s.takeWhile notLBracketColon) :: m))

/-- What the `@` that ends the user information, followed by host and port,
does. -/
def atScan (s : Str) (m : Caps) : Option Caps :=
  match s with
  | [] => none
  | c :: t => if c == '@' then hostScan t m else none

/-- What the user information group does when it is tried: user name, then
the password if a `:` follows, then `@`. -/
def userinfoScan (A : Str) : Option Caps :=
  orElse
    (match A.dropWhile notAtColon with
     | [] => none
     | c :: r =>
       if c == ':' then
         atScan (r.dropWhile notAt) [(2, r.takeWhile notAt), (1, A.takeWhile notAtColon)]
       else none)
    (atScan (A.dropWhile notAtColon) [(1, A.takeWhile notAtColon)])

/-- What the pattern `authority_regex` does on an input: the user information
group is tried first, and left out if the match fails with it. -/
def authorityScan (A : Str) : Option Caps :=
  orElse (userinfoScan A) (hostScan A [])

/-- No character of `s` is one of `bad`. -/
def noneOf (bad : List Char) (s : Str) : Bool := s.all (fun c => !bad.contains c)

/-- The text of the optional user information with its `@`: nothing, a user
name, or a user name, `:` and a password. -/
def userinfoText : Option (Str × Option Str) → Str
  | none => []
  | some (u, none) => u ++ ['@']
  | some (u, some p) => u ++ ':' :: (p ++ ['@'])

/-! ## Searching: `getQueryParams` -/

/-- The class `[^=&]`. -/
def notEqAmp (c : Char) : Bool := c != '=' && c != '&'

/-- Patterns with the assertions `^`, `$` and `(?=...)`, which the pattern of
`getQueryParams` uses; a pattern without assertions is embedded as it is. -/
inductive Rx where
  /-- A pattern without assertions. -/
  | re (r : Re)
  /-- The assertion `^`. -/
  | bol
  /-- The assertion `$`. -/
  | eol
  /-- The lookahead `(?=a)`. -/
  | look (a : Rx)
  /-- Concatenation. -/
  | seq (a b : Rx)
  /-- Alternation `a|b`. -/
  | alt (a b : Rx)
  /-- The capturing group number `idx`. -/
  | group (idx : Nat) (a : Rx)

/-- Backtracking execution of a pattern with assertions, as the executor of
the library (libstdc++) runs it.  `beginLen` is the length of the input at the
position where the attempt began (`_M_begin`), `bolOk` tells whether `^` may
match there (it may not under `match_prev_avail`), and `not_null` is the flag
`match_not_null`.  `$` matches at the end of the input.  A lookahead is run by
an executor of its own (`_M_lookahead`), which begins where the lookahead
stands and has the same flags, so that under `match_not_null` it refuses a
lookahead that matches nothing; the captures of its first match are kept, and
nothing is consumed. -/
def Rx.exec (bolOk not_null : Bool) :
    Nat → Rx → Str → Caps → (Str → Caps → Option Caps) → Option Caps
  | _, .re r, s, m, k => r.exec s m k
  | beginLen, .bol, s, m, k => if bolOk && s.length == beginLen then k s m else none
  | _, .eol, s, m, k => if s.isEmpty then k s m else none
  | _, .look a, s, m, k =>
    match Rx.exec bolOk not_null s.length a s m
        (fun s1 m1 => if not_null && s1.length == s.length then none else some m1) with
    | some m1 => k s m1
    | none => none
  | beginLen, .seq a b, s, m, k =>
    Rx.exec bolOk not_null beginLen a s m
      (fun s1 m1 => Rx.exec bolOk not_null beginLen b s1 m1 k)
  | beginLen, .alt a b, s, m, k =>
    orElse (Rx.exec bolOk not_null beginLen a s m k) (Rx.exec bolOk not_null beginLen b s m k)
  | beginLen, .group idx a, s, m, k =>
    Rx.exec bolOk not_null beginLen a s m
      (fun s1 m1 => k s1 ((idx, s.take (s.length - s1.length)) :: m1))

/-- The acceptance of a search attempt that began on `s`: the whole match is
recorded as sub-match 0; under `match_not_null` an empty match is refused. -/
def acceptAt (s : Str) (not_null : Bool) (s1 : Str) (m : Caps) : Option Caps :=
  if not_null && s1.length == s.length then none
  else some ((0, s.take (s.length - s1.length)) :: m)

/-- One attempt of a search, at the beginning of `s`. -/
def attempt (r : Rx) (prev_avail not_null : Bool) (s : Str) : Option Caps :=
  Rx.exec (!prev_avail) not_null s.length r s [] (acceptAt s not_null)

/-- The attempts of a search at the positions after the first one, each with
`match_prev_avail` set: the offset of the match and its sub-matches. -/
def searchLater (r : Rx) (not_null : Bool) : Str → Option (Nat × Caps)
  | [] => none
  | _ :: t =>
    match attempt r true not_null t with
    | some m => some (1, m)
    | none => (searchLater r not_null t).map (fun x => (x.1 + 1, x.2))

/-- The function `std::regex_search` with the flags `match_prev_avail`,
`match_not_null` and `match_continuous`: the offset of the first position
where the pattern matches, and the sub-matches there. -/
def regex_search (r : Rx) (prev_avail not_null continuous : Bool) (s : Str) :
    Option (Nat × Caps) :=
  match attempt r prev_avail not_null s with
  | some m => some (0, m)
  | none => if continuous then none else searchLater r not_null s

/-- The increments of a `std::regex_iterator`: the matches after a match that
ended where `s` begins.  After an empty match the same position is tried
again with `match_not_null | match_continuous`, and left by one character
when that fails; otherwise the search goes on with `match_prev_avail`. -/
def regex_iterator_next (r : Rx) : Nat → Str → Bool → Bool → List Caps
  | 0, _, _, _ => []
  | fuel + 1, s, true, prev_avail =>
    match s with
    | [] => []
    | c :: t =>
      match regex_search r prev_avail true true (c :: t) with
      | some (i, m) =>
        m :: regex_iterator_next r fuel ((c :: t).drop (i + (submatch m 0).length))
          ((submatch m 0).length == 0) prev_avail
      | none => regex_iterator_next r fuel t false true
  | fuel + 1, s, false, _ =>
    match regex_search r true false false s with
    | some (i, m) =>
      m :: regex_iterator_next r fuel (s.drop (i + (submatch m 0).length))
        ((submatch m 0).length == 0) true
    | none => []

/-- All the matches a `std::cregex_iterator` over `s` runs through.  Two
increments always move on in `s`, so `2 * s.length + 4` of them reach the
end. -/
def regex_iterator (r : Rx) (s : Str) : List Caps :=
  match regex_search r false false false s with
  | some (i, m) =>
    m :: regex_iterator_next r (2 * s.length + 4) (s.drop (i + (submatch m 0).length))
      ((submatch m 0).length == 0) false
  | none => []

/-- The line `(^|&)` of `query_param_regex`. -/
def query_start_re : Rx := .group 1 (.alt .bol (.re (.lit '&')))

/-- The line `([^=&]*)=?` of `query_param_regex`: the name and `=`. -/
def query_name_re : Rx := .re (.seq (.group 2 (.star notEqAmp)) (.opt (.lit '=')))

/-- The line `([^=&]*)` of `query_param_regex`: the value. -/
def query_value_re : Rx := .re (.group 3 (.star notEqAmp))

/-- The line `(?=(&|$))` of `query_param_regex`. -/
def query_ahead_re : Rx := .look (.group 4 (.alt (.re (.lit '&')) .eol))

/-- The pattern `(^|&)([^=&]*)=?([^=&]*)(?=(&|$))`. -/
def query_param_regex : Rx :=
  .seq query_start_re (.seq query_name_re (.seq query_value_re query_ahead_re))

/-- The body of the loop of `getQueryParams`: a match with an empty name is
passed over, any other appends the pair of its name and value. -/
def addQueryParam (params : List (Str × Str)) (m : Caps) : List (Str × Str) :=
  if (submatch m 2).length == 0 then params
  else params ++ [(submatch m 2, submatch m 3)]

/-- The method `Uri::getQueryParams`: the sequence returned, and the object
afterwards (the method fills the member `query_params_`). -/
def Uri.getQueryParams (u : artanis.Uri) : List (Str × Str) × artanis.Uri :=
  if !u.query_.isEmpty && u.query_params_.isEmpty then
    let params := (regex_iterator query_param_regex u.query_).foldl addQueryParam u.query_params_
    (params, { u with query_params_ := params })
  else (u.query_params_, u)

/-- What the lookahead `(?=(&|$))` followed by the acceptance `acc` does: under
`match_not_null` the end of the input, where the lookahead matches nothing,
is refused. -/
def aheadScan (not_null : Bool) (s : Str) (m : Caps) (acc : Str → Caps → Option Caps) :
    Option Caps :=
  match s with
  | [] => if not_null then none else acc [] ((4, []) :: m)
  | c :: t => if c == '&' then acc (c :: t) ((4, ['&']) :: m) else none

/-- The lines `([^=&]*)=?`, `([^=&]*)` and `(?=(&|$))` of `query_param_regex`:
what follows the start of a parameter. -/
def query_segment_re : Rx := .seq query_name_re (.seq query_value_re query_ahead_re)

/-- Each segment with `&` before it. -/
def ampJoin : List Str → Str
  | [] => []
  | g :: gs => '&' :: (g ++ ampJoin gs)

/-- The split of a query at every `&`. -/
def splitAmp : Str → List Str
  | [] => [[]]
  | c :: t =>
    if c == '&' then [] :: splitAmp t
    else
      match splitAmp t with
      | g :: gs => (c :: g) :: gs
      | [] => [[c]]

/-- The class `[^=]`. -/
def notEq (c : Char) : Bool := c != '='

/-- The name of a segment: the text before its `=`, or the whole segment. -/
def segmentName (g : Str) : Str := g.takeWhile notEq

/-- The value of a segment: the text after its `=`, or nothing. -/
def segmentValue (g : Str) : Str := (g.dropWhile notEq).tail

/-- The pair of a segment with at most one `=`: nothing for an empty name. -/
def segmentPair (g : Str) : Option (Str × Str) :=
  if (segmentName g).isEmpty then none else some (segmentName g, segmentValue g)

/-- A segment with at most one `=`. -/
def goodSegment (g : Str) : Bool := decide (g.count '=' ≤ 1)

/-- The pair a segment contributes: none when it has two or more `=`. -/
def segmentParam (g : Str) : Option (Str × Str) :=
  if goodSegment g then segmentPair g else none

/-- What the value `([^=&]*)` followed by the lookahead does. -/
def valueScan (not_null : Bool) (s1 : Str) (m1 : Caps) (acc : Str → Caps → Option Caps) :
    Option Caps :=
  starExec notEqAmp
    (fun s2 => aheadScan not_null s2 ((3, s1.take (s1.length - s2.length)) :: m1) acc) s1

/-- The name and the value of a match of `query_param_regex`. -/
def pairOf (m : Caps) : Str × Str := (submatch m 2, submatch m 3)

/-- The name and the value of a segment. -/
def segmentRaw (g : Str) : Str × Str := (segmentName g, segmentValue g)

/-- The sequence of the specification for a query: the pairs of the segments
between the `&`, without those of an empty name and those with two or more
`=`. -/
def queryParams (q : Str) : List (Str × Str) := (splitAmp q).filterMap segmentParam

/-- The segments that the increments of the iterator reach after an empty
first match: none, when one segment only is left. -/
def retrySegments : List Str → List Str
  | [_] => []
  | gs => gs

/-- The segments that the iterator reaches: all of them, but the first one
only for a query `&g`. -/
def iteratedSegments : List Str → List Str
  | [[], _] => [[]]
  | gs => gs

/-- A query that is a `&` and then one segment to the end, `&g` without a
further `&`. -/
def lostSegments : List Str → Bool
  | [[], _] => true
  | _ => false

/-- A query `&g`, by its segments. -/
def lostQuery (q : Str) : Bool := lostSegments (splitAmp q)

/-- The sequence that the loop of `getQueryParams` builds from an empty
vector: that of the specification, but nothing for a query `&g`. -/
def foundParams (q : Str) : List (Str × Str) := if lostQuery q then [] else queryParams q

/-- The object after `n` calls of `getQueryParams`. -/
def Uri.afterCalls (u : artanis.Uri) : Nat → artanis.Uri
  | 0 => u
  | n + 1 => (Uri.afterCalls u n).getQueryParams.2

/-! ## The accessors `authority()` and `hostname()` -/

/-- The function `std::to_string` on a port: its decimal representation. -/
def to_string (n : Nat) : Str := Nat.toDigits 10 n

/-- The largest `size_t` (LP64). -/
def SIZE_MAX : Nat := 2 ^ 64 - 1

/-- The difference `a - b` of two `size_t`, which wraps around. -/
def size_sub (a b : Nat) : Nat := (a + (SIZE_MAX + 1) - b % (SIZE_MAX + 1)) % (SIZE_MAX + 1)

/-- The method `std::string::substr(pos, n)` for `pos` within the string: at
most `n` characters from the position `pos` on. -/
def substr (s : Str) (pos n : Nat) : Str := (s.drop pos).take n

/-- The method `Uri::authority`. -/
def Uri.authority (u : artanis.Uri) : Str :=
  let result : Str := []
  let result :=
    if !u.username_.isEmpty || !u.password_.isEmpty then
      let result := result ++ u.username_
      let result := if !u.password_.isEmpty then (result ++ [':']) ++ u.password_ else result
      result ++ ['@']
    else result
  let result := result ++ u.host_
  if u.port_ != 0 then (result ++ [':']) ++ to_string u.port_ else result

/-- The method `Uri::hostname`. -/
def Uri.hostname (u : artanis.Uri) : Str :=
  if decide (u.host_.length > 0) && u.host_.head? == some '[' then
    substr u.host_ 1 (size_sub u.host_.length 2)
  else u.host_

/-- The user information of a canonical authority: none, or a non-empty user
name without `@`, `:`, `/`, `?`, `#`, `%`, with or without a non-empty
password without `@`, `/`, `?`, `#`, `%`. -/
def userinfoPlain : Option (Str × Option Str) → Bool
  | none => true
  | some (u, none) => !u.isEmpty && noneOf ['@', ':', '/', '?', '#', '%'] u
  | some (u, some p) =>
    !u.isEmpty && noneOf ['@', ':', '/', '?', '#', '%'] u
      && !p.isEmpty && noneOf ['@', '/', '?', '#', '%'] p

/-- The user name of a user information. -/
def userOf : Option (Str × Option Str) → Str
  | none => []
  | some (u, _) => u

/-- The password of a user information. -/
def passOf : Option (Str × Option Str) → Str
  | some (_, some p) => p
  | _ => []

/-- The text of the optional port of a canonical authority: `:` and the
decimal representation of the port. -/
def portText : Option Nat → Str
  | none => []
  | some k => ':' :: to_string k

/-- The digits of the optional port. -/
def digitsOf : Option Nat → Str
  | none => []
  | some k => to_string k

/-- A canonical authority: the optional user information with `@`, the host,
the optional port with `:`. -/
def authorityText (ui : Option (Str × Option Str)) (h : Str) (port : Option Nat) : Str :=
  userinfoText ui ++ (h ++ portText port)

/-! ## The converter `ProtobufUtil` (`my_util/include/protobuf/util.h`)

The message, its descriptor and its reflection belong to the protobuf
library, and `Json::Value` to jsoncpp; they are modelled by what the converter
asks of them. -/

/-- A `Json::Value`: null, a signed or an unsigned number, a string, an array,
or an object, whose members are kept in the order they were first set. -/
inductive Json where
  | null
  | int (v : Int)
  | uint (v : Nat)
  | string (s : Str)
  | array (xs : List Json)
  | object (members : List (Str × Json))

mutual
/-- A message as the reflection shows it: what `ByteSize()` returns, and the
fields of the descriptor in their order. -/
inductive Message where
  | mk (ByteSize : Nat) (fields : List Field)
/-- A field: its name, `is_repeated()`, and its values: the elements of a
repeated field; for any other field no value when `HasField` is false, and
the value first otherwise. -/
inductive Field where
  | mk (name : Str) (is_repeated : Bool) (values : List FieldValue)
/-- A value with the `type()` of its field; `TYPE_OTHER` stands for the types
that the converter leaves to `default`. -/
inductive FieldValue where
  | TYPE_MESSAGE (m : Message)
  | TYPE_INT32 (v : Int)
  | TYPE_UINT32 (v : Nat)
  | TYPE_INT64 (v : Int)
  | TYPE_UINT64 (v : Nat)
  | TYPE_STRING (s : Str)
  | TYPE_BYTES (s : Str)
  | TYPE_OTHER
end

/-- The value of `value[key]`: the member, or null when there is none yet. -/
def Json.member (value : Json) (key : Str) : Json :=
  match value with
  | .object ms => (ms.lookup key).getD .null
  | _ => .null

/-- The members of an object after `value[key] = x`. -/
def setKey (ms : List (Str × Json)) (key : Str) (x : Json) : List (Str × Json) :=
  if ms.any (fun p => p.1 == key) then ms.map (fun p => if p.1 == key then (p.1, x) else p)
  else ms ++ [(key, x)]

/-- The assignment `value[key] = x`: a null value becomes an object; jsoncpp
refuses any value that is neither null nor an object (`none`). -/
def Json.setMember (value : Json) (key : Str) (x : Json) : Option Json :=
  match value with
  | .null => some (.object [(key, x)])
  | .object ms => some (.object (setKey ms key x))
  | _ => none

/-- The call `value.append(x)`: a null value becomes an array; jsoncpp refuses
any value that is neither null nor an array (`none`). -/
def Json.append (value : Json) (x : Json) : Option Json :=
  match value with
  | .null => some (.array [x])
  | .array xs => some (.array (xs ++ [x]))
  | _ => none

/-- The output of `printf` for `%lld`: the sign and the decimal digits. -/
def printf_lld (v : Int) : Str :=
  if v < 0 then '-' :: Nat.toDigits 10 v.natAbs else Nat.toDigits 10 v.natAbs

/-- The output of `printf` for `%llu`: the decimal digits. -/
def printf_llu (v : Nat) : Str := Nat.toDigits 10 v

/-- The string left in a zeroed buffer of `size` bytes by `snprintf`: the
output cut to `size - 1` characters. -/
def snprintf (size : Nat) (output : Str) : Str := output.take (size - 1)

mutual
/-- The function `ProtobufUtil::FormatToJson`: the value afterwards, or `none`
when jsoncpp refuses an access. -/
def FormatToJson (value : Json) : Message → Option Json
  | .mk _ fields => formatFields value fields
/-- The loop of `FormatToJson` over the fields. -/
def formatFields (value : Json) : List Field → Option Json
  | [] => some value
  | f :: rest =>
    match formatField value f with
    | some value1 => formatFields value1 rest
    | none => none
/-- The body of the loop of `FormatToJson`.  The call
`FormatToJson(value[name], tmp_msg)` on a nested message is the loop over the
fields of `tmp_msg`, run on the member; the call
`FormatRepeatedField(value[name], msg, field, reflection)` has a field and a
reflection that are not null, and is the loop over the elements. -/
def formatField (value : Json) : Field → Option Json
  | .mk name is_repeated values =>
    if is_repeated then
      match values with
      | [] => some value
      | v :: vs =>
        match repeatedLoop (value.member name) (v :: vs) with
        | some sub => value.setMember name sub
        | none => none
    else
      match values with
      | [] => some value
      | v :: _ =>
        match v with
        | .TYPE_MESSAGE m =>
          match m with
          | .mk ByteSize fields =>
            if ByteSize != 0 then
              match formatFields (value.member name) fields with
              | some sub => value.setMember name sub
              | none => none
            else some value
        | .TYPE_INT32 x => value.setMember name (.int x)
        | .TYPE_UINT32 x => value.setMember name (.uint x)
        | .TYPE_INT64 x => value.setMember name (.string (snprintf 25 (printf_lld x)))
        | .TYPE_UINT64 x => value.setMember name (.string (snprintf 25 (printf_llu x)))
        | .TYPE_STRING s => value.setMember name (.string s)
        | .TYPE_BYTES s => value.setMember name (.string s)
        | .TYPE_OTHER => some value
/-- The loop of `FormatRepeatedField` over the elements of the field: each
`tmp_value` is appended. -/
def repeatedLoop (value : Json) : List FieldValue → Option Json
  | [] => some value
  | v :: rest =>
    match tmp_value v with
    | some tmp =>
      match value.append tmp with
      | some value1 => repeatedLoop value1 rest
      | none => none
    | none => none
/-- The `tmp_value` that the body of the loop of `FormatRepeatedField` makes
of an element: the `switch` on a `Json::Value` that is null at first. -/
def tmp_value : FieldValue → Option Json
  | .TYPE_MESSAGE m =>
    match m with
    | .mk ByteSize fields =>
      if ByteSize != 0 then formatFields .null fields else some .null
  | .TYPE_INT32 x => some (.int x)
  | .TYPE_UINT32 x => some (.uint x)
  | .TYPE_INT64 x => some (.string (snprintf 25 (printf_lld x)))
  | .TYPE_UINT64 x => some (.string (snprintf 25 (printf_llu x)))
  | .TYPE_STRING s => some (.string s)
  | .TYPE_BYTES s => some (.string s)
  | .TYPE_OTHER => some .null
end

/-- The values of a field. -/
def Field.values : Field → List FieldValue
  | .mk _ _ values => values

/-- The function `ProtobufUtil::FormatRepeatedField(value, msg, field,
reflection)`; `none` stands for a null pointer.  The source declares it
`public void`, which is not C++, and calls it from the static `FormatToJson`
without an object: it is read as a static member.  With a null `field` or
`reflection` it calls `FormatToJson(value, msg)` and then evaluates
`reflection->FieldSize(msg, field)` through the null pointer, which has no
result. -/
def FormatRepeatedField (value : Json) (msg : Message) (field : Option Field)
    (reflection : Option Unit) : Option Json :=
  match field, reflection with
  | some f, some _ => repeatedLoop value f.values
  | _, _ =>
    match FormatToJson value msg with
    | some _ => none
    | none => none

/-- The document of the specification for a value of a scalar type: a number
for 32 bits, the decimal representation as a string for 64 bits, the content
as a string for a string or bytes. -/
def scalarJson : FieldValue → Option Json
  | .TYPE_INT32 v => some (.int v)
  | .TYPE_UINT32 v => some (.uint v)
  | .TYPE_INT64 v => some (.string (if v < 0 then '-' :: to_string v.natAbs else to_string v.natAbs))
  | .TYPE_UINT64 v => some (.string (to_string v))
  | .TYPE_STRING s => some (.string s)
  | .TYPE_BYTES s => some (.string s)
  | _ => none

/-- The values of the 64-bit types lie in the range of their type. -/
def inRange : FieldValue → Prop
  | .TYPE_INT64 v => -(2 : Int) ^ 63 ≤ v ∧ v < (2 : Int) ^ 63
  | .TYPE_UINT64 v => v < 2 ^ 64
  | _ => True

/-- The name of a field. -/
def Field.name : Field → Str
  | .mk name _ _ => name

/-- The object with the given members; a value that nothing was assigned to
is still null. -/
def objectOf : List (Str × Json) → Json
  | [] => .null
  | p :: ms => .object (p :: ms)

mutual
/-- The document of the specification for a message (`toDocument`): the
object of the members of its fields, in their order. -/
def toDocument : Message → Json
  | .mk _ fields => objectOf (documentMembers fields)
/-- The members of the document for the fields of a message. -/
def documentMembers : List Field → List (Str × Json)
  | [] => []
  | f :: rest =>
    match documentMember f with
    | some p => p :: documentMembers rest
    | none => documentMembers rest
/-- The member of the document for a field: none for a field that is not set
or has no element, for a nested message of size 0 and for a value of another
type; the array of the documents of its elements for a repeated field; the
document of its value otherwise. -/
def documentMember : Field → Option (Str × Json)
  | .mk name is_repeated values =>
    match values with
    | [] => none
    | v :: vs =>
      if is_repeated then some (name, .array (documentElements (v :: vs)))
      else
        match v with
        | .TYPE_MESSAGE m =>
          match m with
          | .mk ByteSize fields =>
            if ByteSize != 0 then some (name, objectOf (documentMembers fields)) else none
        | .TYPE_INT32 x => some (name, .int x)
        | .TYPE_UINT32 x => some (name, .uint x)
        | .TYPE_INT64 x =>
          some (name, .string (if x < 0 then '-' :: to_string x.natAbs else to_string x.natAbs))
        | .TYPE_UINT64 x => some (name, .string (to_string x))
        | .TYPE_STRING s => some (name, .string s)
        | .TYPE_BYTES s => some (name, .string s)
        | .TYPE_OTHER => none
/-- The documents of the elements of a repeated field, in their order. -/
def documentElements : List FieldValue → List Json
  | [] => []
  | v :: rest => documentElement v :: documentElements rest
/-- The document of an element of a repeated field: null for a nested message
of size 0 and for a value of another type. -/
def documentElement : FieldValue → Json
  | .TYPE_MESSAGE m =>
    match m with
    | .mk ByteSize fields => if ByteSize != 0 then objectOf (documentMembers fields) else .null
  | .TYPE_INT32 x => .int x
  | .TYPE_UINT32 x => .uint x
  | .TYPE_INT64 x => .string (if x < 0 then '-' :: to_string x.natAbs else to_string x.natAbs)
  | .TYPE_UINT64 x => .string (to_string x)
  | .TYPE_STRING s => .string s
  | .TYPE_BYTES s => .string s
  | .TYPE_OTHER => .null
end

mutual
/-- A message as the library gives it: the names of its fields are distinct,
in every nested message too, and the 64-bit values are within the range of
their type. -/
def wfMessage : Message → Bool
  | .mk _ fields => decide ((fields.map Field.name).Nodup) && wfFields fields
/-- The fields of such a message. -/
def wfFields : List Field → Bool
  | [] => true
  | f :: rest => wfField f && wfFields rest
/-- A field of such a message. -/
def wfField : Field → Bool
  | .mk _ _ values => wfValues values
/-- The values of such a field. -/
def wfValues : List FieldValue → Bool
  | [] => true
  | v :: rest => wfValue v && wfValues rest
/-- A value of such a field. -/
def wfValue : FieldValue → Bool
  | .TYPE_MESSAGE m => wfMessage m
  | .TYPE_INT64 x => decide (-(2 : Int) ^ 63 ≤ x ∧ x < (2 : Int) ^ 63)
  | .TYPE_UINT64 x => decide (x < 2 ^ 64)
  | _ => true
end

/-- The user name is in `[^@:]*` and the password in `[^@]*`, as the pattern
`authority_regex` takes them. -/
def userinfoShape : Option (Str × Option Str) → Bool
  | none => true
  | some (u, none) => u.all notAtColon
  | some (u, some p) => u.all notAtColon && p.all notAt

/-! ## Facts about lists and the matcher

In every theorem below that mentions it, `garbage` is arbitrary: the theorem
holds whatever the uninitialised variable of `decode` holds. -/

variable {garbage : Str → Int}

theorem orElse_none_right (a : Option Caps) : orElse a none = a := by
  cases a <;> rfl

theorem orElse_none_left (a : Option Caps) : orElse none a = a := rfl

/-- A star whose continuation rejects every input that begins with a character
of the class never backtracks: it takes the longest run. -/
theorem starExec_det (p : Char → Bool) (k : Str → Option Caps)
    (hk : ∀ c t, p c = true → k (c :: t) = none) (s : Str) :
    starExec p k s = k (s.dropWhile p) := by
  induction s with
  | nil => rfl
  | cons c t ih =>
    by_cases hc : p c = true
    · simp [starExec, hc, ih, hk c t hc, orElse_none_right]
    · simp [starExec, hc]

theorem take_length_sub_dropWhile (p : Char → Bool) (s : Str) :
    s.take (s.length - (s.dropWhile p).length) = s.takeWhile p := by
  induction s with
  | nil => rfl
  | cons c t ih =>
    by_cases hc : p c = true
    · have hle : (t.dropWhile p).length ≤ t.length := (List.dropWhile_sublist p).length_le
      have h1 : (c :: t).length - (t.dropWhile p).length
          = (t.length - (t.dropWhile p).length) + 1 := by
        simp only [List.length_cons]; omega
      simp only [List.dropWhile_cons, hc, if_true, List.takeWhile_cons, h1, List.take_succ_cons, ih]
    · simp [hc]

theorem dropWhile_append_stop (p : Char → Bool) (a : Str) (x : Char) (b : Str)
    (ha : ∀ c ∈ a, p c = true) (hx : p x = false) :
    (a ++ x :: b).dropWhile p = x :: b := by
  induction a with
  | nil => simp [hx]
  | cons c t ih =>
    have hc : p c = true := ha c (by simp)
    simp only [List.cons_append, List.dropWhile_cons, hc, if_true]
    exact ih (fun d hd => ha d (by simp [hd]))

theorem takeWhile_append_stop (p : Char → Bool) (a : Str) (x : Char) (b : Str)
    (ha : ∀ c ∈ a, p c = true) (hx : p x = false) :
    (a ++ x :: b).takeWhile p = a := by
  induction a with
  | nil => simp [hx]
  | cons c t ih =>
    have hc : p c = true := ha c (by simp)
    simp only [List.cons_append, List.takeWhile_cons, hc, if_true]
    rw [ih (fun d hd => ha d (by simp [hd]))]

theorem dropWhile_all (p : Char → Bool) (a : Str) (ha : ∀ c ∈ a, p c = true) :
    a.dropWhile p = [] := by
  induction a with
  | nil => rfl
  | cons c t ih =>
    have hc : p c = true := ha c (by simp)
    simp only [List.dropWhile_cons, hc, if_true]
    exact ih (fun d hd => ha d (by simp [hd]))

theorem takeWhile_all (p : Char → Bool) (a : Str) (ha : ∀ c ∈ a, p c = true) :
    a.takeWhile p = a := by
  induction a with
  | nil => rfl
  | cons c t ih =>
    have hc : p c = true := ha c (by simp)
    simp only [List.takeWhile_cons, hc, if_true]
    rw [ih (fun d hd => ha d (by simp [hd]))]

theorem atEnd_cons (c : Char) (t : Str) (m : Caps) : atEnd (c :: t) m = none := rfl

theorem atEnd_nil (m : Caps) : atEnd [] m = some m := rfl

theorem exec_cls_cons (p : Char → Bool) (c : Char) (t : Str) (m : Caps)
    (k : Str → Caps → Option Caps) :
    (Re.cls p).exec (c :: t) m k = if p c then k t m else none := rfl

theorem exec_cls_nil (p : Char → Bool) (m : Caps) (k : Str → Caps → Option Caps) :
    (Re.cls p).exec [] m k = none := rfl

theorem exec_lit_cons (x c : Char) (t : Str) (m : Caps) (k : Str → Caps → Option Caps) :
    (Re.lit x).exec (c :: t) m k = if c == x then k t m else none := rfl

theorem exec_lit_nil (x : Char) (m : Caps) (k : Str → Caps → Option Caps) :
    (Re.lit x).exec [] m k = none := rfl

theorem exec_seq (a b : Re) (s : Str) (m : Caps) (k : Str → Caps → Option Caps) :
    (Re.seq a b).exec s m k = a.exec s m (fun s1 m1 => b.exec s1 m1 k) := rfl

theorem exec_opt (a : Re) (s : Str) (m : Caps) (k : Str → Caps → Option Caps) :
    (Re.opt a).exec s m k = orElse (a.exec s m k) (k s m) := rfl

theorem exec_alt (a b : Re) (s : Str) (m : Caps) (k : Str → Caps → Option Caps) :
    (Re.alt a b).exec s m k = orElse (a.exec s m k) (b.exec s m k) := rfl

theorem exec_group (idx : Nat) (a : Re) (s : Str) (m : Caps) (k : Str → Caps → Option Caps) :
    (Re.group idx a).exec s m k
      = a.exec s m (fun s1 m1 => k s1 ((idx, s.take (s.length - s1.length)) :: m1)) := rfl

theorem exec_star (p : Char → Bool) (s : Str) (m : Caps) (k : Str → Caps → Option Caps) :
    (Re.star p).exec s m k = starExec p (fun s1 => k s1 m) s := rfl

/-- A captured star whose continuation rejects the characters of its class. -/
theorem exec_group_star (idx : Nat) (p : Char → Bool) (s : Str) (m : Caps)
    (k : Str → Caps → Option Caps)
    (hk : ∀ c t m1, p c = true → k (c :: t) m1 = none) :
    Re.exec (.group idx (.star p)) s m k = k (s.dropWhile p) ((idx, s.takeWhile p) :: m) := by
  rw [exec_group, exec_star, starExec_det p _ (fun c t hc => hk c t _ hc),
    take_length_sub_dropWhile]

/-! ### The pattern `uri_regex` -/

theorem exec_fragment (s : Str) (m : Caps) :
    uri_fragment_re.exec s m atEnd = fragTail s m := by
  unfold uri_fragment_re
  cases s with
  | nil => simp [exec_opt, exec_seq, exec_lit_nil, orElse, fragTail, atEnd]
  | cons c f =>
    simp only [exec_opt, exec_seq, exec_lit_cons, atEnd_cons, orElse_none_right]
    by_cases hc : c = '#'
    · subst hc
      rw [if_pos (by simp), exec_group_star 4 dot f m atEnd (fun c t m1 _ => atEnd_cons c t m1)]
      by_cases hf : ∀ x ∈ f, dot x = true
      · rw [dropWhile_all dot f hf, takeWhile_all dot f hf]
        simp [fragTail, atEnd]
        exact hf
      · have hne : f.dropWhile dot ≠ [] := by
          intro h
          exact hf (List.dropWhile_eq_nil_iff.mp h)
        cases hd : f.dropWhile dot with
        | nil => exact absurd hd hne
        | cons x r =>
          have : f.all dot = false := by
            rw [Bool.eq_false_iff]; intro h; exact hf (by simpa using h)
          simp [fragTail, atEnd_cons, this]
    · simp [fragTail, hc]

theorem fragTail_cons_notHash (c : Char) (t : Str) (m : Caps) (hc : notHash c = true) :
    fragTail (c :: t) m = none := by
  have : c ≠ '#' := by simpa [notHash] using hc
  simp [fragTail, this]

theorem exec_query (s : Str) (m : Caps) :
    (Re.seq uri_query_re uri_fragment_re).exec s m atEnd = queryTail s m := by
  have hK : (fun s1 m1 => uri_fragment_re.exec s1 m1 atEnd) = fragTail := by
    funext s1 m1; exact exec_fragment s1 m1
  rw [exec_seq, hK]
  unfold uri_query_re
  cases s with
  | nil => simp [exec_opt, exec_seq, exec_lit_nil, orElse, queryTail, fragTail]
  | cons c q =>
    simp only [exec_opt, exec_seq, exec_lit_cons]
    by_cases hc : c = '?'
    · subst hc
      rw [if_pos (by simp), exec_group_star 3 notHash q m fragTail
        (fun c t m1 h => fragTail_cons_notHash c t m1 h)]
      have : fragTail ('?' :: q) m = none := by simp [fragTail]
      simp [queryTail, this, orElse_none_right]
    · simp [queryTail, hc, orElse]

theorem queryTail_cons_notQueryHash (c : Char) (t : Str) (m : Caps)
    (hc : notQueryHash c = true) : queryTail (c :: t) m = none := by
  have h : c ≠ '?' ∧ c ≠ '#' := by simpa [notQueryHash] using hc
  simp [queryTail, fragTail, h.1, h.2]

theorem take_cons_length_sub_dropWhile (p : Char → Bool) (c : Char) (t : Str) :
    (c :: t).take ((c :: t).length - (t.dropWhile p).length) = c :: t.takeWhile p := by
  have hle : (t.dropWhile p).length ≤ t.length := (List.dropWhile_sublist p).length_le
  have h1 : (c :: t).length - (t.dropWhile p).length
      = (t.length - (t.dropWhile p).length) + 1 := by
    simp only [List.length_cons]; omega
  rw [h1, List.take_succ_cons, take_length_sub_dropWhile]

theorem isSchemeChar_ne_colon (c : Char) (hc : isSchemeChar c = true) : (c == ':') = false := by
  rw [beq_eq_false_iff_ne]
  rintro rfl
  exact absurd hc (by decide)

theorem regex_match_uri (str : Str) : regex_match uri_regex str = uriScan str := by
  unfold regex_match uri_regex
  have hK : (fun s1 m1 => (Re.seq uri_query_re uri_fragment_re).exec s1 m1 atEnd) = queryTail := by
    funext s1 m1; exact exec_query s1 m1
  have hP : ∀ s m, (Re.seq uri_path_re (.seq uri_query_re uri_fragment_re)).exec s m atEnd
      = queryTail (s.dropWhile notQueryHash) ((2, s.takeWhile notQueryHash) :: m) := by
    intro s m
    rw [exec_seq, hK]
    exact exec_group_star 2 notQueryHash s m queryTail
      (fun c t m1 h => queryTail_cons_notQueryHash c t m1 h)
  rw [exec_seq]
  simp only [hP]
  unfold uri_scheme_re
  cases str with
  | nil => simp [exec_seq, exec_group, exec_cls_nil, uriScan]
  | cons c t =>
    simp only [exec_seq, exec_group, exec_cls_cons, exec_star]
    by_cases hc : isalpha c = true
    · rw [if_pos hc, starExec_det isSchemeChar]
      · simp only [take_cons_length_sub_dropWhile, uriScan, hc, if_true]
        cases t.dropWhile isSchemeChar with
        | nil => simp [exec_lit_nil]
        | cons x rest => simp [exec_lit_cons]
      · intro c1 t1 h1
        simp [exec_lit_cons, isSchemeChar_ne_colon c1 h1]
    · simp [hc, uriScan]

theorem dropWhile_eq_cons (p : Char → Bool) (s : Str) (x : Char) (r : Str)
    (h : s.dropWhile p = x :: r) : p x = false ∧ s = s.takeWhile p ++ x :: r := by
  constructor
  · have h1 := List.head_dropWhile_not p s (by rw [h]; simp)
    simpa [h] using h1
  · rw [← h, List.takeWhile_append_dropWhile]

theorem isalpha_ne_colon (c : Char) (hc : isalpha c = true) : notColon c = true := by
  simp only [notColon, bne_iff_ne]
  rintro rfl
  exact absurd hc (by decide)

theorem isSchemeChar_notColon (c : Char) (hc : isSchemeChar c = true) : notColon c = true := by
  simp only [notColon, bne_iff_ne]
  rintro rfl
  exact absurd hc (by decide)

/-- The scan of `uri_regex`, in the words of the specification. -/
theorem uriScan_eq (str : Str) :
    uriScan str =
      if ':' ∈ str ∧ isScheme (beforeColon str) = true then
        queryTail ((afterColon str).dropWhile notQueryHash)
          [(2, blockOf (afterColon str)), (1, beforeColon str)]
      else none := by
  cases str with
  | nil => simp [uriScan]
  | cons c t =>
    by_cases hc : isalpha c = true
    · have hcc : notColon c = true := isalpha_ne_colon c hc
      have hcne : ¬ (':' = c) := by
        intro h; subst h; exact absurd hcc (by decide)
      simp only [uriScan, hc, if_true]
      cases hd : t.dropWhile isSchemeChar with
      | nil =>
        have hall : ∀ x ∈ t, isSchemeChar x = true := List.dropWhile_eq_nil_iff.mp hd
        have hno : ¬ (':' ∈ c :: t) := by
          simp only [List.mem_cons, not_or]
          refine ⟨hcne, fun hm => ?_⟩
          exact absurd (isSchemeChar_notColon _ (hall _ hm)) (by decide)
        simp [hno]
      | cons x rest =>
        obtain ⟨hx, ht⟩ := dropWhile_eq_cons isSchemeChar t x rest hd
        have hpre : ∀ y ∈ t.takeWhile isSchemeChar, notColon y = true :=
          fun y hy => isSchemeChar_notColon y (List.mem_takeWhile_imp hy)
        by_cases hxc : x = ':'
        · subst hxc
          have hb : beforeColon (c :: t) = c :: t.takeWhile isSchemeChar := by
            have : (c :: t) = (c :: t.takeWhile isSchemeChar) ++ ':' :: rest := by
              rw [List.cons_append, ← ht]
            rw [beforeColon, this]
            apply takeWhile_append_stop notColon _ ':' rest _ (by decide)
            intro y hy
            rcases List.mem_cons.mp hy with rfl | hy
            · exact hcc
            · exact hpre y (by simpa using hy)
          have ha : afterColon (c :: t) = rest := by
            have : (c :: t) = (c :: t.takeWhile isSchemeChar) ++ ':' :: rest := by
              rw [List.cons_append, ← ht]
            rw [afterColon, this, dropWhile_append_stop notColon _ ':' rest _ (by decide)]
            · rfl
            · intro y hy
              rcases List.mem_cons.mp hy with rfl | hy
              · exact hcc
              · exact hpre y (by simpa using hy)
          have hs : isScheme (c :: t.takeWhile isSchemeChar) = true := by
            simp only [isScheme, hc, Bool.true_and, List.all_eq_true]
            exact fun y hy => List.mem_takeWhile_imp hy
          have hmem : ':' ∈ c :: t := by
            rw [ht]; simp
          have hcond : ':' ∈ c :: t ∧ isScheme (beforeColon (c :: t)) = true :=
            ⟨hmem, by rw [hb]; exact hs⟩
          rw [if_pos hcond, hb, ha, blockOf]
          simp
        · have hxc2 : (x == ':') = false := by simpa using hxc
          have hb : isScheme (beforeColon (c :: t)) = false := by
            have hxn : notColon x = true := by simpa [notColon] using hxc
            have : beforeColon (c :: t)
                = c :: (t.takeWhile isSchemeChar ++ x :: rest.takeWhile notColon) := by
              rw [beforeColon, List.takeWhile_cons, hcc, if_pos rfl]
              congr 1
              conv_lhs => rw [ht]
              rw [List.takeWhile_append, if_pos, List.takeWhile_cons, hxn, if_pos rfl]
              rw [takeWhile_all notColon _ hpre]
            rw [this]
            simp only [isScheme, hc, Bool.true_and]
            rw [Bool.eq_false_iff]
            intro hall
            have := (List.all_eq_true.mp hall) x (by simp)
            rw [hx] at this
            exact absurd this (by decide)
          simp [hxc2, hb]
    · have hb : isScheme (beforeColon (c :: t)) = false := by
        by_cases hcc : notColon c = true
        · simp [beforeColon, List.takeWhile_cons, hcc, isScheme, hc]
        · simp [beforeColon, List.takeWhile_cons, hcc, isScheme]
      simp [uriScan, hc, hb]

theorem dot_eq_true_iff (c : Char) : dot c = true ↔ isLineTerminator c = false := by
  simp [dot, isLineTerminator]

theorem all_dot_eq_false_iff (f : Str) :
    f.all dot = false ↔ ∃ c ∈ f, isLineTerminator c = true := by
  rw [← Bool.not_eq_true, List.all_eq_true]
  simp only [dot_eq_true_iff, not_forall, Bool.not_eq_false]
  constructor
  · rintro ⟨c, hc, h⟩; exact ⟨c, hc, h⟩
  · rintro ⟨c, hc, h⟩; exact ⟨c, hc, h⟩

theorem fragTail_hash (f : Str) (m : Caps) :
    fragTail ('#' :: f) m = if f.all dot = true then some ((4, f) :: m) else none := by
  simp [fragTail]

theorem notQueryHash_notHash (c : Char) (h : notQueryHash c = true) : notHash c = true := by
  simp only [notQueryHash, Bool.and_eq_true] at h
  exact h.2

theorem notQueryHash_false (c : Char) (h : notQueryHash c = false) : c = '?' ∨ c = '#' := by
  by_cases h1 : c = '?'
  · exact Or.inl h1
  · by_cases h2 : c = '#'
    · exact Or.inr h2
    · simp [notQueryHash, h1, h2] at h

theorem notHash_false (c : Char) (h : notHash c = false) : c = '#' := by
  simpa [notHash] using h

/-- The captures of `uri_regex` after the scheme, in the words of the
specification. -/
theorem queryTail_spec (rest a b : Str) :
    (queryTail (rest.dropWhile notQueryHash) [(2, b), (1, a)] = none ↔
        ∃ c ∈ fragmentOf rest, isLineTerminator c = true) ∧
    ∀ m, queryTail (rest.dropWhile notQueryHash) [(2, b), (1, a)] = some m →
      submatch m 1 = a ∧ submatch m 2 = b ∧ submatch m 3 = queryOf rest ∧
        submatch m 4 = fragmentOf rest := by
  have hblk : ∀ y ∈ rest.takeWhile notQueryHash, notHash y = true :=
    fun y hy => notQueryHash_notHash y (List.mem_takeWhile_imp hy)
  cases hd : rest.dropWhile notQueryHash with
  | nil =>
    have hall : ∀ y ∈ rest, notHash y = true :=
      fun y hy => notQueryHash_notHash y (List.dropWhile_eq_nil_iff.mp hd y hy)
    have hf : fragmentOf rest = [] := by
      rw [fragmentOf, dropWhile_all notHash rest hall]; rfl
    have hq : queryOf rest = [] := by simp [queryOf, hd]
    rw [hf, hq]
    constructor
    · simp [queryTail]
    · intro m hm
      simp only [queryTail, Option.some.injEq] at hm
      subst hm
      simp [submatch, List.lookup]
  | cons x r =>
    obtain ⟨hx, hrest⟩ := dropWhile_eq_cons notQueryHash rest x r hd
    rcases notQueryHash_false x hx with rfl | rfl
    · -- a query follows the block
      have hq : queryOf rest = r.takeWhile notHash := by simp [queryOf, hd]
      have hqt : queryTail ('?' :: r) [(2, b), (1, a)]
          = fragTail (r.dropWhile notHash) [(3, r.takeWhile notHash), (2, b), (1, a)] := by
        simp [queryTail]
      rw [hqt, hq]
      cases hd2 : r.dropWhile notHash with
      | nil =>
        have hall : ∀ y ∈ rest, notHash y = true := by
          intro y hy
          rw [hrest] at hy
          rcases List.mem_append.mp hy with h | h
          · exact hblk y h
          · rcases List.mem_cons.mp h with rfl | h
            · decide
            · exact List.dropWhile_eq_nil_iff.mp hd2 y h
        have hf : fragmentOf rest = [] := by
          rw [fragmentOf, dropWhile_all notHash rest hall]; rfl
        rw [hf]
        constructor
        · simp [fragTail]
        · intro m hm
          simp only [fragTail, Option.some.injEq] at hm
          subst hm
          simp [submatch, List.lookup]
      | cons y f =>
        obtain ⟨hy, hr⟩ := dropWhile_eq_cons notHash r y f hd2
        have hy2 := notHash_false y hy
        subst hy2
        have hf : fragmentOf rest = f := by
          have h1 : rest = (rest.takeWhile notQueryHash ++ '?' :: r.takeWhile notHash) ++ '#' :: f := by
            conv_lhs => rw [hrest, hr]
            simp
          rw [fragmentOf, h1, dropWhile_append_stop notHash _ '#' f _ (by decide)]
          · rfl
          · intro z hz
            rcases List.mem_append.mp hz with h | h
            · exact hblk z h
            · rcases List.mem_cons.mp h with rfl | h
              · decide
              · exact List.mem_takeWhile_imp h
        rw [hf, fragTail_hash]
        constructor
        · rw [← all_dot_eq_false_iff]
          cases f.all dot <;> simp
        · intro m hm
          by_cases hdot : f.all dot = true
          · rw [if_pos hdot, Option.some.injEq] at hm
            subst hm
            simp [submatch, List.lookup]
          · rw [if_neg hdot] at hm
            exact absurd hm (by simp)
    · -- a fragment follows the block
      have hq : queryOf rest = [] := by simp [queryOf, hd]
      have hqt : queryTail ('#' :: r) [(2, b), (1, a)] = fragTail ('#' :: r) [(2, b), (1, a)] := by
        simp [queryTail]
      have hf : fragmentOf rest = r := by
        rw [fragmentOf]
        conv_lhs => rw [hrest]
        rw [dropWhile_append_stop notHash _ '#' r hblk (by decide)]
        rfl
      rw [hqt, hq, hf, fragTail_hash]
      constructor
      · rw [← all_dot_eq_false_iff]
        cases r.all dot <;> simp
      · intro m hm
        by_cases hdot : r.all dot = true
        · rw [if_pos hdot, Option.some.injEq] at hm
          subst hm
          simp [submatch, List.lookup]
        · rw [if_neg hdot] at hm
          exact absurd hm (by simp)

theorem regex_match_uri_none (str : Str) :
    regex_match uri_regex str = none ↔
      (':' ∉ str ∨ isScheme (beforeColon str) = false ∨
        ∃ c ∈ fragmentOf (afterColon str), isLineTerminator c = true) := by
  rw [regex_match_uri, uriScan_eq]
  by_cases h : ':' ∈ str ∧ isScheme (beforeColon str) = true
  · rw [if_pos h, (queryTail_spec _ _ _).1]
    constructor
    · exact fun hx => Or.inr (Or.inr hx)
    · rintro (h1 | h1 | h1)
      · exact absurd h.1 h1
      · rw [h.2] at h1; exact absurd h1 (by decide)
      · exact h1
  · rw [if_neg h]
    simp only [true_iff]
    by_cases h1 : ':' ∈ str
    · right; left
      cases hs : isScheme (beforeColon str) with
      | false => rfl
      | true => exact absurd ⟨h1, hs⟩ h
    · exact Or.inl h1

theorem regex_match_uri_some (str : Str) (m : Caps) (h : regex_match uri_regex str = some m) :
    ':' ∈ str ∧ isScheme (beforeColon str) = true ∧
      submatch m 1 = beforeColon str ∧ submatch m 2 = blockOf (afterColon str) ∧
      submatch m 3 = queryOf (afterColon str) ∧ submatch m 4 = fragmentOf (afterColon str) := by
  rw [regex_match_uri, uriScan_eq] at h
  by_cases hc : ':' ∈ str ∧ isScheme (beforeColon str) = true
  · rw [if_pos hc] at h
    exact ⟨hc.1, hc.2, (queryTail_spec _ _ _).2 m h⟩
  · rw [if_neg hc] at h
    exact absurd h (by simp)

theorem parsePort_error (port : Str) (errno errno1 : Nat) (e : UriError)
    (h : parsePort port errno = (.error e, errno1)) : e = .InvalidPort port := by
  unfold parsePort at h
  split at h
  · simp at h
  · simp only at h
    split at h
    · simp only [Prod.mk.injEq, Except.error.injEq] at h; exact h.1.symm
    · split at h
      · simp only [Prod.mk.injEq, Except.error.injEq] at h; exact h.1.symm
      · split at h
        · simp only [Prod.mk.injEq, Except.error.injEq] at h; exact h.1.symm
        · simp at h

/-- The constructor fails with `InvalidUri` exactly when `uri_regex` does not
match. -/
theorem construct_InvalidUri_iff_no_match (str : Str) (errno : Nat) :
    (Uri.Uri garbage str errno).1 = .error (.InvalidUri str) ↔ regex_match uri_regex str = none := by
  unfold Uri.Uri
  cases hm : regex_match uri_regex str with
  | none => simp
  | some m =>
    simp only
    cases hap : regex_match authority_and_path_regex (submatch m 2) with
    | none => simp
    | some apm =>
      simp only
      cases ha : regex_match authority_regex (submatch apm 1) with
      | none => simp
      | some am =>
        simp only
        rcases hp : parsePort (decode garbage (submatch am 4)) errno with ⟨r, e1⟩
        cases r with
        | error e =>
          have := parsePort_error _ _ _ _ hp
          subst this
          simp
        | ok port => simp

/-- The captures of `uri_regex` behind an accepted input. -/
theorem construct_ok_match (str : Str) (errno : Nat) (u : Uri)
    (h : (Uri.Uri garbage str errno).1 = .ok u) :
    ∃ m, regex_match uri_regex str = some m ∧ u.scheme_ = toLower (submatch m 1) ∧
      u.query_ = decode garbage (submatch m 3) ∧ u.fragment_ = decode garbage (submatch m 4) := by
  unfold Uri.Uri at h
  cases hm : regex_match uri_regex str with
  | none => rw [hm] at h; simp at h
  | some m =>
    refine ⟨m, rfl, ?_⟩
    rw [hm] at h
    simp only at h
    cases hap : regex_match authority_and_path_regex (submatch m 2) with
    | none =>
      rw [hap] at h
      simp only [Except.ok.injEq] at h
      subst h
      exact ⟨rfl, rfl, rfl⟩
    | some apm =>
      rw [hap] at h
      simp only at h
      cases ha : regex_match authority_regex (submatch apm 1) with
      | none => rw [ha] at h; simp at h
      | some am =>
        rw [ha] at h
        simp only at h
        rcases hp : parsePort (decode garbage (submatch am 4)) errno with ⟨r, e1⟩
        rw [hp] at h
        cases r with
        | error e => simp at h
        | ok port =>
          simp only [Except.ok.injEq] at h
          subst h
          exact ⟨rfl, rfl, rfl⟩

theorem exec_pathTail (d : Str) (m : Caps) :
    (Re.opt (.group 2 (.seq (.lit '/') (.star dot)))).exec d m atEnd = pathTail d m := by
  cases d with
  | nil => simp [exec_opt, exec_group, exec_seq, exec_lit_nil, orElse, pathTail, atEnd]
  | cons c r =>
    simp only [exec_opt, exec_group, exec_seq, exec_lit_cons, atEnd_cons, orElse_none_right,
      exec_star]
    by_cases hc : c = '/'
    · subst hc
      rw [if_pos (by simp), starExec_det dot _ (fun c t _ => atEnd_cons c t _),
        take_cons_length_sub_dropWhile]
      by_cases hf : ∀ x ∈ r, dot x = true
      · rw [dropWhile_all dot r hf, takeWhile_all dot r hf]
        simp [pathTail, atEnd]
        exact hf
      · have hne : r.dropWhile dot ≠ [] := fun h => hf (List.dropWhile_eq_nil_iff.mp h)
        cases hd : r.dropWhile dot with
        | nil => exact absurd hd hne
        | cons x r1 =>
          have : r.all dot = false := by
            rw [Bool.eq_false_iff]; intro h; exact hf (by simpa using h)
          simp [pathTail, atEnd_cons, this]
    · simp [pathTail, hc]

theorem pathTail_cons_notSlash (c : Char) (t : Str) (m : Caps) (hc : notSlash c = true) :
    pathTail (c :: t) m = none := by
  have : c ≠ '/' := by simpa [notSlash] using hc
  simp [pathTail, this]

theorem regex_match_authority_and_path (s : Str) :
    regex_match authority_and_path_regex s = apScan s := by
  unfold regex_match authority_and_path_regex
  have hK : (fun s1 m1 => (Re.opt (.group 2 (.seq (.lit '/') (.star dot)))).exec s1 m1 atEnd)
      = pathTail := by
    funext s1 m1; exact exec_pathTail s1 m1
  match s with
  | [] => rfl
  | [c] =>
    by_cases hc : c = '/'
    · subst hc; rfl
    · simp [exec_seq, exec_lit_cons, hc, apScan]
  | c1 :: c2 :: t =>
    simp only [exec_seq, exec_lit_cons, hK]
    by_cases h1 : c1 = '/'
    · by_cases h2 : c2 = '/'
      · subst h1 h2
        rw [if_pos (by simp), if_pos (by simp),
          exec_group_star 1 notSlash t [] pathTail
            (fun c t m1 h => pathTail_cons_notSlash c t m1 h)]
        simp [apScan]
      · simp [apScan, h1, h2]
    · simp [apScan, h1]

/-- The pattern on a block `//` A R. -/
theorem apScan_build (A R : Str) (hA : ∀ c ∈ A, notSlash c = true)
    (hR : R = [] ∨ R.head? = some '/') (hdot : ∀ c ∈ R, dot c = true) :
    ∃ apm, apScan ('/' :: '/' :: (A ++ R)) = some apm ∧ submatch apm 1 = A ∧
      submatch apm 2 = R := by
  cases R with
  | nil =>
    refine ⟨[(1, A)], ?_, rfl, rfl⟩
    simp only [apScan, List.append_nil]
    rw [if_pos (by simp), dropWhile_all notSlash A hA, takeWhile_all notSlash A hA]
    rfl
  | cons x r =>
    have hx : x = '/' := by
      rcases hR with h | h
      · exact absurd h (by simp)
      · simpa using h
    subst hx
    refine ⟨[(2, '/' :: r), (1, A)], ?_, rfl, rfl⟩
    simp only [apScan]
    rw [if_pos (by simp), dropWhile_append_stop notSlash A '/' r hA (by decide),
      takeWhile_append_stop notSlash A '/' r hA (by decide)]
    have : r.all dot = true := by
      rw [List.all_eq_true]; exact fun y hy => hdot y (by simp [hy])
    simp [pathTail, this]

/-- The constructor on an input whose block does not match
`authority_and_path_regex`. -/
theorem construct_no_authority (str : Str) (errno : Nat) (m : Caps)
    (hm : regex_match uri_regex str = some m)
    (hap : regex_match authority_and_path_regex (submatch m 2) = none) :
    Uri.Uri garbage str errno =
      (.ok { scheme_ := toLower (submatch m 1), username_ := [], password_ := [], host_ := [],
             has_authority_ := false, port_ := 0, path_ := submatch m 2,
             query_ := decode garbage (submatch m 3), fragment_ := decode garbage (submatch m 4),
             query_params_ := [] }, errno) := by
  unfold Uri.Uri
  rw [hm]
  simp only
  rw [hap]

/-- The constructor on an input whose block matches
`authority_and_path_regex`, but whose authority does not match
`authority_regex`. -/
theorem construct_bad_authority (str : Str) (errno : Nat) (m apm : Caps)
    (hm : regex_match uri_regex str = some m)
    (hap : regex_match authority_and_path_regex (submatch m 2) = some apm)
    (ha : regex_match authority_regex (submatch apm 1) = none) :
    Uri.Uri garbage str errno = (.error (.InvalidAuthority (submatch apm 1)), errno) := by
  unfold Uri.Uri
  rw [hm]
  simp only
  rw [hap]
  simp only
  rw [ha]

/-- The constructor on an input whose authority matches `authority_regex`. -/
theorem construct_authority (str : Str) (errno : Nat) (m apm am : Caps)
    (hm : regex_match uri_regex str = some m)
    (hap : regex_match authority_and_path_regex (submatch m 2) = some apm)
    (ha : regex_match authority_regex (submatch apm 1) = some am) :
    Uri.Uri garbage str errno =
      match parsePort (decode garbage (submatch am 4)) errno with
      | (.error e, errno1) => (.error e, errno1)
      | (.ok port, errno1) =>
        (.ok { scheme_ := toLower (submatch m 1),
               username_ := decode garbage (submatch am 1),
               password_ := decode garbage (submatch am 2),
               host_ := decode garbage (submatch am 3),
               has_authority_ := true, port_ := port,
               path_ := decode garbage (submatch apm 2),
               query_ := decode garbage (submatch m 3), fragment_ := decode garbage (submatch m 4),
               query_params_ := [] }, errno1) := by
  unfold Uri.Uri
  rw [hm]
  simp only
  rw [hap]
  simp only
  rw [ha]

theorem apScan_some_slashes (s : Str) (apm : Caps) (h : apScan s = some apm) :
    ∃ t, s = '/' :: '/' :: t := by
  match s with
  | [] => simp [apScan] at h
  | [c] => simp [apScan] at h
  | c1 :: c2 :: t =>
    by_cases h1 : c1 = '/'
    · by_cases h2 : c2 = '/'
      · exact ⟨t, by rw [h1, h2]⟩
      · simp [apScan, h1, h2] at h
    · simp [apScan, h1] at h

/-- The part of C4 that holds: on an accepted input `has_authority` is only
true for a block that begins with `//`, and when it is false the path is the
whole block, the user name, password and host are empty and the port is 0. -/
theorem has_authority_fields (str : Str) (errno : Nat) (u : Uri)
    (h : (Uri.Uri garbage str errno).1 = .ok u) :
    ∃ m, regex_match uri_regex str = some m ∧
      (u.has_authority_ = true → ∃ t, submatch m 2 = '/' :: '/' :: t) ∧
      (u.has_authority_ = false →
        u.path_ = submatch m 2 ∧ u.username_ = [] ∧ u.password_ = [] ∧ u.host_ = [] ∧
          u.port_ = 0) := by
  obtain ⟨m, hm, -⟩ := construct_ok_match str errno u h
  refine ⟨m, hm, ?_⟩
  cases hap : regex_match authority_and_path_regex (submatch m 2) with
  | none =>
    rw [construct_no_authority str errno m hm hap] at h
    simp only [Except.ok.injEq] at h
    subst h
    simp
  | some apm =>
    have hpre := apScan_some_slashes _ apm (by rw [← regex_match_authority_and_path]; exact hap)
    cases ha : regex_match authority_regex (submatch apm 1) with
    | none =>
      rw [construct_bad_authority str errno m apm hm hap ha] at h
      simp at h
    | some am =>
      rw [construct_authority str errno m apm am hm hap ha] at h
      rcases hp : parsePort (decode garbage (submatch am 4)) errno with ⟨r, e1⟩
      rw [hp] at h
      cases r with
      | error e => simp at h
      | ok port =>
        simp only [Except.ok.injEq] at h
        subst h
        simp [hpre]

/-! ### The pattern `authority_regex` -/

theorem exec_port (s : Str) (m : Caps) : authority_port_re.exec s m atEnd = portTail s m := by
  unfold authority_port_re
  cases s with
  | nil => simp [exec_opt, exec_seq, exec_lit_nil, orElse, portTail, atEnd]
  | cons c f =>
    simp only [exec_opt, exec_seq, exec_lit_cons, atEnd_cons, orElse_none_right]
    by_cases hc : c = ':'
    · subst hc
      rw [if_pos (by simp), exec_group_star 4 isdigit f m atEnd (fun c t m1 _ => atEnd_cons c t m1)]
      by_cases hf : ∀ x ∈ f, isdigit x = true
      · rw [dropWhile_all isdigit f hf, takeWhile_all isdigit f hf]
        simp [portTail, atEnd]
        exact hf
      · have hne : f.dropWhile isdigit ≠ [] := fun h => hf (List.dropWhile_eq_nil_iff.mp h)
        cases hd : f.dropWhile isdigit with
        | nil => exact absurd hd hne
        | cons x r =>
          have : f.all isdigit = false := by
            rw [Bool.eq_false_iff]; intro h; exact hf (by simpa using h)
          simp [portTail, atEnd_cons, this]
    · simp [portTail, hc]

theorem portTail_cons_notLBracketColon (c : Char) (t : Str) (m : Caps)
    (hc : notLBracketColon c = true) : portTail (c :: t) m = none := by
  have h : c ≠ '[' ∧ c ≠ ':' := by simpa [notLBracketColon] using hc
  simp [portTail, h.2]

theorem exec_host (s : Str) (m : Caps) :
    (Re.seq authority_host_re authority_port_re).exec s m atEnd = hostScan s m := by
  have hK : (fun s1 m1 => authority_port_re.exec s1 m1 atEnd) = portTail := by
    funext s1 m1; exact exec_port s1 m1
  rw [exec_seq, hK]
  unfold authority_host_re hostScan
  rw [exec_group, exec_alt]
  congr 1
  · -- the bracketed alternative
    cases s with
    | nil => simp [exec_seq, exec_lit_nil, bracketScan]
    | cons c t =>
      simp only [exec_seq, exec_lit_cons, exec_star]
      by_cases hc : c = '['
      · subst hc
        rw [if_pos (by simp), starExec_det notRBracket]
        · cases hd : t.dropWhile notRBracket with
          | nil => simp [bracketScan, hd, exec_lit_nil]
          | cons x r => simp [bracketScan, hd, exec_lit_cons]
        · intro c1 t1 h1
          have : c1 ≠ ']' := by simpa [notRBracket] using h1
          simp [exec_lit_cons, this]
      · simp [bracketScan, hc]
  · -- the plain alternative
    rw [exec_star, starExec_det notLBracketColon _
      (fun c t hc => portTail_cons_notLBracketColon c t _ hc), take_length_sub_dropWhile]

theorem atScan_eq (s : Str) (m : Caps) : (Re.lit '@').exec s m hostScan = atScan s m := by
  cases s with
  | nil => rfl
  | cons c t => rfl

theorem atScan_cons_notAt (c : Char) (t : Str) (m : Caps) (hc : notAt c = true) :
    atScan (c :: t) m = none := by
  have : c ≠ '@' := by simpa [notAt] using hc
  simp [atScan, this]

theorem regex_match_authority (A : Str) : regex_match authority_regex A = authorityScan A := by
  unfold regex_match authority_regex authorityScan
  have hH : (fun s1 m1 => (Re.seq authority_host_re authority_port_re).exec s1 m1 atEnd)
      = hostScan := by
    funext s1 m1; exact exec_host s1 m1
  rw [exec_seq, hH]
  unfold authority_userinfo_re
  rw [exec_opt]
  congr 1
  have hK : ∀ s1 m1,
      (Re.seq (.opt (.seq (.lit ':') (.group 2 (.star notAt)))) (.lit '@')).exec s1 m1 hostScan
        = orElse
            (match s1 with
             | [] => none
             | c :: r =>
               if c == ':' then atScan (r.dropWhile notAt) ((2, r.takeWhile notAt) :: m1)
               else none)
            (atScan s1 m1) := by
    intro s1 m1
    rw [exec_seq, exec_opt]
    have hat : (fun s2 m2 => (Re.lit '@').exec s2 m2 hostScan) = atScan := by
      funext s2 m2; exact atScan_eq s2 m2
    rw [hat, atScan_eq]
    congr 1
    cases s1 with
    | nil => rfl
    | cons c r =>
      rw [exec_seq, exec_lit_cons]
      by_cases hc : c = ':'
      · subst hc
        rw [if_pos (by simp), exec_group_star 2 notAt r m1 atScan
          (fun c t m2 h => atScan_cons_notAt c t m2 h)]
        simp
      · simp [hc]
  rw [exec_seq]
  simp only [hK]
  rw [exec_group_star 1 notAtColon A [] _ ?_]
  · rfl
  · intro c t m1 hc
    have h : c ≠ '@' ∧ c ≠ ':' := by simpa [notAtColon] using hc
    simp [atScan, h.1, h.2, orElse]

/-! ### The port and the decoder on plain text -/

theorem isdigit_not_space (c : Char) (h : isdigit c = true) : isspace c = false := by
  rw [Bool.eq_false_iff]
  intro hs
  simp only [isspace, Bool.or_eq_true, beq_iff_eq] at hs
  rcases hs with ((((rfl | rfl) | rfl) | rfl) | rfl) | rfl <;> exact absurd h (by decide)

theorem isdigit_not_sign (c : Char) (h : isdigit c = true) : c ≠ '-' ∧ c ≠ '+' := by
  constructor <;> rintro rfl <;> exact absurd h (by decide)

/-- The function `strtoul` on a non-empty string of digits. -/
theorem strtoul_digits (c : Char) (t : Str) (errno : Nat)
    (hd : ∀ x ∈ c :: t, isdigit x = true) :
    strtoul (c :: t) errno =
      if decValue (c :: t) > ULONG_MAX then (ULONG_MAX, (c :: t).length, ERANGE)
      else (decValue (c :: t), (c :: t).length, errno) := by
  have hc : isdigit c = true := hd c (by simp)
  have hs : isspace c = false := isdigit_not_space c hc
  have hsg := isdigit_not_sign c hc
  have h1 : (c :: t).dropWhile isspace = c :: t := by simp [hs]
  have h2 : (c :: t).takeWhile isdigit = c :: t := takeWhile_all isdigit _ hd
  have hsign : ((some c == some '-') || (some c == some '+')) = false := by
    simp [hsg.1, hsg.2]
  unfold strtoul
  simp only [h1, List.head?_cons, hsign, Bool.false_eq_true, if_false, h2, List.isEmpty_cons,
    Nat.sub_self, Nat.zero_add]
  have hneg : (some c == some '-') = false := by simp [hsg.1]
  rw [hneg]
  simp

/-- The port checks of the constructor on a non-empty string of digits. -/
theorem parsePort_digits (c : Char) (t : Str) (errno : Nat)
    (hd : ∀ x ∈ c :: t, isdigit x = true) :
    parsePort (c :: t) errno =
      if decValue (c :: t) > ULONG_MAX then (.error (.InvalidPort (c :: t)), ERANGE)
      else if errno = ERANGE then (.error (.InvalidPort (c :: t)), errno)
      else if decValue (c :: t) > UINT16_MAX then (.error (.InvalidPort (c :: t)), errno)
      else (.ok (decValue (c :: t)), errno) := by
  unfold parsePort
  rw [strtoul_digits c t errno hd]
  by_cases h1 : decValue (c :: t) > ULONG_MAX
  · simp [h1]
  · by_cases h2 : errno = ERANGE
    · simp [h1, h2]
    · by_cases h3 : decValue (c :: t) > UINT16_MAX
      · simp [h1, h2, h3]
      · have h4 : decValue (c :: t) % 2 ^ 16 = decValue (c :: t) := by
          apply Nat.mod_eq_of_lt
          simp only [UINT16_MAX] at h3
          omega
        simp only [UINT16_MAX] at h3
        simp [h1, h2, h3, h4, UINT16_MAX]
        omega

theorem decode_cons_ne (c : Char) (t : Str) (hc : c ≠ '%') : decode garbage (c :: t) = c :: decode garbage t := by
  match t with
  | [] => simp [decode, hc]
  | [a] => simp [decode, hc]
  | a :: b :: t1 => simp [decode, hc]

theorem decode_percent (a b : Char) (t : Str) :
    decode garbage ('%' :: a :: b :: t)
      = toChar (istream_hex (garbage (a :: b :: t)) [a, b]) :: decode garbage t := by
  simp [decode]

theorem decode_percent_end : decode garbage ['%'] = [toChar (garbage [])] := by
  simp [decode, istream_hex]

theorem decode_no_percent (s : Str) (h : '%' ∉ s) : decode garbage s = s := by
  induction s with
  | nil => rfl
  | cons c t ih =>
    have hc : c ≠ '%' := fun hh => h (by simp [hh])
    rw [decode_cons_ne c t hc, ih (fun hh => h (by simp [hh]))]

theorem isdigit_no_percent (s : Str) (h : ∀ x ∈ s, isdigit x = true) : '%' ∉ s :=
  fun hm => absurd (h _ hm) (by decide)

/-- Every port the constructor stores is at most 65535. -/
theorem parsePort_le (port : Str) (errno errno1 n : Nat)
    (h : parsePort port errno = (.ok n, errno1)) : n ≤ 65535 := by
  unfold parsePort at h
  split at h
  · simp only [Prod.mk.injEq, Except.ok.injEq] at h; omega
  · simp only at h
    split at h
    · simp at h
    · split at h
      · simp at h
      · split at h
        · simp at h
        · rename_i h3
          simp only [Prod.mk.injEq, Except.ok.injEq] at h
          have := Nat.mod_lt (strtoul port errno).1 (show 2 ^ 16 > 0 by decide)
          omega

/-! ### Authorities built from their components -/

theorem noneOf_ne (bad : List Char) (s : Str) (h : noneOf bad s = true) (c x : Char)
    (hc : c ∈ s) (hx : x ∈ bad) : c ≠ x := by
  simp only [noneOf, List.all_eq_true, Bool.not_eq_true', List.contains_eq_any_beq,
    List.any_eq_false, beq_iff_eq] at h
  exact fun hcx => h c hc x hx hcx

theorem isScheme_notColon (s : Str) (hs : isScheme s = true) : ∀ c ∈ s, notColon c = true := by
  cases s with
  | nil => simp
  | cons c t =>
    simp only [isScheme, Bool.and_eq_true, List.all_eq_true] at hs
    intro x hx
    rcases List.mem_cons.mp hx with rfl | hx
    · exact isalpha_ne_colon _ hs.1
    · exact isSchemeChar_notColon x (hs.2 x hx)

/-- The pattern `uri_regex` on a scheme, a `:` and a text without `?` and
`#`. -/
theorem regex_match_uri_build (s X : Str) (hs : isScheme s = true)
    (hX : ∀ c ∈ X, notQueryHash c = true) :
    regex_match uri_regex (s ++ ':' :: X) = some [(2, X), (1, s)] := by
  have hnc := isScheme_notColon s hs
  have hb : beforeColon (s ++ ':' :: X) = s :=
    takeWhile_append_stop notColon s ':' X hnc (by decide)
  have ha : afterColon (s ++ ':' :: X) = X := by
    rw [afterColon, dropWhile_append_stop notColon s ':' X hnc (by decide)]; rfl
  rw [regex_match_uri, uriScan_eq, if_pos ⟨by simp, by rw [hb]; exact hs⟩, hb, ha,
    dropWhile_all notQueryHash X hX, blockOf, takeWhile_all notQueryHash X hX]
  rfl

theorem bracketScan_none (s : Str) (m : Caps) (h : s.head? ≠ some '[') :
    bracketScan s m = none := by
  cases s with
  | nil => rfl
  | cons c t =>
    have : c ≠ '[' := fun hc => h (by simp [hc])
    simp [bracketScan, this]

theorem head?_append_cons_ne (a : Str) (x : Char) (b : Str) (ha : ∀ c ∈ a, c ≠ '[')
    (hx : x ≠ '[') : (a ++ x :: b).head? ≠ some '[' := by
  cases a with
  | nil => simpa using hx
  | cons c t => simpa using ha c (by simp)

/-- Host and port: a plain host, a `:` and digits. -/
theorem hostScan_plain_port (h n : Str) (m : Caps)
    (hh : ∀ c ∈ h, notLBracketColon c = true) (hn : ∀ c ∈ n, isdigit c = true) :
    hostScan (h ++ ':' :: n) m = some ((4, n) :: (3, h) :: m) := by
  have hb : bracketScan (h ++ ':' :: n) m = none := by
    apply bracketScan_none
    apply head?_append_cons_ne _ _ _ _ (by decide)
    intro c hc
    have := hh c hc
    simp only [notLBracketColon, Bool.and_eq_true, bne_iff_ne] at this
    exact this.1
  have hall : n.all isdigit = true := List.all_eq_true.mpr hn
  rw [hostScan, hb, orElse_none_left, dropWhile_append_stop notLBracketColon h ':' n hh (by decide),
    takeWhile_append_stop notLBracketColon h ':' n hh (by decide)]
  simp [portTail, hall]

/-- Host and port: a plain host alone. -/
theorem hostScan_plain (h : Str) (m : Caps) (hh : ∀ c ∈ h, notLBracketColon c = true) :
    hostScan h m = some ((3, h) :: m) := by
  have hb : bracketScan h m = none := by
    apply bracketScan_none
    cases h with
    | nil => simp
    | cons c t =>
      have := hh c (by simp)
      simp only [notLBracketColon, Bool.and_eq_true, bne_iff_ne] at this
      simpa using this.1
  rw [hostScan, hb, orElse_none_left, dropWhile_all notLBracketColon h hh,
    takeWhile_all notLBracketColon h hh]
  rfl

/-- The pattern `authority_regex` on user `:` password `@` host `:` port. -/
theorem authorityScan_full (u p h n : Str)
    (hu : ∀ c ∈ u, notAtColon c = true) (hp : ∀ c ∈ p, notAt c = true)
    (hh : ∀ c ∈ h, notLBracketColon c = true) (hn : ∀ c ∈ n, isdigit c = true) :
    authorityScan (u ++ ':' :: (p ++ '@' :: (h ++ ':' :: n)))
      = some [(4, n), (3, h), (2, p), (1, u)] := by
  rw [authorityScan, userinfoScan,
    dropWhile_append_stop notAtColon u ':' _ hu (by decide),
    takeWhile_append_stop notAtColon u ':' _ hu (by decide)]
  simp only [beq_self_eq_true, if_true]
  rw [dropWhile_append_stop notAt p '@' _ hp (by decide),
    takeWhile_append_stop notAt p '@' _ hp (by decide)]
  simp only [atScan, beq_self_eq_true, if_true]
  rw [hostScan_plain_port h n _ hh hn]
  rfl

/-- The pattern `authority_regex` on a plain host alone. -/
theorem authorityScan_host (h : Str) (hh : ∀ c ∈ h, notLBracketColon c = true)
    (ha : ∀ c ∈ h, notAtColon c = true) :
    authorityScan h = some [(3, h)] := by
  rw [authorityScan, userinfoScan, dropWhile_all notAtColon h ha, hostScan_plain h [] hh]
  rfl

theorem parsePort_ok (n : Str) (errno : Nat) (hn : ∀ c ∈ n, isdigit c = true)
    (hv : decValue n ≤ 65535) (he : errno ≠ ERANGE) :
    parsePort n errno = (.ok (decValue n), errno) := by
  cases n with
  | nil => rfl
  | cons c t =>
    have h1 : ¬ decValue (c :: t) > ULONG_MAX := by
      have : (65535 : Nat) ≤ ULONG_MAX := by norm_num [ULONG_MAX]
      omega
    have h3 : ¬ decValue (c :: t) > UINT16_MAX := by
      simp only [UINT16_MAX]; omega
    rw [parsePort_digits c t errno hn, if_neg h1, if_neg he, if_neg h3]

/-- The part of C6 that holds: when `errno` is not `ERANGE` on entry, an
authority built from a user, a password, a host and a port is parsed back into
these components, and a host alone into itself. -/
theorem authority_components (s u p h n : Str) (errno : Nat)
    (hs : isScheme s = true)
    (hu : noneOf ['@', ':', '/', '?', '#', '%'] u = true)
    (hp : noneOf ['@', '/', '?', '#', '%'] p = true)
    (hh : noneOf ['[', ':', '@', '/', '?', '#', '%'] h = true)
    (hn : ∀ c ∈ n, isdigit c = true) (hv : decValue n ≤ 65535)
    (he : errno ≠ ERANGE) :
    (∃ x, (Uri.Uri garbage (s ++ "://".toList ++ u ++ ":".toList ++ p ++ "@".toList ++ h
              ++ ":".toList ++ n) errno).1 = .ok x ∧
        x.username_ = u ∧ x.password_ = p ∧ x.host_ = h ∧ x.port_ = decValue n) ∧
      (∃ y, (Uri.Uri garbage (s ++ "://".toList ++ h) errno).1 = .ok y ∧
        y.username_ = [] ∧ y.password_ = [] ∧ y.host_ = h ∧ y.port_ = 0) := by
  have hu1 := noneOf_ne _ u hu
  have hp1 := noneOf_ne _ p hp
  have hh1 := noneOf_ne _ h hh
  have hn1 : ∀ c ∈ n, c ≠ '/' ∧ c ≠ '?' ∧ c ≠ '#' := by
    intro c hc
    refine ⟨?_, ?_, ?_⟩ <;> rintro rfl <;> exact absurd (hn _ hc) (by decide)
  have hhL : ∀ c ∈ h, notLBracketColon c = true := by
    intro c hc
    simp [notLBracketColon, hh1 c '[' hc (by simp), hh1 c ':' hc (by simp)]
  have hhA : ∀ c ∈ h, notAtColon c = true := by
    intro c hc
    simp [notAtColon, hh1 c '@' hc (by simp), hh1 c ':' hc (by simp)]
  have hhS : ∀ c ∈ h, notSlash c = true := by
    intro c hc
    simp [notSlash, hh1 c '/' hc (by simp)]
  have hhQ : ∀ c ∈ h, notQueryHash c = true := by
    intro c hc
    simp [notQueryHash, hh1 c '?' hc (by simp), hh1 c '#' hc (by simp)]
  constructor
  · -- user, password, host and port
    have hstr : s ++ "://".toList ++ u ++ ":".toList ++ p ++ "@".toList ++ h ++ ":".toList ++ n
        = s ++ ':' :: ('/' :: '/' :: (u ++ ':' :: (p ++ '@' :: (h ++ ':' :: n)))) := by
      simp
    have hA : ∀ c ∈ u ++ ':' :: (p ++ '@' :: (h ++ ':' :: n)),
        notSlash c = true ∧ notQueryHash c = true := by
      intro c hc
      simp only [List.mem_append, List.mem_cons] at hc
      rcases hc with hc | rfl | hc | rfl | hc | rfl | hc
      · simp [notSlash, notQueryHash, hu1 c '/' hc (by simp), hu1 c '?' hc (by simp),
          hu1 c '#' hc (by simp)]
      · decide
      · simp [notSlash, notQueryHash, hp1 c '/' hc (by simp), hp1 c '?' hc (by simp),
          hp1 c '#' hc (by simp)]
      · decide
      · exact ⟨hhS c hc, hhQ c hc⟩
      · decide
      · simp [notSlash, notQueryHash, (hn1 c hc).1, (hn1 c hc).2.1, (hn1 c hc).2.2]
    have hm := regex_match_uri_build s
      ('/' :: '/' :: (u ++ ':' :: (p ++ '@' :: (h ++ ':' :: n)))) hs (by
        intro c hc
        rcases List.mem_cons.mp hc with rfl | hc
        · decide
        · rcases List.mem_cons.mp hc with rfl | hc
          · decide
          · exact (hA c hc).2)
    obtain ⟨apm, hap, hap1, hap2⟩ := apScan_build (u ++ ':' :: (p ++ '@' :: (h ++ ':' :: n))) []
      (fun c hc => (hA c hc).1) (Or.inl rfl) (by simp)
    rw [List.append_nil, ← regex_match_authority_and_path] at hap
    have ha : regex_match authority_regex (submatch apm 1)
        = some [(4, n), (3, h), (2, p), (1, u)] := by
      rw [hap1, regex_match_authority]
      apply authorityScan_full u p h n _ _ hhL hn
      · intro c hc
        simp [notAtColon, hu1 c '@' hc (by simp), hu1 c ':' hc (by simp)]
      · intro c hc
        simp [notAt, hp1 c '@' hc (by simp)]
    have hport : parsePort (decode garbage (submatch [(4, n), (3, h), (2, p), (1, u)] 4)) errno
        = (.ok (decValue n), errno) := by
      have : submatch [(4, n), (3, h), (2, p), (1, u)] 4 = n := rfl
      rw [this, decode_no_percent n (isdigit_no_percent n hn)]
      exact parsePort_ok n errno hn hv he
    rw [hstr, construct_authority _ errno _ apm _ hm hap ha, hport]
    refine ⟨_, rfl, ?_, ?_, ?_, rfl⟩
    · exact decode_no_percent u (fun hc => hu1 _ '%' hc (by simp) rfl)
    · exact decode_no_percent p (fun hc => hp1 _ '%' hc (by simp) rfl)
    · exact decode_no_percent h (fun hc => hh1 _ '%' hc (by simp) rfl)
  · -- the host alone
    have hstr : s ++ "://".toList ++ h = s ++ ':' :: ('/' :: '/' :: h) := by simp
    have hm := regex_match_uri_build s ('/' :: '/' :: h) hs (by
        intro c hc
        rcases List.mem_cons.mp hc with rfl | hc
        · decide
        · rcases List.mem_cons.mp hc with rfl | hc
          · decide
          · exact hhQ c hc)
    obtain ⟨apm, hap, hap1, hap2⟩ := apScan_build h [] hhS (Or.inl rfl) (by simp)
    rw [List.append_nil, ← regex_match_authority_and_path] at hap
    have ha : regex_match authority_regex (submatch apm 1) = some [(3, h)] := by
      rw [hap1, regex_match_authority]
      exact authorityScan_host h hhL hhA
    rw [hstr, construct_authority _ errno _ apm _ hm hap ha]
    refine ⟨_, rfl, rfl, rfl, ?_, rfl⟩
    exact decode_no_percent h (fun hc => hh1 _ '%' hc (by simp) rfl)

theorem portTail_colon_nondigit (q : Str) (m : Caps) (hq : ∃ c ∈ q, isdigit c = false) :
    portTail (':' :: q) m = none := by
  have : q.all isdigit = false := by
    rw [Bool.eq_false_iff]
    intro h
    obtain ⟨c, hc, hd⟩ := hq
    rw [List.all_eq_true.mp h c hc] at hd
    exact absurd hd (by decide)
  simp [portTail, this]

/-- The part of C8 that holds: for an authority that matches the authority
pattern with the digits `d` as its port, an empty `d` gives the port 0, a value
above 65535 gives `InvalidPort` with `d`, and a value of at most 65535 gives
that port when `errno` is not `ERANGE` on entry. -/
theorem port_of_digits (str : Str) (errno : Nat) (m apm am : Caps) (d : Str)
    (hm : regex_match uri_regex str = some m)
    (hap : regex_match authority_and_path_regex (submatch m 2) = some apm)
    (ha : regex_match authority_regex (submatch apm 1) = some am)
    (hd4 : submatch am 4 = d) (hdig : ∀ c ∈ d, isdigit c = true) :
    (d = [] → ∃ u, (Uri.Uri garbage str errno).1 = .ok u ∧ u.port_ = 0) ∧
      (decValue d ≤ 65535 → errno ≠ ERANGE →
        ∃ u, (Uri.Uri garbage str errno).1 = .ok u ∧ u.port_ = decValue d) ∧
      (65535 < decValue d → (Uri.Uri garbage str errno).1 = .error (.InvalidPort d)) := by
  have hdec : decode garbage (submatch am 4) = d := by
    rw [hd4]; exact decode_no_percent d (isdigit_no_percent d hdig)
  rw [construct_authority str errno m apm am hm hap ha, hdec]
  refine ⟨?_, ?_, ?_⟩
  · intro h0
    subst h0
    exact ⟨_, rfl, rfl⟩
  · intro hv he
    rw [parsePort_ok d errno hdig hv he]
    exact ⟨_, rfl, rfl⟩
  · intro hv
    cases d with
    | nil => simp [decValue] at hv
    | cons c t =>
      rw [parsePort_digits c t errno hdig]
      by_cases h1 : decValue (c :: t) > ULONG_MAX
      · rw [if_pos h1]
      · rw [if_neg h1]
        by_cases h2 : errno = ERANGE
        · rw [if_pos h2]
        · rw [if_neg h2, if_pos (by simp only [UINT16_MAX]; omega)]

/-- Every constructed `Uri` has a port of at most 65535. -/
theorem construct_port_le (str : Str) (errno : Nat) (u : Uri)
    (h : (Uri.Uri garbage str errno).1 = .ok u) : u.port_ ≤ 65535 := by
  obtain ⟨m, hm, -⟩ := construct_ok_match str errno u h
  cases hap : regex_match authority_and_path_regex (submatch m 2) with
  | none =>
    rw [construct_no_authority str errno m hm hap] at h
    simp only [Except.ok.injEq] at h
    subst h
    simp
  | some apm =>
    cases ha : regex_match authority_regex (submatch apm 1) with
    | none =>
      rw [construct_bad_authority str errno m apm hm hap ha] at h
      simp at h
    | some am =>
      rw [construct_authority str errno m apm am hm hap ha] at h
      rcases hp : parsePort (decode garbage (submatch am 4)) errno with ⟨r, e1⟩
      rw [hp] at h
      cases r with
      | error e => simp at h
      | ok port =>
        simp only [Except.ok.injEq] at h
        subst h
        exact parsePort_le _ _ _ _ hp

/-! ### The decoder -/

theorem hexVal_lt (c : Char) : hexVal c < 16 := by
  unfold hexVal
  split
  · rename_i h
    simp only [isdigit, Bool.and_eq_true, decide_eq_true_eq] at h
    have h1 : '0'.toNat = 48 := rfl
    have h2 : '9'.toNat = 57 := rfl
    omega
  · split
    · rename_i h
      simp only [Bool.and_eq_true, decide_eq_true_eq] at h
      have h1 : 'a'.toNat = 97 := rfl
      have h2 : 'f'.toNat = 102 := rfl
      omega
    · split
      · rename_i h
        simp only [Bool.and_eq_true, decide_eq_true_eq] at h
        have h1 : 'A'.toNat = 65 := rfl
        have h2 : 'F'.toNat = 70 := rfl
        omega
      · omega

theorem isxdigit_not_space (c : Char) (h : isxdigit c = true) : isspace c = false := by
  rw [Bool.eq_false_iff]
  intro hs
  simp only [isspace, Bool.or_eq_true, beq_iff_eq] at hs
  rcases hs with ((((rfl | rfl) | rfl) | rfl) | rfl) | rfl <;> exact absurd h (by decide)

theorem isxdigit_ne (c k : Char) (h : isxdigit c = true) (hk : isxdigit k = false) : c ≠ k := by
  rintro rfl
  rw [h] at hk
  exact absurd hk (by decide)

/-- The hexadecimal extraction on two hexadecimal digits. -/
theorem istream_hex_two (d : Int) (x y : Char) (hx : isxdigit x = true)
    (hy : isxdigit y = true) :
    istream_hex d [x, y] = ((16 * hexVal x + hexVal y : Nat) : Int) := by
  have hs : isspace x = false := isxdigit_not_space x hx
  have h1 : x ≠ '-' := isxdigit_ne x '-' hx (by decide)
  have h2 : x ≠ '+' := isxdigit_ne x '+' hx (by decide)
  have h3 : y ≠ 'x' := isxdigit_ne y 'x' hy (by decide)
  have h4 : y ≠ 'X' := isxdigit_ne y 'X' hy (by decide)
  simp [istream_hex, hs, h1, h2, h3, h4, hx, hy, hexValue]

theorem toChar_natCast (v : Nat) (hv : v < 256) : toChar (v : Int) = Char.ofNat v := by
  unfold toChar
  congr 1
  omega

/-! ### The pattern `query_param_regex` -/

/-- A star takes its longest run when what follows succeeds there. -/
theorem starExec_some (p : Char → Bool) (k : Str → Option Caps) (s : Str) (r : Caps)
    (h : k (s.dropWhile p) = some r) : starExec p k s = some r := by
  induction s with
  | nil => exact h
  | cons c t ih =>
    by_cases hc : p c = true
    · simp only [List.dropWhile_cons, hc, if_true] at h
      simp [starExec, hc, ih h, orElse]
    · simpa [starExec, hc] using h

/-- A success of a star comes from a split of the input after a run. -/
theorem starExec_sound (p : Char → Bool) (k : Str → Option Caps) (s : Str) (r : Caps)
    (h : starExec p k s = some r) :
    ∃ a b, s = a ++ b ∧ (∀ c ∈ a, p c = true) ∧ k b = some r := by
  induction s with
  | nil => exact ⟨[], [], rfl, by simp, h⟩
  | cons c t ih =>
    by_cases hc : p c = true
    · simp only [starExec, hc, if_true] at h
      cases ht : starExec p k t with
      | none =>
        rw [ht, orElse_none_left] at h
        exact ⟨[], c :: t, rfl, by simp, h⟩
      | some r1 =>
        rw [ht] at h
        simp only [orElse, Option.some.injEq] at h
        subst h
        obtain ⟨a, b, hab, ha, hk⟩ := ih ht
        refine ⟨c :: a, b, by rw [hab]; rfl, ?_, hk⟩
        intro x hx
        rcases List.mem_cons.mp hx with rfl | hx
        · exact hc
        · exact ha x hx
    · simp only [starExec, hc, Bool.false_eq_true, if_false] at h
      exact ⟨[], c :: t, rfl, by simp, h⟩

theorem rx_exec_re (bl : Nat) (bo nn : Bool) (r : Re) (s : Str) (m : Caps)
    (k : Str → Caps → Option Caps) : Rx.exec bo nn bl (.re r) s m k = r.exec s m k := by
  rw [Rx.exec]

theorem rx_exec_seq (bl : Nat) (bo nn : Bool) (a b : Rx) (s : Str) (m : Caps)
    (k : Str → Caps → Option Caps) :
    Rx.exec bo nn bl (.seq a b) s m k
      = Rx.exec bo nn bl a s m (fun s1 m1 => Rx.exec bo nn bl b s1 m1 k) := by
  rw [Rx.exec]

theorem rx_exec_alt (bl : Nat) (bo nn : Bool) (a b : Rx) (s : Str) (m : Caps)
    (k : Str → Caps → Option Caps) :
    Rx.exec bo nn bl (.alt a b) s m k
      = orElse (Rx.exec bo nn bl a s m k) (Rx.exec bo nn bl b s m k) := by
  rw [Rx.exec]

theorem rx_exec_group (bl : Nat) (bo nn : Bool) (idx : Nat) (a : Rx) (s : Str) (m : Caps)
    (k : Str → Caps → Option Caps) :
    Rx.exec bo nn bl (.group idx a) s m k
      = Rx.exec bo nn bl a s m
          (fun s1 m1 => k s1 ((idx, s.take (s.length - s1.length)) :: m1)) := by
  rw [Rx.exec]

theorem rx_exec_bol (bl : Nat) (bo nn : Bool) (s : Str) (m : Caps)
    (k : Str → Caps → Option Caps) :
    Rx.exec bo nn bl .bol s m k = if bo && s.length == bl then k s m else none := by
  rw [Rx.exec]

theorem rx_exec_eol (bl : Nat) (bo nn : Bool) (s : Str) (m : Caps)
    (k : Str → Caps → Option Caps) :
    Rx.exec bo nn bl .eol s m k = if s.isEmpty then k s m else none := by
  rw [Rx.exec]

theorem rx_exec_look (bl : Nat) (bo nn : Bool) (a : Rx) (s : Str) (m : Caps)
    (k : Str → Caps → Option Caps) :
    Rx.exec bo nn bl (.look a) s m k
      = match Rx.exec bo nn s.length a s m
            (fun s1 m1 => if nn && s1.length == s.length then none else some m1) with
        | some m1 => k s m1
        | none => none := by
  rw [Rx.exec]

/-- The lookahead `(?=(&|$))`. -/
theorem exec_ahead (bl : Nat) (bo nn : Bool) (s : Str) (m : Caps)
    (acc : Str → Caps → Option Caps) :
    Rx.exec bo nn bl query_ahead_re s m acc = aheadScan nn s m acc := by
  unfold query_ahead_re
  rw [rx_exec_look, rx_exec_group, rx_exec_alt, rx_exec_re, rx_exec_eol]
  cases s with
  | nil => cases nn <;> simp [exec_lit_nil, orElse, aheadScan]
  | cons c t =>
    by_cases hc : c = '&'
    · subst hc
      cases nn <;> simp [exec_lit_cons, orElse, aheadScan]
    · simp [exec_lit_cons, orElse, aheadScan, hc]

theorem aheadScan_some (nn : Bool) (s : Str) (m : Caps) (acc : Str → Caps → Option Caps)
    (r : Caps) (h : aheadScan nn s m acc = some r) :
    ((s = [] ∧ nn = false) ∨ ∃ t, s = '&' :: t) ∧ ∃ m1, acc s m1 = some r := by
  cases s with
  | nil =>
    cases nn with
    | true => simp [aheadScan] at h
    | false => exact ⟨Or.inl ⟨rfl, rfl⟩, _, h⟩
  | cons c t =>
    by_cases hc : c = '&'
    · subst hc
      simp only [aheadScan, beq_self_eq_true, if_true] at h
      exact ⟨Or.inr ⟨t, rfl⟩, _, h⟩
    · simp [aheadScan, hc] at h

theorem orElse_eq_some (a b : Option Caps) (r : Caps) (h : orElse a b = some r) :
    a = some r ∨ (a = none ∧ b = some r) := by
  cases a with
  | none => exact Or.inr ⟨rfl, h⟩
  | some x => exact Or.inl h

/-- The run of `query_segment_re` as a star over the name. -/
theorem exec_segment (bl : Nat) (bo nn : Bool) (s : Str) (m : Caps)
    (acc : Str → Caps → Option Caps) :
    Rx.exec bo nn bl query_segment_re s m acc
      = starExec notEqAmp
          (fun s1 =>
            orElse
              ((Re.lit '=').exec s1 ((2, s.take (s.length - s1.length)) :: m)
                (fun s2 m2 => valueScan nn s2 m2 acc))
              (valueScan nn s1 ((2, s.take (s.length - s1.length)) :: m) acc)) s := by
  have hV : (fun s1 m1 => Rx.exec bo nn bl (Rx.seq query_value_re query_ahead_re) s1 m1 acc)
      = fun s1 m1 => valueScan nn s1 m1 acc := by
    funext s1 m1
    rw [rx_exec_seq]
    unfold query_value_re
    rw [rx_exec_re, exec_group, exec_star]
    unfold valueScan
    congr 1
    funext s2
    exact exec_ahead bl bo nn s2 _ acc
  unfold query_segment_re
  rw [rx_exec_seq, hV]
  unfold query_name_re
  rw [rx_exec_re, exec_seq, exec_group, exec_star]
  rfl

/-- A match of `query_segment_re` is a name, at most one `=`, a value, and then
a `&` or, without `match_not_null`, the end of the input, where the
acceptance succeeds. -/
theorem exec_segment_sound (bl : Nat) (bo nn : Bool) (s : Str) (m : Caps)
    (acc : Str → Caps → Option Caps) (r : Caps)
    (h : Rx.exec bo nn bl query_segment_re s m acc = some r) :
    ∃ n e v y, s = n ++ (e ++ (v ++ y)) ∧ (∀ c ∈ n, notEqAmp c = true) ∧
      (e = [] ∨ e = ['=']) ∧ (∀ c ∈ v, notEqAmp c = true) ∧
      ((y = [] ∧ nn = false) ∨ ∃ t, y = '&' :: t) ∧ ∃ m1, acc y m1 = some r := by
  rw [exec_segment] at h
  obtain ⟨n, b, hs, hn, hk⟩ := starExec_sound _ _ _ _ h
  have hval : ∀ x mx, valueScan nn x mx acc = some r →
      ∃ v y, x = v ++ y ∧ (∀ c ∈ v, notEqAmp c = true) ∧
        ((y = [] ∧ nn = false) ∨ ∃ t, y = '&' :: t) ∧ ∃ m1, acc y m1 = some r := by
    intro x mx hx
    obtain ⟨v, y, hxy, hv, hy⟩ := starExec_sound _ _ _ _ hx
    obtain ⟨hy1, hy2⟩ := aheadScan_some _ _ _ _ _ hy
    exact ⟨v, y, hxy, hv, hy1, hy2⟩
  rcases orElse_eq_some _ _ _ hk with h1 | ⟨-, h2⟩
  · cases b with
    | nil => simp [exec_lit_nil] at h1
    | cons c t =>
      rw [exec_lit_cons] at h1
      by_cases hc : c = '='
      · subst hc
        rw [if_pos (by simp)] at h1
        obtain ⟨v, y, hxy, hv, hy1, hy2⟩ := hval _ _ h1
        exact ⟨n, ['='], v, y, by rw [hs, hxy]; rfl, hn, Or.inr rfl, hv, hy1, hy2⟩
      · simp [hc] at h1
  · obtain ⟨v, y, hxy, hv, hy1, hy2⟩ := hval _ _ h2
    exact ⟨n, [], v, y, by rw [hs, hxy]; rfl, hn, Or.inl rfl, hv, hy1, hy2⟩

theorem seg_dropWhile (n tail : Str) (hn : ∀ c ∈ n, notEqAmp c = true)
    (ht : tail = [] ∨ ∃ t, tail = '&' :: t) :
    (n ++ tail).dropWhile notEqAmp = tail ∧ (n ++ tail).takeWhile notEqAmp = n := by
  rcases ht with rfl | ⟨t, rfl⟩
  · rw [List.append_nil]
    exact ⟨dropWhile_all _ _ hn, takeWhile_all _ _ hn⟩
  · exact ⟨dropWhile_append_stop _ _ _ _ hn (by decide),
      takeWhile_append_stop _ _ _ _ hn (by decide)⟩

theorem take_append_length_sub (a b : Str) : (a ++ b).take ((a ++ b).length - b.length) = a := by
  have : (a ++ b).length - b.length = a.length := by simp
  rw [this, List.take_left']
  rfl

/-- An end of a segment that the lookahead accepts is an end of a segment. -/
theorem tail_of_ahead (nn : Bool) (tail : Str)
    (ht : (tail = [] ∧ nn = false) ∨ ∃ t, tail = '&' :: t) :
    tail = [] ∨ ∃ t, tail = '&' :: t := by
  rcases ht with ⟨h, -⟩ | h
  · exact Or.inl h
  · exact Or.inr h

theorem aheadScan_tail (nn : Bool) (tail : Str) (m : Caps) (acc : Str → Caps → Option Caps)
    (ht : (tail = [] ∧ nn = false) ∨ ∃ t, tail = '&' :: t) :
    aheadScan nn tail m acc = acc tail ((4, tail.take 1) :: m) := by
  rcases ht with ⟨rfl, rfl⟩ | ⟨t, rfl⟩
  · rfl
  · simp [aheadScan]

/-- The value and the lookahead on a value followed by the end or a `&`. -/
theorem valueScan_greedy (nn : Bool) (v tail : Str) (m : Caps)
    (acc : Str → Caps → Option Caps) (r : Caps)
    (hv : ∀ c ∈ v, notEqAmp c = true) (ht : (tail = [] ∧ nn = false) ∨ ∃ t, tail = '&' :: t)
    (hacc : acc tail ((4, tail.take 1) :: (3, v) :: m) = some r) :
    valueScan nn (v ++ tail) m acc = some r := by
  unfold valueScan
  apply starExec_some
  rw [(seg_dropWhile v tail hv (tail_of_ahead nn tail ht)).1, take_append_length_sub,
    aheadScan_tail _ _ _ _ ht]
  exact hacc

/-- The greedy run of `query_segment_re` on a name without `=`. -/
theorem exec_segment_name (bl : Nat) (bo nn : Bool) (n tail : Str) (m : Caps)
    (acc : Str → Caps → Option Caps) (r : Caps)
    (hn : ∀ c ∈ n, notEqAmp c = true) (ht : (tail = [] ∧ nn = false) ∨ ∃ t, tail = '&' :: t)
    (hacc : acc tail ((4, tail.take 1) :: (3, []) :: (2, n) :: m) = some r) :
    Rx.exec bo nn bl query_segment_re (n ++ tail) m acc = some r := by
  rw [exec_segment]
  apply starExec_some
  rw [(seg_dropWhile n tail hn (tail_of_ahead nn tail ht)).1, take_append_length_sub]
  have h1 : (Re.lit '=').exec tail ((2, n) :: m) (fun s2 m2 => valueScan nn s2 m2 acc)
      = none := by
    rcases ht with ⟨rfl, -⟩ | ⟨t, rfl⟩
    · rfl
    · simp [exec_lit_cons]
  rw [h1, orElse_none_left]
  have := valueScan_greedy nn [] tail ((2, n) :: m) acc r (by simp) ht hacc
  simpa using this

/-- The greedy run of `query_segment_re` on a name, `=` and a value. -/
theorem exec_segment_name_value (bl : Nat) (bo nn : Bool) (n v tail : Str) (m : Caps)
    (acc : Str → Caps → Option Caps) (r : Caps)
    (hn : ∀ c ∈ n, notEqAmp c = true) (hv : ∀ c ∈ v, notEqAmp c = true)
    (ht : (tail = [] ∧ nn = false) ∨ ∃ t, tail = '&' :: t)
    (hacc : acc tail ((4, tail.take 1) :: (3, v) :: (2, n) :: m) = some r) :
    Rx.exec bo nn bl query_segment_re (n ++ '=' :: (v ++ tail)) m acc = some r := by
  rw [exec_segment]
  apply starExec_some
  rw [dropWhile_append_stop notEqAmp n '=' _ hn (by decide), take_append_length_sub,
    exec_lit_cons, if_pos (by simp),
    valueScan_greedy nn v tail ((2, n) :: m) acc r hv ht hacc]
  rfl

theorem notEqAmp_of_not_mem (g : Str) (h1 : '=' ∉ g) (h2 : '&' ∉ g) :
    ∀ c ∈ g, notEqAmp c = true := by
  intro c hc
  have hne1 : c ≠ '=' := fun h => h1 (h ▸ hc)
  have hne2 : c ≠ '&' := fun h => h2 (h ▸ hc)
  simp [notEqAmp, hne1, hne2]

theorem not_mem_of_notEqAmp (g : Str) (h : ∀ c ∈ g, notEqAmp c = true) :
    '=' ∉ g ∧ '&' ∉ g := by
  constructor <;> intro hm <;> exact absurd (h _ hm) (by decide)

/-- A segment with at most one `=` is its name, or its name, `=` and its
value, neither of which has a `=`. -/
theorem segment_decomp (g : Str) (hg : goodSegment g = true) :
    (g = segmentName g ∧ segmentValue g = [] ∧ '=' ∉ g) ∨
      (g = segmentName g ++ '=' :: segmentValue g ∧ '=' ∉ segmentName g ∧
        '=' ∉ segmentValue g) := by
  have hname : '=' ∉ segmentName g := by
    intro hm
    exact absurd (List.mem_takeWhile_imp hm) (by decide)
  cases hd : g.dropWhile notEq with
  | nil =>
    left
    have hall : ∀ c ∈ g, notEq c = true := List.dropWhile_eq_nil_iff.mp hd
    refine ⟨(takeWhile_all notEq g hall).symm, by simp [segmentValue, hd], ?_⟩
    intro hm
    exact absurd (hall _ hm) (by decide)
  | cons x v =>
    right
    obtain ⟨hx, hgx⟩ := dropWhile_eq_cons notEq g x v hd
    have hx2 : x = '=' := by simpa [notEq] using hx
    subst hx2
    have hval : segmentValue g = v := by simp [segmentValue, hd]
    refine ⟨by rw [hval]; exact hgx, hname, ?_⟩
    rw [hval]
    intro hm
    have hc : g.count '=' ≤ 1 := by simpa [goodSegment] using hg
    rw [hgx, List.count_append, List.count_cons_self] at hc
    have : 0 < v.count '=' := List.count_pos_iff.mpr hm
    omega

/-- The first `&` of a text determines its first segment. -/
theorem segment_unique (g w tail y : Str) (hg : '&' ∉ g) (hw : '&' ∉ w)
    (ht : tail = [] ∨ ∃ t, tail = '&' :: t) (hy : y = [] ∨ ∃ t, y = '&' :: t)
    (h : g ++ tail = w ++ y) : g = w ∧ tail = y := by
  induction g generalizing w with
  | nil =>
    cases w with
    | nil => exact ⟨rfl, h⟩
    | cons d w1 =>
      rcases ht with rfl | ⟨t, rfl⟩
      · simp at h
      · simp only [List.nil_append, List.cons_append, List.cons.injEq] at h
        exact absurd (List.mem_cons.mpr (Or.inl h.1)) hw
  | cons c g1 ih =>
    cases w with
    | nil =>
      rcases hy with rfl | ⟨t, rfl⟩
      · simp at h
      · simp only [List.nil_append, List.cons_append, List.cons.injEq] at h
        exact absurd (List.mem_cons.mpr (Or.inl h.1.symm)) hg
    | cons d w1 =>
      simp only [List.cons_append, List.cons.injEq] at h
      obtain ⟨h1, h2⟩ := ih w1 (fun hm => hg (by simp [hm])) (fun hm => hw (by simp [hm])) h.2
      exact ⟨by rw [h.1, h1], h2⟩

/-- The run of `query_segment_re` on a segment with at most one `=`. -/
theorem exec_segment_good (bl : Nat) (bo nn : Bool) (g tail : Str) (m : Caps)
    (acc : Str → Caps → Option Caps) (r : Caps)
    (hg : '&' ∉ g) (hgood : goodSegment g = true)
    (ht : (tail = [] ∧ nn = false) ∨ ∃ t, tail = '&' :: t)
    (hacc : acc tail ((4, tail.take 1) :: (3, segmentValue g) :: (2, segmentName g) :: m)
      = some r) :
    Rx.exec bo nn bl query_segment_re (g ++ tail) m acc = some r := by
  rcases segment_decomp g hgood with ⟨h1, h2, h3⟩ | ⟨h1, h2, h3⟩
  · rw [h2] at hacc
    have hn : ∀ c ∈ segmentName g, notEqAmp c = true := by
      rw [← h1]; exact notEqAmp_of_not_mem g h3 hg
    have := exec_segment_name bl bo nn (segmentName g) tail m acc r hn ht hacc
    rw [← h1] at this
    exact this
  · have hg1 : '&' ∉ segmentName g := by
      intro hm; apply hg; rw [h1]; simp [hm]
    have hg2 : '&' ∉ segmentValue g := by
      intro hm; apply hg; rw [h1]; simp [hm]
    have := exec_segment_name_value bl bo nn (segmentName g) (segmentValue g) tail m acc r
      (notEqAmp_of_not_mem _ h2 hg1) (notEqAmp_of_not_mem _ h3 hg2) ht hacc
    rw [h1]
    simpa using this

/-- The run of `query_segment_re` fails on a segment with two or more `=`, when
the acceptance refuses the end of the segment, and under `match_not_null` on
a segment that runs to the end of the input. -/
theorem exec_segment_none (bl : Nat) (bo nn : Bool) (g tail : Str) (m : Caps)
    (acc : Str → Caps → Option Caps)
    (hg : '&' ∉ g) (ht : tail = [] ∨ ∃ t, tail = '&' :: t)
    (hbad : goodSegment g = false ∨ (∀ m1, acc tail m1 = none) ∨ (nn = true ∧ tail = [])) :
    Rx.exec bo nn bl query_segment_re (g ++ tail) m acc = none := by
  cases hx : Rx.exec bo nn bl query_segment_re (g ++ tail) m acc with
  | none => rfl
  | some r =>
    exfalso
    obtain ⟨n, e, v, y, hs, hn, he, hv, hy, m1, hm1⟩ := exec_segment_sound _ _ _ _ _ _ _ hx
    obtain ⟨hn1, hn2⟩ := not_mem_of_notEqAmp n hn
    obtain ⟨hv1, hv2⟩ := not_mem_of_notEqAmp v hv
    have hw : '&' ∉ n ++ (e ++ v) := by
      rcases he with rfl | rfl
      · simp [hn2, hv2]
      · simp [hn2, hv2]
    have hs2 : g ++ tail = (n ++ (e ++ v)) ++ y := by rw [hs]; simp
    obtain ⟨hgw, hty⟩ := segment_unique g _ tail y hg hw ht (tail_of_ahead nn y hy) hs2
    rcases hbad with hb | hb | ⟨hb1, hb2⟩
    · have hcount : g.count '=' ≤ 1 := by
        rw [hgw, List.count_append, List.count_append,
          List.count_eq_zero.mpr hn1, List.count_eq_zero.mpr hv1]
        rcases he with rfl | rfl
        · simp
        · simp
      simp [goodSegment, hcount] at hb
    · rw [← hty, hb m1] at hm1
      exact absurd hm1 (by simp)
    · rw [← hty, hb2] at hy
      rcases hy with ⟨-, h⟩ | ⟨t, h⟩
      · rw [hb1] at h
        exact absurd h (by decide)
      · exact absurd h (by simp)

/-- One attempt of `query_param_regex`: the alternative `^` first, then `&`. -/
theorem attempt_eq (pa nn : Bool) (s : Str) :
    attempt query_param_regex pa nn s
      = orElse
          (if pa then none
            else Rx.exec (!pa) nn s.length query_segment_re s [(1, [])] (acceptAt s nn))
          (match s with
            | [] => none
            | c :: t =>
              if c == '&' then
                Rx.exec (!pa) nn s.length query_segment_re t [(1, ['&'])] (acceptAt s nn)
              else none) := by
  unfold attempt query_param_regex
  have hq : ∀ k, Rx.exec (!pa) nn s.length (Rx.seq query_start_re (Rx.seq query_name_re
      (Rx.seq query_value_re query_ahead_re))) s [] k
      = Rx.exec (!pa) nn s.length query_start_re s []
          (fun s1 m1 => Rx.exec (!pa) nn s.length query_segment_re s1 m1 k) := by
    intro k
    rw [rx_exec_seq]
    rfl
  rw [hq]
  unfold query_start_re
  rw [rx_exec_group, rx_exec_alt, rx_exec_bol, rx_exec_re]
  congr 1
  · cases pa <;> simp
  · cases s with
    | nil => rfl
    | cons c t =>
      rw [exec_lit_cons]
      by_cases hc : c = '&'
      · subst hc; simp
      · simp [hc]

theorem acceptAt_shorter (s : Str) (nn : Bool) (tail : Str) (m : Caps)
    (h : tail.length < s.length) :
    acceptAt s nn tail m = some ((0, s.take (s.length - tail.length)) :: m) := by
  have hne : ¬ (tail.length = s.length) := by omega
  simp [acceptAt, hne]

theorem acceptAt_same (s : Str) (m : Caps) : acceptAt s true s m = none := by
  simp [acceptAt]

theorem acceptAt_false (s : Str) (tail : Str) (m : Caps) :
    acceptAt s false tail m = some ((0, s.take (s.length - tail.length)) :: m) := by
  simp [acceptAt]

theorem goodSegment_nil : goodSegment [] = true := rfl

theorem ampJoin_ahead (gs : List Str) :
    (ampJoin gs = [] ∧ false = false) ∨ ∃ t, ampJoin gs = '&' :: t := by
  cases gs with
  | nil => exact Or.inl ⟨rfl, rfl⟩
  | cons g rest => exact Or.inr ⟨_, rfl⟩

theorem ampJoin_tail (gs : List Str) : ampJoin gs = [] ∨ ∃ t, ampJoin gs = '&' :: t := by
  cases gs with
  | nil => exact Or.inl rfl
  | cons g rest => exact Or.inr ⟨_, rfl⟩

/-- The alternative `^` of an attempt at a `&` is of no use under
`match_prev_avail` or `match_not_null`. -/
theorem attempt_bol_amp (pa nn : Bool) (T : Str) (hpa : pa = true ∨ nn = true) :
    (if pa then none
      else Rx.exec (!pa) nn ('&' :: T).length query_segment_re ('&' :: T)
        [(1, [])] (acceptAt ('&' :: T) nn)) = none := by
  cases pa with
  | true => rfl
  | false =>
    have hnn : nn = true := by simpa using hpa
    subst hnn
    simp only [Bool.false_eq_true, if_false]
    have := exec_segment_none ('&' :: T).length (!false) true [] ('&' :: T)
      [(1, [])] (acceptAt ('&' :: T) true) (by simp) (Or.inr ⟨_, rfl⟩)
      (Or.inr (Or.inl (fun m1 => acceptAt_same _ m1)))
    simpa using this

/-- An attempt at a `&` before a segment with at most one `=`, when `^` is of
no use: the match is the `&` and the segment. -/
theorem attempt_amp_good (pa nn : Bool) (g tail : Str) (hpa : pa = true ∨ nn = true)
    (hg : '&' ∉ g) (hgood : goodSegment g = true)
    (ht : (tail = [] ∧ nn = false) ∨ ∃ t, tail = '&' :: t) :
    ∃ m, attempt query_param_regex pa nn ('&' :: (g ++ tail)) = some m ∧
      submatch m 0 = '&' :: g ∧ submatch m 2 = segmentName g ∧
      submatch m 3 = segmentValue g := by
  have h1 := attempt_bol_amp pa nn (g ++ tail) hpa
  have h2 := exec_segment_good ('&' :: (g ++ tail)).length (!pa) nn g tail [(1, ['&'])]
    (acceptAt ('&' :: (g ++ tail)) nn) _ hg hgood ht
    (acceptAt_shorter _ nn tail _ (by simp only [List.length_cons, List.length_append]; omega))
  rw [attempt_eq, h1, orElse_none_left]
  simp only [beq_self_eq_true, if_true]
  refine ⟨_, h2, ?_, rfl, rfl⟩
  have : ('&' :: (g ++ tail)).take (('&' :: (g ++ tail)).length - tail.length) = '&' :: g :=
    take_append_length_sub ('&' :: g) tail
  simp only [submatch, List.lookup, beq_self_eq_true]
  exact this

/-- An attempt at a `&` before a segment with two or more `=` fails. -/
theorem attempt_amp_bad (pa nn : Bool) (g tail : Str) (hpa : pa = true ∨ nn = true)
    (hg : '&' ∉ g) (hbad : goodSegment g = false) (ht : tail = [] ∨ ∃ t, tail = '&' :: t) :
    attempt query_param_regex pa nn ('&' :: (g ++ tail)) = none := by
  have h1 := attempt_bol_amp pa nn (g ++ tail) hpa
  rw [attempt_eq, h1, orElse_none_left]
  simp only [beq_self_eq_true, if_true]
  exact exec_segment_none _ _ _ g tail _ _ hg ht (Or.inl hbad)

/-- Under `match_not_null` an attempt at a `&` before a segment that runs to
the end of the input fails: the lookahead would match nothing there. -/
theorem attempt_amp_last (pa : Bool) (g : Str) (hg : '&' ∉ g) :
    attempt query_param_regex pa true ('&' :: g) = none := by
  have h1 := attempt_bol_amp pa true g (Or.inr rfl)
  rw [attempt_eq, h1, orElse_none_left]
  simp only [beq_self_eq_true, if_true]
  have := exec_segment_none ('&' :: g).length (!pa) true g [] [(1, ['&'])]
    (acceptAt ('&' :: g) true) hg (Or.inl rfl) (Or.inr (Or.inr ⟨rfl, rfl⟩))
  simpa using this

/-- The first attempt of a search, on a first segment with at most one `=`:
the match is the segment. -/
theorem attempt_first_good (g tail : Str)
    (hg : '&' ∉ g) (hgood : goodSegment g = true) (ht : tail = [] ∨ ∃ t, tail = '&' :: t) :
    ∃ m, attempt query_param_regex false false (g ++ tail) = some m ∧
      submatch m 0 = g ∧ submatch m 2 = segmentName g ∧ submatch m 3 = segmentValue g := by
  have ht2 : (tail = [] ∧ false = false) ∨ ∃ t, tail = '&' :: t := by
    rcases ht with h | h
    · exact Or.inl ⟨h, rfl⟩
    · exact Or.inr h
  have h2 := exec_segment_good (g ++ tail).length (!false) false g tail [(1, [])]
    (acceptAt (g ++ tail) false) _ hg hgood ht2 (acceptAt_false _ tail _)
  rw [attempt_eq]
  simp only [Bool.false_eq_true, if_false, h2, orElse]
  refine ⟨_, rfl, ?_, rfl, rfl⟩
  simp only [submatch, List.lookup, beq_self_eq_true]
  exact take_append_length_sub g tail

theorem goodSegment_false_ne_nil (g : Str) (h : goodSegment g = false) : g ≠ [] := by
  rintro rfl
  exact absurd h (by decide)

/-- The first attempt of a search fails on a first segment with two or more
`=`. -/
theorem attempt_first_bad (g tail : Str)
    (hg : '&' ∉ g) (hbad : goodSegment g = false) (ht : tail = [] ∨ ∃ t, tail = '&' :: t) :
    attempt query_param_regex false false (g ++ tail) = none := by
  have h1 := exec_segment_none (g ++ tail).length (!false) false g tail [(1, [])]
    (acceptAt (g ++ tail) false) hg ht (Or.inl hbad)
  rw [attempt_eq]
  simp only [Bool.false_eq_true, if_false, h1, orElse_none_left]
  cases g with
  | nil => exact absurd rfl (goodSegment_false_ne_nil _ hbad)
  | cons c g1 =>
    have hc : c ≠ '&' := fun h => hg (by simp [h])
    simp [hc]

/-- With `match_prev_avail` an attempt fails where there is no `&`. -/
theorem attempt_prev_avail_none (nn : Bool) (s : Str) (h : s.head? ≠ some '&') :
    attempt query_param_regex true nn s = none := by
  rw [attempt_eq]
  simp only [if_true, orElse_none_left]
  cases s with
  | nil => rfl
  | cons c t =>
    have hc : c ≠ '&' := fun hh => h (by simp [hh])
    simp [hc]

theorem searchLater_cons (r : Rx) (nn : Bool) (c : Char) (t : Str) :
    searchLater r nn (c :: t) = (regex_search r true nn false t).map (fun x => (x.1 + 1, x.2)) := by
  unfold regex_search
  rw [searchLater]
  cases attempt r true nn t with
  | none => simp
  | some m => simp

/-- A search with `match_prev_avail` passes over a character that is not `&`. -/
theorem regex_search_skip_char (nn : Bool) (c : Char) (t : Str) (hc : c ≠ '&') :
    regex_search query_param_regex true nn false (c :: t)
      = (regex_search query_param_regex true nn false t).map (fun x => (x.1 + 1, x.2)) := by
  have h : attempt query_param_regex true nn (c :: t) = none :=
    attempt_prev_avail_none nn _ (by simpa using hc)
  rw [regex_search, h]
  simp only [Bool.false_eq_true, if_false]
  exact searchLater_cons _ nn c t

/-- A search with `match_prev_avail` passes over a text without `&`. -/
theorem regex_search_junk (junk T : Str) (hj : '&' ∉ junk) :
    regex_search query_param_regex true false false (junk ++ T)
      = (regex_search query_param_regex true false false T).map
          (fun x => (x.1 + junk.length, x.2)) := by
  induction junk with
  | nil => simp
  | cons c j ih =>
    have hc : c ≠ '&' := fun h => hj (by simp [h])
    rw [List.cons_append, regex_search_skip_char false c (j ++ T) hc,
      ih (fun hm => hj (by simp [hm])), Option.map_map]
    congr 1

/-- A search with `match_prev_avail` passes over a segment with two or more
`=` and the `&` before it. -/
theorem regex_search_bad (g T : Str) (hg : '&' ∉ g) (hbad : goodSegment g = false)
    (ht : T = [] ∨ ∃ t, T = '&' :: t) :
    regex_search query_param_regex true false false (('&' :: g) ++ T)
      = (regex_search query_param_regex true false false T).map
          (fun x => (x.1 + ('&' :: g).length, x.2)) := by
  have h : attempt query_param_regex true false ('&' :: (g ++ T)) = none :=
    attempt_amp_bad true false g T (Or.inl rfl) hg hbad ht
  rw [List.cons_append, regex_search, h]
  simp only [Bool.false_eq_true, if_false]
  rw [searchLater_cons, regex_search_junk g T hg, Option.map_map]
  rfl

theorem regex_iterator_next_false (r : Rx) (fuel : Nat) (s : Str) (pa : Bool) :
    regex_iterator_next r (fuel + 1) s false pa
      = match regex_search r true false false s with
        | some (i, m) =>
          m :: regex_iterator_next r fuel (s.drop (i + (submatch m 0).length))
            ((submatch m 0).length == 0) true
        | none => [] := by
  rw [regex_iterator_next]

/-- The iterator passes over a text that the search passes over. -/
theorem regex_iterator_next_skip (fuel : Nat) (pre T : Str) (pa1 pa2 : Bool)
    (h : regex_search query_param_regex true false false (pre ++ T)
      = (regex_search query_param_regex true false false T).map
          (fun x => (x.1 + pre.length, x.2))) :
    regex_iterator_next query_param_regex (fuel + 1) (pre ++ T) false pa1
      = regex_iterator_next query_param_regex (fuel + 1) T false pa2 := by
  rw [regex_iterator_next_false, regex_iterator_next_false, h]
  cases regex_search query_param_regex true false false T with
  | none => rfl
  | some x =>
    obtain ⟨i, m⟩ := x
    simp only [Option.map_some']
    have : (pre ++ T).drop (i + pre.length + (submatch m 0).length)
        = T.drop (i + (submatch m 0).length) := by
      have h1 : i + pre.length + (submatch m 0).length
          = pre.length + (i + (submatch m 0).length) := by omega
      rw [h1, List.drop_append]
    rw [this]

/-- The matches of the iterator from a `&` on: one for each segment with at
most one `=`, with its name and value. -/
theorem regex_iterator_next_ampJoin (gs : List Str) (hgs : ∀ g ∈ gs, '&' ∉ g) :
    ∀ fuel pa, gs.length + 1 ≤ fuel →
      (regex_iterator_next query_param_regex fuel (ampJoin gs) false pa).map pairOf
        = (gs.filter goodSegment).map segmentRaw := by
  induction gs with
  | nil =>
    intro fuel pa hf
    obtain ⟨f, rfl⟩ : ∃ f, fuel = f + 1 := ⟨fuel - 1, by omega⟩
    rw [regex_iterator_next_false]
    rfl
  | cons g rest ih =>
    intro fuel pa hf
    obtain ⟨f, rfl⟩ : ∃ f, fuel = f + 1 := ⟨fuel - 1, by omega⟩
    have hg : '&' ∉ g := hgs g (by simp)
    have hrest : ∀ x ∈ rest, '&' ∉ x := fun x hx => hgs x (by simp [hx])
    simp only [List.length_cons] at hf
    cases hgood : goodSegment g with
    | true =>
      obtain ⟨m, hm, h0, h2, h3⟩ :=
        attempt_amp_good true false g (ampJoin rest) (Or.inl rfl) hg hgood (ampJoin_ahead rest)
      have hs : regex_search query_param_regex true false false (ampJoin (g :: rest))
          = some (0, m) := by
        rw [ampJoin, regex_search, hm]
      have hdrop : (ampJoin (g :: rest)).drop (0 + (submatch m 0).length) = ampJoin rest := by
        rw [h0, ampJoin]
        simp
      have hlen : ((submatch m 0).length == 0) = false := by
        rw [h0]; rfl
      rw [regex_iterator_next_false, hs]
      simp only
      rw [hdrop, hlen, List.map_cons, ih hrest f true (by omega)]
      simp [List.filter_cons, hgood, pairOf, segmentRaw, h2, h3]
    | false =>
      have hskip := regex_search_bad g (ampJoin rest) hg hgood (ampJoin_tail rest)
      have hj : ampJoin (g :: rest) = ('&' :: g) ++ ampJoin rest := rfl
      rw [hj, regex_iterator_next_skip f ('&' :: g) (ampJoin rest) pa pa hskip,
        ih hrest (f + 1) pa (by omega)]
      simp [List.filter_cons, hgood]

theorem regex_iterator_next_pa (r : Rx) (fuel : Nat) (s : Str) (pa1 pa2 : Bool) :
    regex_iterator_next r fuel s false pa1 = regex_iterator_next r fuel s false pa2 := by
  cases fuel with
  | zero => simp [regex_iterator_next]
  | succ f => rw [regex_iterator_next_false, regex_iterator_next_false]

/-- A match found by a search with `match_prev_avail` from a `&` on is not
empty. -/
theorem regex_search_ampJoin_nonempty (gs : List Str) (hgs : ∀ g ∈ gs, '&' ∉ g)
    (i : Nat) (m : Caps)
    (h : regex_search query_param_regex true false false (ampJoin gs) = some (i, m)) :
    ((submatch m 0).length == 0) = false := by
  induction gs generalizing i m with
  | nil =>
    have : regex_search query_param_regex true false false (ampJoin []) = none := by
      rw [ampJoin, regex_search, attempt_prev_avail_none false [] (by simp)]
      rfl
    rw [this] at h
    exact absurd h (by simp)
  | cons g rest ih =>
    have hg : '&' ∉ g := hgs g (by simp)
    have hrest : ∀ x ∈ rest, '&' ∉ x := fun x hx => hgs x (by simp [hx])
    cases hgood : goodSegment g with
    | true =>
      obtain ⟨m1, hm, h0, -, -⟩ :=
        attempt_amp_good true false g (ampJoin rest) (Or.inl rfl) hg hgood (ampJoin_ahead rest)
      rw [ampJoin, regex_search, hm] at h
      simp only [Option.some.injEq, Prod.mk.injEq] at h
      rw [← h.2, h0]
      rfl
    | false =>
      have hskip := regex_search_bad g (ampJoin rest) hg hgood (ampJoin_tail rest)
      have hj : ampJoin (g :: rest) = ('&' :: g) ++ ampJoin rest := rfl
      rw [hj, hskip] at h
      cases hx : regex_search query_param_regex true false false (ampJoin rest) with
      | none => rw [hx] at h; exact absurd h (by simp)
      | some x =>
        obtain ⟨i1, m1⟩ := x
        rw [hx] at h
        simp only [Option.map_some', Option.some.injEq, Prod.mk.injEq] at h
        rw [← h.2]
        exact ih hrest i1 m1 hx

theorem length_le_ampJoin (gs : List Str) : gs.length ≤ (ampJoin gs).length := by
  induction gs with
  | nil => simp [ampJoin]
  | cons g rest ih =>
    simp only [ampJoin, List.length_cons, List.length_append]
    omega

/-- The matches of the iterator after an empty first match: when one segment
only is left, the retry under `match_not_null` fails on it and it is passed
over. -/
theorem regex_iterator_next_retry (gs : List Str) (hgs : ∀ g ∈ gs, '&' ∉ g)
    (fuel : Nat) (hf : gs.length + 2 ≤ fuel) :
    (regex_iterator_next query_param_regex fuel (ampJoin gs) true false).map pairOf
      = ((retrySegments gs).filter goodSegment).map segmentRaw := by
  obtain ⟨f, rfl⟩ : ∃ f, fuel = f + 1 := ⟨fuel - 1, by omega⟩
  cases gs with
  | nil => simp [ampJoin, regex_iterator_next, retrySegments]
  | cons g rest =>
    have hg : '&' ∉ g := hgs g (by simp)
    have hrest : ∀ x ∈ rest, '&' ∉ x := fun x hx => hgs x (by simp [hx])
    simp only [List.length_cons] at hf
    rw [ampJoin, regex_iterator_next]
    obtain ⟨f1, rfl⟩ : ∃ f1, f = f1 + 1 := ⟨f - 1, by omega⟩
    cases rest with
    | nil =>
      have hm := attempt_amp_last false g hg
      have hs : regex_search query_param_regex false true true ('&' :: (g ++ ampJoin []))
          = none := by
        rw [ampJoin, List.append_nil, regex_search, hm]; rfl
      rw [hs]
      simp only
      rw [regex_iterator_next_skip f1 g (ampJoin []) true true
          (regex_search_junk g (ampJoin []) hg),
        regex_iterator_next_ampJoin [] (by simp) (f1 + 1) true (by simp)]
      rfl
    | cons g2 rest2 =>
      have hne : retrySegments (g :: g2 :: rest2) = g :: g2 :: rest2 := rfl
      rw [hne]
      cases hgood : goodSegment g with
      | true =>
        obtain ⟨m, hm, h0, h2, h3⟩ :=
          attempt_amp_good false true g (ampJoin (g2 :: rest2)) (Or.inr rfl) hg hgood
            (Or.inr ⟨_, rfl⟩)
        have hs : regex_search query_param_regex false true true
            ('&' :: (g ++ ampJoin (g2 :: rest2))) = some (0, m) := by
          rw [regex_search, hm]
        have hdrop : ('&' :: (g ++ ampJoin (g2 :: rest2))).drop (0 + (submatch m 0).length)
            = ampJoin (g2 :: rest2) := by
          rw [h0]; simp
        have hlen : ((submatch m 0).length == 0) = false := by
          rw [h0]; rfl
        rw [hs]
        simp only
        rw [hdrop, hlen, List.map_cons,
          regex_iterator_next_ampJoin (g2 :: rest2) hrest (f1 + 1) false
            (by simp only [List.length_cons] at hf ⊢; omega)]
        simp [List.filter_cons, hgood, pairOf, segmentRaw, h2, h3]
      | false =>
        have hm := attempt_amp_bad false true g (ampJoin (g2 :: rest2)) (Or.inr rfl) hg hgood
          (ampJoin_tail (g2 :: rest2))
        have hs : regex_search query_param_regex false true true
            ('&' :: (g ++ ampJoin (g2 :: rest2))) = none := by
          rw [regex_search, hm]; rfl
        rw [hs]
        simp only
        rw [regex_iterator_next_skip f1 g (ampJoin (g2 :: rest2)) true true
            (regex_search_junk g (ampJoin (g2 :: rest2)) hg),
          regex_iterator_next_ampJoin (g2 :: rest2) hrest (f1 + 1) true
            (by simp only [List.length_cons] at hf ⊢; omega)]
        simp [List.filter_cons, hgood]

/-- All the matches of the iterator over a query: one for each segment with at
most one `=`, with its name and value; but for a query `&g` the empty match
at its beginning only. -/
theorem regex_iterator_query (g0 : Str) (gs : List Str) (hg0 : '&' ∉ g0)
    (hgs : ∀ g ∈ gs, '&' ∉ g) :
    (regex_iterator query_param_regex (g0 ++ ampJoin gs)).map pairOf
      = ((iteratedSegments (g0 :: gs)).filter goodSegment).map segmentRaw := by
  have hlen : gs.length ≤ (g0 ++ ampJoin gs).length := by
    have := length_le_ampJoin gs
    simp only [List.length_append]
    omega
  cases g0 with
  | nil =>
    obtain ⟨m, hm, h0, h2, h3⟩ :=
      attempt_first_good [] (ampJoin gs) hg0 goodSegment_nil (ampJoin_tail gs)
    have hs : regex_search query_param_regex false false false ([] ++ ampJoin gs)
        = some (0, m) := by
      rw [regex_search, hm]
    have hdrop : ([] ++ ampJoin gs).drop (0 + (submatch m 0).length) = ampJoin gs := by
      rw [h0]; simp
    have hb : ((submatch m 0).length == 0) = true := by
      rw [h0]; rfl
    have hp : pairOf m = segmentRaw [] := by simp [pairOf, segmentRaw, h2, h3]
    unfold regex_iterator
    rw [hs]
    simp only
    rw [hdrop, hb, List.map_cons, hp, regex_iterator_next_retry gs hgs _ (by omega)]
    cases gs with
    | nil => rfl
    | cons g rest =>
      cases rest with
      | nil => rfl
      | cons g2 rest2 => rfl
  | cons c j =>
    have hmatch : iteratedSegments ((c :: j) :: gs) = (c :: j) :: gs := rfl
    rw [hmatch]
    unfold regex_iterator
    cases hgood : goodSegment (c :: j) with
    | true =>
      obtain ⟨m, hm, h0, h2, h3⟩ :=
        attempt_first_good (c :: j) (ampJoin gs) hg0 hgood (ampJoin_tail gs)
      have hs : regex_search query_param_regex false false false ((c :: j) ++ ampJoin gs)
          = some (0, m) := by
        rw [regex_search, hm]
      have hdrop : ((c :: j) ++ ampJoin gs).drop (0 + (submatch m 0).length) = ampJoin gs := by
        rw [h0]; simp
      have hb : ((submatch m 0).length == 0) = false := by
        rw [h0]; rfl
      have hp : pairOf m = segmentRaw (c :: j) := by simp [pairOf, segmentRaw, h2, h3]
      rw [hs]
      simp only
      rw [hdrop, hb, List.map_cons, hp,
        regex_iterator_next_ampJoin gs hgs _ false (by omega)]
      simp [List.filter_cons, hgood]
    | false =>
      have hm := attempt_first_bad (c :: j) (ampJoin gs) hg0 hgood (ampJoin_tail gs)
      have hj : '&' ∉ j := fun h => hg0 (by simp [h])
      have hs : regex_search query_param_regex false false false ((c :: j) ++ ampJoin gs)
          = (regex_search query_param_regex true false false (ampJoin gs)).map
              (fun x => (x.1 + (c :: j).length, x.2)) := by
        rw [regex_search, hm]
        simp only [Bool.false_eq_true, if_false]
        rw [List.cons_append, searchLater_cons, regex_search_junk j (ampJoin gs) hj,
          Option.map_map]
        rfl
      have hit := regex_iterator_next_ampJoin gs hgs
        (2 * ((c :: j) ++ ampJoin gs).length + 4 + 1) true (by omega)
      rw [regex_iterator_next_false] at hit
      rw [hs]
      cases hx : regex_search query_param_regex true false false (ampJoin gs) with
      | none =>
        rw [hx] at hit
        simp only [List.map_nil] at hit
        simp [List.filter_cons, hgood, ← hit]
      | some x =>
        obtain ⟨i, m⟩ := x
        rw [hx] at hit
        simp only at hit
        have hne := regex_search_ampJoin_nonempty gs hgs i m hx
        rw [hne] at hit
        simp only [Option.map_some']
        have hd : ((c :: j) ++ ampJoin gs).drop (i + (c :: j).length + (submatch m 0).length)
            = (ampJoin gs).drop (i + (submatch m 0).length) := by
          have h1 : i + (c :: j).length + (submatch m 0).length
              = (c :: j).length + (i + (submatch m 0).length) := by omega
          rw [h1, List.drop_append]
        rw [hd, hne, regex_iterator_next_pa _ _ _ false true, hit]
        simp [List.filter_cons, hgood]

/-- The loop of `getQueryParams` appends the pairs with a non-empty name. -/
theorem foldl_addQueryParam (ms : List Caps) (acc : List (Str × Str)) :
    ms.foldl addQueryParam acc = acc ++ (ms.map pairOf).filter (fun p => !p.1.isEmpty) := by
  induction ms generalizing acc with
  | nil => simp
  | cons m rest ih =>
    rw [List.foldl_cons, ih]
    by_cases hm : submatch m 2 = []
    · simp [addQueryParam, pairOf, hm]
    · have hlen : ¬ ((submatch m 2).length = 0) := by
        intro h; exact hm (List.length_eq_zero.mp h)
      have hemp : (submatch m 2).isEmpty = false := by
        cases h : submatch m 2 with
        | nil => exact absurd h hm
        | cons _ _ => rfl
      simp [addQueryParam, pairOf, hlen, hemp]

theorem filterMap_segmentParam (l : List Str) :
    l.filterMap segmentParam
      = ((l.filter goodSegment).map segmentRaw).filter (fun p => !p.1.isEmpty) := by
  induction l with
  | nil => rfl
  | cons g rest ih =>
    cases hgood : goodSegment g with
    | false => simp [List.filterMap_cons, segmentParam, hgood, List.filter_cons, ih]
    | true =>
      cases hn : (segmentName g).isEmpty with
      | true =>
        simp [List.filterMap_cons, segmentParam, segmentPair, segmentRaw, hgood, hn,
          List.filter_cons, ih]
      | false =>
        simp [List.filterMap_cons, segmentParam, segmentPair, segmentRaw, hgood, hn,
          List.filter_cons, ih]

/-- The split of a query at `&`: the pieces have no `&` and give the query
back when joined with `&`. -/
theorem splitAmp_spec (q : Str) :
    ∃ g0 gs, splitAmp q = g0 :: gs ∧ q = g0 ++ ampJoin gs ∧ '&' ∉ g0 ∧ ∀ g ∈ gs, '&' ∉ g := by
  induction q with
  | nil => exact ⟨[], [], rfl, rfl, by simp, by simp⟩
  | cons c t ih =>
    obtain ⟨g0, gs, hs, hq, h0, hgs⟩ := ih
    by_cases hc : c = '&'
    · subst hc
      refine ⟨[], g0 :: gs, by simp [splitAmp, hs], by simp [ampJoin, ← hq], by simp, ?_⟩
      intro g hg
      rcases List.mem_cons.mp hg with rfl | hg
      · exact h0
      · exact hgs g hg
    · refine ⟨c :: g0, gs, by simp [splitAmp, hc, hs], by simp [hq], ?_, hgs⟩
      intro hm
      rcases List.mem_cons.mp hm with h | h
      · exact hc h.symm
      · exact h0 h

theorem filterMap_iteratedSegments (l : List Str) :
    (iteratedSegments l).filterMap segmentParam
      = if lostSegments l then [] else l.filterMap segmentParam := by
  rcases l with _ | ⟨_ | ⟨c, j⟩, _ | ⟨g, _ | ⟨g2, r⟩⟩⟩ <;> rfl

/-- The sequence that the iterator and the loop of `getQueryParams` produce
from an empty vector: that of the specification, but nothing for a query
`&g`. -/
theorem foldl_regex_iterator (q : Str) :
    (regex_iterator query_param_regex q).foldl addQueryParam [] = foundParams q := by
  obtain ⟨g0, gs, hs, hq, h0, hgs⟩ := splitAmp_spec q
  rw [foldl_addQueryParam, List.nil_append, foundParams, lostQuery, queryParams, hs,
    ← filterMap_iteratedSegments, filterMap_segmentParam]
  conv_lhs => rw [hq]
  rw [regex_iterator_query g0 gs h0 hgs]

theorem queryParams_nil : queryParams [] = [] := rfl

/-- The method `getQueryParams` on an object whose vector is still empty. -/
theorem getQueryParams_fresh (u : Uri) (hc : u.query_params_ = []) :
    u.getQueryParams = (foundParams u.query_, { u with query_params_ := foundParams u.query_ }) := by
  obtain ⟨a1, a2, a3, a4, a5, a6, a7, q, a9, qp⟩ := u
  simp only at hc
  subst hc
  unfold Uri.getQueryParams
  cases q with
  | nil => rfl
  | cons c t =>
    simp only [List.isEmpty_cons, Bool.not_false, List.isEmpty_nil, Bool.and_self, if_true]
    rw [foldl_regex_iterator]

theorem intercalate_amp (g0 : Str) (gs : List Str) :
    ['&'].intercalate (g0 :: gs) = g0 ++ ampJoin gs := by
  induction gs generalizing g0 with
  | nil => simp [List.intercalate, ampJoin]
  | cons g rest ih =>
    have h := ih g
    simp only [List.intercalate, List.intersperse_cons_cons, List.flatten_cons] at h ⊢
    rw [h]
    simp [ampJoin]

/-- The split `splitAmp` is the split of the library at `&`. -/
theorem splitAmp_eq_splitOn (q : Str) : splitAmp q = q.splitOn '&' := by
  obtain ⟨g0, gs, hs, hq, h0, hgs⟩ := splitAmp_spec q
  have hx : ∀ l ∈ g0 :: gs, '&' ∉ l := by
    intro l hl
    rcases List.mem_cons.mp hl with rfl | hl
    · exact h0
    · exact hgs l hl
  have := List.splitOn_intercalate (g0 :: gs) '&' hx (by simp)
  rw [intercalate_amp, ← hq] at this
  rw [hs, this]

theorem splitAmp_intercalate (ls : List Str) (hx : ∀ l ∈ ls, '&' ∉ l) (hls : ls ≠ []) :
    splitAmp (['&'].intercalate ls) = ls := by
  rw [splitAmp_eq_splitOn]
  exact List.splitOn_intercalate ls '&' hx hls

/-- A query `&g` is a `&` and a text without `&`. -/
theorem lostQuery_iff (q : Str) :
    lostQuery q = true ↔ ∃ g, q = '&' :: g ∧ '&' ∉ g := by
  obtain ⟨g0, gs, hs, hq, h0, hgs⟩ := splitAmp_spec q
  unfold lostQuery
  constructor
  · intro h
    rw [hs] at h
    rcases g0 with _ | ⟨c, j⟩
    · rcases gs with _ | ⟨g, _ | ⟨g2, r⟩⟩
      · exact absurd h (by simp [lostSegments])
      · refine ⟨g, ?_, hgs g (by simp)⟩
        rw [hq]
        simp [ampJoin]
      · exact absurd h (by simp [lostSegments])
    · exact absurd h (by simp [lostSegments])
  · rintro ⟨g, hg1, hg2⟩
    have h2 : splitAmp q = [[], g] := by
      have h3 := splitAmp_intercalate [[], g]
        (by
          intro l hl
          rcases List.mem_cons.mp hl with rfl | hl
          · simp
          · rw [List.mem_singleton.mp hl]; exact hg2)
        (by simp)
      rw [intercalate_amp] at h3
      rw [hg1]
      simpa [ampJoin] using h3
    rw [h2]
    rfl

theorem not_mem_of_mem_splitAmp (q g : Str) (hg : g ∈ splitAmp q) : '&' ∉ g := by
  obtain ⟨g0, gs, hs, -, h0, hgs⟩ := splitAmp_spec q
  rw [hs] at hg
  rcases List.mem_cons.mp hg with rfl | hg
  · exact h0
  · exact hgs g hg

theorem length_splitAmp (q : Str) : (splitAmp q).length = q.count '&' + 1 := by
  induction q with
  | nil => rfl
  | cons c t ih =>
    by_cases hc : c = '&'
    · subst hc
      simp [splitAmp, ih]
    · have hne : ¬ ('&' = c) := fun h => hc h.symm
      obtain ⟨g0, gs, hs, -⟩ := splitAmp_spec t
      rw [hs] at ih
      simp only [splitAmp, beq_iff_eq, hc, if_false, hs, List.length_cons,
        List.count_cons, hne] at ih ⊢
      simpa using ih

/-- The constructor leaves the vector of parameters empty. -/
theorem construct_query_params_nil (str : Str) (errno : Nat) (u : Uri)
    (h : (Uri.Uri garbage str errno).1 = .ok u) : u.query_params_ = [] := by
  obtain ⟨m, hm, -⟩ := construct_ok_match str errno u h
  cases hap : regex_match authority_and_path_regex (submatch m 2) with
  | none =>
    rw [construct_no_authority str errno m hm hap] at h
    simp only [Except.ok.injEq] at h
    subst h
    rfl
  | some apm =>
    cases ha : regex_match authority_regex (submatch apm 1) with
    | none =>
      rw [construct_bad_authority str errno m apm hm hap ha] at h
      simp at h
    | some am =>
      rw [construct_authority str errno m apm am hm hap ha] at h
      rcases hp : parsePort (decode garbage (submatch am 4)) errno with ⟨r, e1⟩
      rw [hp] at h
      cases r with
      | error e => simp at h
      | ok port =>
        simp only [Except.ok.injEq] at h
        subst h
        rfl

/-- The method `getQueryParams` on an object whose vector holds the
parameters of its query. -/
theorem getQueryParams_cached (u : Uri) (hc : u.query_params_ = foundParams u.query_) :
    u.getQueryParams = (foundParams u.query_, u) := by
  cases hq : foundParams u.query_ with
  | nil =>
    rw [hq] at hc
    rw [getQueryParams_fresh u hc, hq, ← hc]
  | cons p ps =>
    rw [hq] at hc
    unfold Uri.getQueryParams
    simp [hc]

/-- The object after any number of calls of `getQueryParams`. -/
theorem afterCalls_eq (u : Uri) (hc : u.query_params_ = []) (n : Nat) :
    Uri.afterCalls u (n + 1) = { u with query_params_ := foundParams u.query_ } := by
  induction n with
  | zero =>
    simp only [Uri.afterCalls]
    rw [getQueryParams_fresh u hc]
  | succ k ih =>
    rw [Uri.afterCalls, ih, getQueryParams_cached _ rfl]

/-! ### The accessors -/

theorem toDigitsCore_append (b : Nat) (fuel n : Nat) (acc : List Char) :
    Nat.toDigitsCore b fuel n acc = Nat.toDigitsCore b fuel n [] ++ acc := by
  induction fuel generalizing n acc with
  | zero => simp [Nat.toDigitsCore]
  | succ f ih =>
    simp only [Nat.toDigitsCore]
    split
    · simp
    · rw [ih (n / b) (Nat.digitChar (n % b) :: acc), ih (n / b) [Nat.digitChar (n % b)]]
      simp

theorem toDigitsCore_fuel (f1 f2 n : Nat) (h1 : n < f1) (h2 : n < f2) :
    Nat.toDigitsCore 10 f1 n [] = Nat.toDigitsCore 10 f2 n [] := by
  induction f1 generalizing f2 n with
  | zero => omega
  | succ g1 ih =>
    cases f2 with
    | zero => omega
    | succ g2 =>
      simp only [Nat.toDigitsCore]
      split
      · rfl
      · rename_i hne
        have hn : n / 10 < n := Nat.div_lt_self (by omega) (by omega)
        rw [toDigitsCore_append 10 g1, toDigitsCore_append 10 g2,
          ih g2 (n / 10) (by omega) (by omega)]

theorem to_string_lt (k : Nat) (hk : k < 10) : to_string k = [Nat.digitChar k] := by
  have h1 : k / 10 = 0 := Nat.div_eq_of_lt hk
  have h2 : k % 10 = k := Nat.mod_eq_of_lt hk
  simp [to_string, Nat.toDigits, Nat.toDigitsCore, h1, h2]

theorem to_string_ge (k : Nat) (hk : 10 ≤ k) :
    to_string k = to_string (k / 10) ++ [Nat.digitChar (k % 10)] := by
  have h1 : k / 10 ≠ 0 := by
    have := Nat.div_pos hk (by omega : 0 < 10)
    omega
  have hn : k / 10 < k := Nat.div_lt_self (by omega) (by omega)
  have e1 : to_string k = Nat.toDigitsCore 10 (k + 1) k [] := rfl
  have e2 : Nat.toDigitsCore 10 (k + 1) k []
      = Nat.toDigitsCore 10 k (k / 10) [Nat.digitChar (k % 10)] := by
    rw [Nat.toDigitsCore]
    simp only [h1, if_false]
  have e3 : to_string (k / 10) = Nat.toDigitsCore 10 (k / 10 + 1) (k / 10) [] := rfl
  rw [e1, e2, e3, toDigitsCore_append 10 k,
    toDigitsCore_fuel k (k / 10 + 1) (k / 10) hn (by omega)]

theorem digitChar_digit (d : Nat) (hd : d < 10) :
    isdigit (Nat.digitChar d) = true ∧ (Nat.digitChar d).toNat - '0'.toNat = d := by
  interval_cases d <;> exact ⟨rfl, rfl⟩

theorem decValue_append_singleton (s : Str) (c : Char) :
    decValue (s ++ [c]) = 10 * decValue s + (c.toNat - '0'.toNat) := by
  simp [decValue, List.foldl_append]

/-- The decimal representation of a number has digits only and has the number
as its value. -/
theorem to_string_spec (k : Nat) :
    (∀ c ∈ to_string k, isdigit c = true) ∧ decValue (to_string k) = k := by
  induction k using Nat.strong_induction_on with
  | _ k ih =>
    by_cases hk : k < 10
    · rw [to_string_lt k hk]
      obtain ⟨h1, h2⟩ := digitChar_digit k hk
      refine ⟨by simpa using h1, ?_⟩
      have := decValue_append_singleton [] (Nat.digitChar k)
      simp only [List.nil_append] at this
      rw [this, h2]
      simp [decValue]
    · have hn : k / 10 < k := Nat.div_lt_self (by omega) (by omega)
      obtain ⟨i1, i2⟩ := ih (k / 10) hn
      obtain ⟨h1, h2⟩ := digitChar_digit (k % 10) (Nat.mod_lt k (by omega))
      rw [to_string_ge k (by omega)]
      constructor
      · intro c hc
        rcases List.mem_append.mp hc with h | h
        · exact i1 c h
        · simp only [List.mem_singleton] at h
          rw [h]; exact h1
      · rw [decValue_append_singleton, i2, h2]
        omega

theorem to_string_ne_nil (k : Nat) : to_string k ≠ [] := by
  by_cases hk : k < 10
  · rw [to_string_lt k hk]; simp
  · rw [to_string_ge k (by omega)]; simp

theorem size_sub_two (n : Nat) (h1 : 2 ≤ n) (h2 : n < 2 ^ 64) : size_sub n 2 = n - 2 := by
  unfold size_sub SIZE_MAX
  omega

/-- The method `hostname` on a host that begins with `[`: the host without
its first and its last character. -/
theorem hostname_bracket (u : Uri) (hlen : u.host_.length < 2 ^ 64)
    (hb : u.host_.head? = some '[') : u.hostname = (u.host_.drop 1).dropLast := by
  unfold Uri.hostname substr
  cases hh : u.host_ with
  | nil => rw [hh] at hb; simp at hb
  | cons c t =>
    rw [hh] at hb hlen
    simp only [List.head?_cons, Option.some.injEq] at hb
    subst hb
    simp only [List.length_cons, gt_iff_lt, Nat.zero_lt_succ, decide_True, List.head?_cons,
      beq_self_eq_true, Bool.and_self, if_true, List.drop_succ_cons, List.drop_zero]
    cases t with
    | nil => simp
    | cons d t1 =>
      have : size_sub ((d :: t1).length + 1) 2 = t1.length := by
        rw [size_sub_two _ (by simp) (by simpa using hlen)]
        simp
      rw [this, List.dropLast_eq_take]
      simp

theorem hostname_plain (u : Uri) (hb : u.host_.head? ≠ some '[') : u.hostname = u.host_ := by
  unfold Uri.hostname
  cases hh : u.host_ with
  | nil => simp
  | cons c t =>
    rw [hh] at hb
    have : c ≠ '[' := fun h => hb (by simp [h])
    simp [this]

/-! ### Authorities with a bracketed host, an empty host, or no port -/

/-- The user information group fails on an authority without `@`. -/
theorem userinfoScan_no_at (A : Str) (hA : '@' ∉ A) : userinfoScan A = none := by
  unfold userinfoScan
  cases hd : A.dropWhile notAtColon with
  | nil => rfl
  | cons c r =>
    obtain ⟨hc, hAr⟩ := dropWhile_eq_cons notAtColon A c r hd
    have hcA : c ∈ A := by rw [hAr]; simp
    have hrA : ∀ x ∈ r, x ∈ A := by
      intro x hx; rw [hAr]; simp [hx]
    have hc1 : c ≠ '@' := fun h => hA (h ▸ hcA)
    have hc2 : c = ':' := by
      by_contra hne
      simp [notAtColon, hc1, hne] at hc
    subst hc2
    have hr : r.dropWhile notAt = [] := by
      apply dropWhile_all
      intro x hx
      have : x ≠ '@' := fun h => hA (h ▸ hrA x hx)
      simp [notAt, this]
    simp [hr, atScan, orElse]

/-- The bracketed alternative of the host on `[`, a text without `]`, and
`]`. -/
theorem bracketScan_literal (L rest : Str) (m : Caps) (hL : ∀ c ∈ L, notRBracket c = true) :
    bracketScan ('[' :: (L ++ ']' :: rest)) m
      = portTail rest ((3, '[' :: (L ++ [']'])) :: m) := by
  have htake : ('[' :: (L ++ ']' :: rest)).take (('[' :: (L ++ ']' :: rest)).length - rest.length)
      = '[' :: (L ++ [']']) := by
    have h := take_append_length_sub ('[' :: (L ++ [']'])) rest
    simpa using h
  simp only [bracketScan, beq_self_eq_true, if_true]
  rw [dropWhile_append_stop notRBracket L ']' rest hL (by decide)]
  simp only [beq_self_eq_true, if_true]
  rw [htake]

theorem portTail_colon_digits (n : Str) (m : Caps) (hn : ∀ c ∈ n, isdigit c = true) :
    portTail (':' :: n) m = some ((4, n) :: m) := by
  have hall : n.all isdigit = true := List.all_eq_true.mpr hn
  simp [portTail, hall]

/-- The pattern `authority_regex` on a bracketed literal, `:` and digits. -/
theorem authorityScan_bracket (L n : Str) (hL : ∀ c ∈ L, notRBracket c = true)
    (hat : '@' ∉ L) (hn : ∀ c ∈ n, isdigit c = true) :
    authorityScan ('[' :: (L ++ ']' :: ':' :: n)) = some [(4, n), (3, '[' :: (L ++ [']']))] := by
  have hA : '@' ∉ '[' :: (L ++ ']' :: ':' :: n) := by
    intro hm
    simp only [List.mem_cons, List.mem_append] at hm
    rcases hm with h | h | h | h | h
    · exact absurd h (by decide)
    · exact hat h
    · exact absurd h (by decide)
    · exact absurd h (by decide)
    · exact absurd (hn _ h) (by decide)
  rw [authorityScan, userinfoScan_no_at _ hA, orElse_none_left, hostScan,
    bracketScan_literal L (':' :: n) [] hL, portTail_colon_digits n _ hn]
  rfl

/-- The pattern `authority_regex` on an empty host, `:` and digits. -/
theorem authorityScan_port_only (n : Str) (hn : ∀ c ∈ n, isdigit c = true) :
    authorityScan (':' :: n) = some [(4, n), (3, [])] := by
  have hA : '@' ∉ ':' :: n := by
    intro hm
    rcases List.mem_cons.mp hm with h | h
    · exact absurd h (by decide)
    · exact absurd (hn _ h) (by decide)
  rw [authorityScan, userinfoScan_no_at _ hA, orElse_none_left]
  exact hostScan_plain_port [] n [] (by simp) hn

/-- The constructor on a scheme, `://` and an authority that
`authority_regex` matches. -/
theorem construct_scheme_authority (s A : Str) (errno : Nat) (am : Caps)
    (hs : isScheme s = true) (hA : ∀ c ∈ A, c ≠ '/' ∧ c ≠ '?' ∧ c ≠ '#')
    (ha : authorityScan A = some am) :
    Uri.Uri garbage (s ++ ':' :: '/' :: '/' :: A) errno =
      match parsePort (decode garbage (submatch am 4)) errno with
      | (.error e, errno1) => (.error e, errno1)
      | (.ok port, errno1) =>
        (.ok { scheme_ := toLower s,
               username_ := decode garbage (submatch am 1),
               password_ := decode garbage (submatch am 2),
               host_ := decode garbage (submatch am 3),
               has_authority_ := true, port_ := port,
               path_ := [], query_ := [], fragment_ := [],
               query_params_ := [] }, errno1) := by
  have hm := regex_match_uri_build s ('/' :: '/' :: A) hs (by
    intro c hc
    rcases List.mem_cons.mp hc with rfl | hc
    · decide
    · rcases List.mem_cons.mp hc with rfl | hc
      · decide
      · simp [notQueryHash, (hA c hc).2.1, (hA c hc).2.2])
  obtain ⟨apm, hap, hap1, hap2⟩ := apScan_build A []
    (fun c hc => by simp [notSlash, (hA c hc).1]) (Or.inl rfl) (by simp)
  rw [List.append_nil, ← regex_match_authority_and_path] at hap
  have ha1 : regex_match authority_regex (submatch apm 1) = some am := by
    rw [hap1, regex_match_authority]; exact ha
  rw [construct_authority _ errno _ apm am hm hap ha1, hap2]
  rfl

/-- The method `authority` as one expression. -/
theorem authority_eq (u : Uri) :
    u.authority
        = (if u.username_ = [] ∧ u.password_ = [] then []
            else u.username_ ++ (if u.password_ = [] then [] else ':' :: u.password_) ++ ['@'])
          ++ u.host_
          ++ (if u.port_ = 0 then [] else ':' :: Nat.toDigits 10 u.port_) := by
  unfold Uri.authority to_string
  cases hu : u.username_ with
  | nil =>
    cases hp : u.password_ with
    | nil =>
      by_cases hn : u.port_ = 0
      · simp [hn]
      · simp [hn]
    | cons c t =>
      by_cases hn : u.port_ = 0
      · simp [hn]
      · simp [hn]
  | cons c t =>
    cases hp : u.password_ with
    | nil =>
      by_cases hn : u.port_ = 0
      · simp [hn]
      · simp [hn]
    | cons d t1 =>
      by_cases hn : u.port_ = 0
      · simp [hn]
      · simp [hn]

theorem isdigit_ne_special (n : Str) (hn : ∀ c ∈ n, isdigit c = true) :
    ∀ c ∈ n, c ≠ '/' ∧ c ≠ '?' ∧ c ≠ '#' := by
  intro c hc
  refine ⟨?_, ?_, ?_⟩ <;> rintro rfl <;> exact absurd (hn _ hc) (by decide)

/-- The part of C15 that holds: when `errno` is not `ERANGE` on entry, a
bracketed literal and a port are parsed into the host with its brackets and
the port, and `hostname()` is the literal. -/
theorem bracket_host_components (s L n : Str) (errno : Nat)
    (hs : isScheme s = true) (hL : noneOf [']', '@', '/', '?', '#', '%'] L = true)
    (hn : ∀ c ∈ n, isdigit c = true) (hv : decValue n ≤ 65535) (he : errno ≠ ERANGE)
    (hlen : L.length + 2 < 2 ^ 64) :
    ∃ u, (Uri.Uri garbage (s ++ "://[".toList ++ L ++ "]:".toList ++ n) errno).1 = .ok u ∧
      u.host_ = '[' :: (L ++ [']']) ∧ u.port_ = decValue n ∧ u.hostname = L := by
  have hL1 := noneOf_ne _ L hL
  have hstr : s ++ "://[".toList ++ L ++ "]:".toList ++ n
      = s ++ ':' :: '/' :: '/' :: ('[' :: (L ++ ']' :: ':' :: n)) := by simp
  have hA : ∀ c ∈ '[' :: (L ++ ']' :: ':' :: n), c ≠ '/' ∧ c ≠ '?' ∧ c ≠ '#' := by
    intro c hc
    simp only [List.mem_cons, List.mem_append] at hc
    rcases hc with rfl | hc | rfl | rfl | hc
    · decide
    · exact ⟨hL1 c '/' hc (by simp), hL1 c '?' hc (by simp), hL1 c '#' hc (by simp)⟩
    · decide
    · decide
    · exact isdigit_ne_special n hn c hc
  have ha := authorityScan_bracket L n
    (fun c hc => by simp [notRBracket, hL1 c ']' hc (by simp)])
    (fun hc => hL1 _ '@' hc (by simp) rfl) hn
  have hport : parsePort (decode garbage (submatch [(4, n), (3, '[' :: (L ++ [']']))] 4)) errno
      = (.ok (decValue n), errno) := by
    have : submatch [(4, n), (3, '[' :: (L ++ [']']))] 4 = n := rfl
    rw [this, decode_no_percent n (isdigit_no_percent n hn)]
    exact parsePort_ok n errno hn hv he
  have hhost : decode garbage ('[' :: (L ++ [']'])) = '[' :: (L ++ [']']) := by
    apply decode_no_percent
    intro hm
    simp only [List.mem_cons, List.mem_append, List.mem_singleton] at hm
    rcases hm with h | h | h | h
    · exact absurd h (by decide)
    · exact hL1 _ '%' h (by simp) rfl
    · exact absurd h (by decide)
    · exact absurd h (List.not_mem_nil _)
  rw [hstr, construct_scheme_authority s _ errno _ hs hA ha, hport]
  refine ⟨_, rfl, hhost, rfl, ?_⟩
  have h3 : submatch [(4, n), (3, '[' :: (L ++ [']']))] 3 = '[' :: (L ++ [']']) := rfl
  rw [hostname_bracket _ (by simp only [h3, hhost]; simpa using hlen)
    (by simp only [h3, hhost]; rfl)]
  simp only [h3, hhost]
  simp

/-- The part of C16 that holds: when `errno` is not `ERANGE` on entry, an
authority with an empty host and a port is accepted. -/
theorem empty_host_port (s n : Str) (errno : Nat)
    (hs : isScheme s = true) (hn : ∀ c ∈ n, isdigit c = true) (hv : decValue n ≤ 65535)
    (he : errno ≠ ERANGE) :
    ∃ u, (Uri.Uri garbage (s ++ "://:".toList ++ n) errno).1 = .ok u ∧
      u.host_ = [] ∧ u.username_ = [] ∧ u.password_ = [] ∧ u.port_ = decValue n := by
  have hstr : s ++ "://:".toList ++ n = s ++ ':' :: '/' :: '/' :: (':' :: n) := by simp
  have hA : ∀ c ∈ ':' :: n, c ≠ '/' ∧ c ≠ '?' ∧ c ≠ '#' := by
    intro c hc
    rcases List.mem_cons.mp hc with rfl | hc
    · decide
    · exact isdigit_ne_special n hn c hc
  have hport : parsePort (decode garbage (submatch [(4, n), (3, [])] 4)) errno
      = (.ok (decValue n), errno) := by
    have : submatch [(4, n), (3, [])] 4 = n := rfl
    rw [this, decode_no_percent n (isdigit_no_percent n hn)]
    exact parsePort_ok n errno hn hv he
  rw [hstr, construct_scheme_authority s _ errno _ hs hA (authorityScan_port_only n hn), hport]
  exact ⟨_, rfl, rfl, rfl, rfl, rfl⟩

/-! ### Canonical authorities -/

theorem userinfoPlain_spec (ui : Option (Str × Option Str)) (h : userinfoPlain ui = true) :
    noneOf ['@', ':', '/', '?', '#', '%'] (userOf ui) = true ∧
      noneOf ['@', '/', '?', '#', '%'] (passOf ui) = true ∧
      userinfoText ui
        = (if userOf ui = [] ∧ passOf ui = [] then []
            else userOf ui ++ (if passOf ui = [] then [] else ':' :: passOf ui) ++ ['@']) := by
  match ui with
  | none => exact ⟨rfl, rfl, rfl⟩
  | some (u, none) =>
    simp only [userinfoPlain, Bool.and_eq_true, Bool.not_eq_true'] at h
    have hu : u ≠ [] := by
      intro hn; rw [hn] at h; simp at h
    refine ⟨h.2, rfl, ?_⟩
    simp [userinfoText, userOf, passOf, hu]
  | some (u, some p) =>
    simp only [userinfoPlain, Bool.and_eq_true, Bool.not_eq_true'] at h
    have hu : u ≠ [] := by
      intro hn; rw [hn] at h; simp at h
    have hp : p ≠ [] := by
      intro hn; rw [hn] at h; simp at h
    refine ⟨h.1.1.2, h.2, ?_⟩
    simp [userinfoText, userOf, passOf, hu, hp]

theorem mem_userinfoText (ui : Option (Str × Option Str)) (c : Char)
    (hc : c ∈ userinfoText ui) : c ∈ userOf ui ∨ c ∈ passOf ui ∨ c = ':' ∨ c = '@' := by
  match ui with
  | none => simp [userinfoText] at hc
  | some (u, none) =>
    simp only [userinfoText, List.mem_append, List.mem_singleton] at hc
    rcases hc with h | h
    · exact Or.inl h
    · exact Or.inr (Or.inr (Or.inr h))
  | some (u, some p) =>
    simp only [userinfoText, List.mem_append, List.mem_cons, List.mem_singleton,
      List.mem_nil_iff, or_false] at hc
    rcases hc with h | h | h | h
    · exact Or.inl h
    · exact Or.inr (Or.inr (Or.inl h))
    · exact Or.inr (Or.inl h)
    · exact Or.inr (Or.inr (Or.inr h))

theorem mem_portText (port : Option Nat) (c : Char) (hc : c ∈ portText port) :
    c = ':' ∨ isdigit c = true := by
  match port with
  | none => simp [portText] at hc
  | some k =>
    rcases List.mem_cons.mp hc with h | h
    · exact Or.inl h
    · exact Or.inr ((to_string_spec k).1 c h)

/-- Host and port of a canonical authority. -/
theorem hostScan_text (h : Str) (port : Option Nat) (m : Caps)
    (hh : ∀ c ∈ h, notLBracketColon c = true) :
    hostScan (h ++ portText port) m
      = some ((match port with
                | none => []
                | some k => [(4, to_string k)]) ++ (3, h) :: m) := by
  match port with
  | none =>
    simp only [portText, List.append_nil, List.nil_append]
    exact hostScan_plain h m hh
  | some k =>
    exact hostScan_plain_port h (to_string k) m hh (to_string_spec k).1

/-- The pattern `authority_regex` on a canonical authority. -/
theorem authorityScan_text (ui : Option (Str × Option Str)) (h : Str) (port : Option Nat)
    (hui : userinfoPlain ui = true)
    (hh : noneOf ['[', ':', '@', '/', '?', '#', '%'] h = true) :
    ∃ am, authorityScan (authorityText ui h port) = some am ∧
      submatch am 1 = userOf ui ∧ submatch am 2 = passOf ui ∧ submatch am 3 = h ∧
      submatch am 4 = digitsOf port := by
  have hh1 := noneOf_ne _ h hh
  have hhL : ∀ c ∈ h, notLBracketColon c = true := by
    intro c hc
    simp [notLBracketColon, hh1 c '[' hc (by simp), hh1 c ':' hc (by simp)]
  obtain ⟨hu0, hp0, -⟩ := userinfoPlain_spec ui hui
  match ui with
  | none =>
    have hat : '@' ∉ h ++ portText port := by
      intro hm
      rcases List.mem_append.mp hm with hc | hc
      · exact hh1 _ '@' hc (by simp) rfl
      · rcases mem_portText port _ hc with h1 | h1
        · exact absurd h1 (by decide)
        · exact absurd h1 (by decide)
    refine ⟨(match port with
        | none => []
        | some k => [(4, to_string k)]) ++ [(3, h)], ?_, ?_⟩
    · simp only [authorityText, userinfoText, List.nil_append]
      rw [authorityScan, userinfoScan_no_at _ hat, orElse_none_left, hostScan_text h port [] hhL]
    · cases port <;> exact ⟨rfl, rfl, rfl, rfl⟩
  | some (u, none) =>
    have hu1 := noneOf_ne _ u hu0
    have huA : ∀ c ∈ u, notAtColon c = true := by
      intro c hc
      simp [notAtColon, hu1 c '@' hc (by simp), hu1 c ':' hc (by simp)]
    have hA : authorityText (some (u, none)) h port = u ++ '@' :: (h ++ portText port) := by
      simp [authorityText, userinfoText]
    refine ⟨(match port with
        | none => []
        | some k => [(4, to_string k)]) ++ [(3, h), (1, u)], ?_, ?_⟩
    · rw [hA, authorityScan, userinfoScan,
        dropWhile_append_stop notAtColon u '@' _ huA (by decide),
        takeWhile_append_stop notAtColon u '@' _ huA (by decide)]
      simp only [atScan, beq_self_eq_true, if_true]
      rw [hostScan_text h port _ hhL]
      rfl
    · cases port <;> exact ⟨rfl, rfl, rfl, rfl⟩
  | some (u, some p) =>
    have hu1 := noneOf_ne _ u hu0
    have hp1 := noneOf_ne _ p hp0
    have huA : ∀ c ∈ u, notAtColon c = true := by
      intro c hc
      simp [notAtColon, hu1 c '@' hc (by simp), hu1 c ':' hc (by simp)]
    have hpA : ∀ c ∈ p, notAt c = true := by
      intro c hc
      simp [notAt, hp1 c '@' hc (by simp)]
    have hA : authorityText (some (u, some p)) h port
        = u ++ ':' :: (p ++ '@' :: (h ++ portText port)) := by
      simp [authorityText, userinfoText]
    refine ⟨(match port with
        | none => []
        | some k => [(4, to_string k)]) ++ [(3, h), (2, p), (1, u)], ?_, ?_⟩
    · rw [hA, authorityScan, userinfoScan,
        dropWhile_append_stop notAtColon u ':' _ huA (by decide),
        takeWhile_append_stop notAtColon u ':' _ huA (by decide)]
      simp only [beq_self_eq_true, if_true]
      rw [dropWhile_append_stop notAt p '@' _ hpA (by decide),
        takeWhile_append_stop notAt p '@' _ hpA (by decide)]
      simp only [atScan, beq_self_eq_true, if_true]
      rw [hostScan_text h port _ hhL]
      rfl
    · cases port <;> exact ⟨rfl, rfl, rfl, rfl⟩

/-- The part of C19 that holds: when `errno` is not `ERANGE` on entry, a
canonical authority is parsed into a `Uri` whose `authority()` is that
authority again. -/
theorem authority_roundtrip (s : Str) (ui : Option (Str × Option Str)) (h : Str)
    (port : Option Nat) (errno : Nat)
    (hs : isScheme s = true) (hui : userinfoPlain ui = true)
    (hh : noneOf ['[', ':', '@', '/', '?', '#', '%'] h = true)
    (hp : ∀ k, port = some k → 1 ≤ k ∧ k ≤ 65535) (he : errno ≠ ERANGE) :
    ∃ u, (Uri.Uri garbage (s ++ "://".toList ++ authorityText ui h port) errno).1 = .ok u ∧
      u.authority = authorityText ui h port := by
  have hh1 := noneOf_ne _ h hh
  obtain ⟨hu0, hp0, htext⟩ := userinfoPlain_spec ui hui
  have hu1 := noneOf_ne _ _ hu0
  have hp1 := noneOf_ne _ _ hp0
  obtain ⟨am, ham, h1, h2, h3, h4⟩ := authorityScan_text ui h port hui hh
  have hstr : s ++ "://".toList ++ authorityText ui h port
      = s ++ ':' :: '/' :: '/' :: authorityText ui h port := by simp
  have hA : ∀ c ∈ authorityText ui h port, c ≠ '/' ∧ c ≠ '?' ∧ c ≠ '#' := by
    intro c hc
    rcases List.mem_append.mp hc with hc | hc
    · rcases mem_userinfoText ui c hc with hc | hc | rfl | rfl
      · exact ⟨hu1 c '/' hc (by simp), hu1 c '?' hc (by simp), hu1 c '#' hc (by simp)⟩
      · exact ⟨hp1 c '/' hc (by simp), hp1 c '?' hc (by simp), hp1 c '#' hc (by simp)⟩
      · decide
      · decide
    · rcases List.mem_append.mp hc with hc | hc
      · exact ⟨hh1 c '/' hc (by simp), hh1 c '?' hc (by simp), hh1 c '#' hc (by simp)⟩
      · rcases mem_portText port c hc with rfl | hd
        · decide
        · refine ⟨?_, ?_, ?_⟩ <;> rintro rfl <;> exact absurd hd (by decide)
  have hdig : ∀ c ∈ digitsOf port, isdigit c = true := by
    cases port with
    | none => simp [digitsOf]
    | some k => exact (to_string_spec k).1
  have hval : decValue (digitsOf port) = (match port with | none => 0 | some k => k) := by
    cases port with
    | none => rfl
    | some k => exact (to_string_spec k).2
  have hle : decValue (digitsOf port) ≤ 65535 := by
    rw [hval]
    cases port with
    | none => simp
    | some k => exact (hp k rfl).2
  have hport : parsePort (decode garbage (submatch am 4)) errno
      = (.ok (decValue (digitsOf port)), errno) := by
    rw [h4, decode_no_percent _ (isdigit_no_percent _ hdig)]
    exact parsePort_ok _ errno hdig hle he
  rw [hstr, construct_scheme_authority s _ errno am hs hA ham, hport]
  refine ⟨_, rfl, ?_⟩
  rw [authority_eq]
  simp only [h1, h2, h3]
  rw [decode_no_percent _ (fun hc => hu1 _ '%' hc (by simp) rfl),
    decode_no_percent _ (fun hc => hp1 _ '%' hc (by simp) rfl),
    decode_no_percent _ (fun hc => hh1 _ '%' hc (by simp) rfl),
    ← htext, authorityText, List.append_assoc]
  congr 2
  rw [hval]
  cases port with
  | none => rfl
  | some k =>
    have hk : k ≠ 0 := by have := (hp k rfl).1; omega
    simp [hk, portText, to_string]

/-! ### The converter -/

theorem to_string_length (n e : Nat) (h : n < 10 ^ e) (he : 0 < e) :
    (to_string n).length ≤ e :=
  Nat.toDigitsCore_length 10 (by omega) (n + 1) n e h he

/-- The buffer of 25 bytes holds the output of `%lld` for every `long long`. -/
theorem snprintf_lld (v : Int) (h1 : -(2 : Int) ^ 63 ≤ v) (h2 : v < (2 : Int) ^ 63) :
    snprintf 25 (printf_lld v) = if v < 0 then '-' :: to_string v.natAbs else to_string v.natAbs := by
  have hn : v.natAbs < 10 ^ 20 := by omega
  have hl := to_string_length v.natAbs 20 hn (by omega)
  unfold snprintf printf_lld
  split
  · exact List.take_of_length_le (by simp only [List.length_cons]; unfold to_string at hl; omega)
  · exact List.take_of_length_le (by unfold to_string at hl; omega)

/-- The buffer of 25 bytes holds the output of `%llu` for every
`unsigned long long`. -/
theorem snprintf_llu (v : Nat) (h : v < 2 ^ 64) :
    snprintf 25 (printf_llu v) = to_string v := by
  have hn : v < 10 ^ 20 := by omega
  have hl := to_string_length v 20 hn (by omega)
  unfold snprintf printf_llu
  exact List.take_of_length_le (by unfold to_string at hl; omega)

/-- A set field of a scalar type that is not repeated: `value[name]` is
assigned the document of the value. -/
theorem formatField_scalar (value : Json) (name : Str) (v : FieldValue) (vs : List FieldValue)
    (x : Json) (hr : inRange v) (hx : scalarJson v = some x) :
    formatField value (.mk name false (v :: vs)) = value.setMember name x := by
  cases v with
  | TYPE_MESSAGE m => simp [scalarJson] at hx
  | TYPE_OTHER => simp [scalarJson] at hx
  | TYPE_INT32 a =>
    simp only [scalarJson, Option.some.injEq] at hx
    subst hx
    simp [formatField]
  | TYPE_UINT32 a =>
    simp only [scalarJson, Option.some.injEq] at hx
    subst hx
    simp [formatField]
  | TYPE_INT64 a =>
    simp only [scalarJson, Option.some.injEq] at hx
    subst hx
    simp only [formatField, Bool.false_eq_true, if_false]
    rw [snprintf_lld a hr.1 hr.2]
  | TYPE_UINT64 a =>
    simp only [scalarJson, Option.some.injEq] at hx
    subst hx
    simp only [formatField, Bool.false_eq_true, if_false]
    rw [snprintf_llu a hr]
  | TYPE_STRING a =>
    simp only [scalarJson, Option.some.injEq] at hx
    subst hx
    simp [formatField]
  | TYPE_BYTES a =>
    simp only [scalarJson, Option.some.injEq] at hx
    subst hx
    simp [formatField]

theorem lookup_fresh (ms : List (Str × Json)) (name : Str) (h : ∀ p ∈ ms, p.1 ≠ name) :
    ms.lookup name = none := by
  induction ms with
  | nil => rfl
  | cons p ms ih =>
    obtain ⟨k, x⟩ := p
    have hk : k ≠ name := h (k, x) (List.mem_cons_self _ _)
    have hb : (name == k) = false := by simpa using fun e => hk e.symm
    rw [List.lookup_cons, hb]
    exact ih (fun q hq => h q (List.mem_cons_of_mem _ hq))

theorem member_objectOf_fresh (ms : List (Str × Json)) (name : Str)
    (h : ∀ p ∈ ms, p.1 ≠ name) : (objectOf ms).member name = .null := by
  cases ms with
  | nil => rfl
  | cons p ms =>
    simp only [objectOf, Json.member]
    rw [lookup_fresh _ name h]
    rfl

theorem setKey_fresh (ms : List (Str × Json)) (name : Str) (x : Json)
    (h : ∀ p ∈ ms, p.1 ≠ name) : setKey ms name x = ms ++ [(name, x)] := by
  have ha : ms.any (fun p => p.1 == name) = false := by
    rw [List.any_eq_false]
    intro p hp
    simpa using h p hp
  simp [setKey, ha]

theorem setMember_objectOf_fresh (ms : List (Str × Json)) (name : Str) (x : Json)
    (h : ∀ p ∈ ms, p.1 ≠ name) :
    (objectOf ms).setMember name x = some (objectOf (ms ++ [(name, x)])) := by
  cases ms with
  | nil => rfl
  | cons p ms =>
    simp only [objectOf, Json.setMember]
    rw [setKey_fresh _ name x h]
    rfl

theorem lookup_setKey (ms : List (Str × Json)) (name : Str) (x : Json) :
    (setKey ms name x).lookup name = some x := by
  unfold setKey
  split
  · rename_i ha
    induction ms with
    | nil => simp at ha
    | cons p ms ih =>
      obtain ⟨k, y⟩ := p
      by_cases hk : k = name
      · subst hk
        simp [List.lookup_cons]
      · have hb : (name == k) = false := by simpa using fun e => hk e.symm
        have hb2 : (k == name) = false := by simpa using hk
        simp only [List.any_cons, hb2, Bool.false_or] at ha
        simp only [List.map_cons, hb2, Bool.false_eq_true, if_false, List.lookup_cons, hb]
        exact ih ha
  · rename_i ha
    induction ms with
    | nil => simp [List.lookup_cons]
    | cons p ms ih =>
      obtain ⟨k, y⟩ := p
      have hb2 : (k == name) = false := by
        cases hc : (k == name) with
        | false => rfl
        | true => simp [hc] at ha
      have hk : k ≠ name := by simpa using hb2
      have hb : (name == k) = false := by simpa using fun e => hk e.symm
      simp only [List.cons_append, List.lookup_cons, hb]
      apply ih
      intro hh
      apply ha
      simp only [List.any_cons, hh, Bool.or_true]

/-- After `value[name] = x` on a value that is null or an object, the value is
an object whose member `name` is `x`. -/
theorem member_setMember (value : Json) (name : Str) (x : Json)
    (hv : value = .null ∨ ∃ ms, value = .object ms) :
    ∃ j, value.setMember name x = some j ∧ j.member name = x := by
  rcases hv with h | ⟨ms, h⟩
  · subst h
    exact ⟨_, rfl, by simp [Json.member, List.lookup_cons]⟩
  · subst h
    refine ⟨_, rfl, ?_⟩
    simp only [Json.member]
    rw [lookup_setKey]
    rfl

theorem documentMember_name (f : Field) (p : Str × Json) (h : documentMember f = some p) :
    p.1 = f.name := by
  obtain ⟨name, is_repeated, values⟩ := f
  cases values with
  | nil => simp [documentMember] at h
  | cons v vs =>
    cases is_repeated with
    | true =>
      simp only [documentMember, if_true, Option.some.injEq] at h
      rw [← h]
      rfl
    | false =>
      cases v with
      | TYPE_MESSAGE m =>
        obtain ⟨b, fields⟩ := m
        by_cases hb : b = 0
        · simp [documentMember, hb] at h
        · simp only [documentMember, Bool.false_eq_true, if_false, bne_iff_ne, ne_eq, hb,
            not_false_eq_true, if_true, Option.some.injEq] at h
          rw [← h]
          rfl
      | TYPE_OTHER => simp [documentMember] at h
      | TYPE_INT32 a =>
        simp only [documentMember, Bool.false_eq_true, if_false, Option.some.injEq] at h
        rw [← h]; rfl
      | TYPE_UINT32 a =>
        simp only [documentMember, Bool.false_eq_true, if_false, Option.some.injEq] at h
        rw [← h]; rfl
      | TYPE_INT64 a =>
        simp only [documentMember, Bool.false_eq_true, if_false, Option.some.injEq] at h
        rw [← h]; rfl
      | TYPE_UINT64 a =>
        simp only [documentMember, Bool.false_eq_true, if_false, Option.some.injEq] at h
        rw [← h]; rfl
      | TYPE_STRING a =>
        simp only [documentMember, Bool.false_eq_true, if_false, Option.some.injEq] at h
        rw [← h]; rfl
      | TYPE_BYTES a =>
        simp only [documentMember, Bool.false_eq_true, if_false, Option.some.injEq] at h
        rw [← h]; rfl

theorem objectOf_append_member (ms : List (Str × Json)) (f : Field) (rest : List Field) :
    objectOf ((ms ++ (documentMember f).toList) ++ documentMembers rest)
      = objectOf (ms ++ documentMembers (f :: rest)) := by
  cases hm : documentMember f with
  | none => simp [documentMembers, hm]
  | some p => simp [documentMembers, hm]

mutual
/-- The loop of `FormatToJson` over the fields of a message as the library gives
it, on an object that has none of their names yet, adds the member of each
field in the order of the fields. -/
theorem formatFields_document (fields : List Field) (ms : List (Str × Json))
    (hwf : wfFields fields = true) (hd : (fields.map Field.name).Nodup)
    (hk : ∀ f ∈ fields, ∀ p ∈ ms, p.1 ≠ f.name) :
    formatFields (objectOf ms) fields = some (objectOf (ms ++ documentMembers fields)) := by
  match fields, hwf, hd, hk with
  | [], _, _, _ => simp [formatFields, documentMembers]
  | f :: rest, hwf, hd, hk =>
    simp only [wfFields, Bool.and_eq_true] at hwf
    have hf := formatField_document f ms hwf.1 (hk f (List.mem_cons_self _ _))
    rw [List.map_cons, List.nodup_cons] at hd
    have hk2 : ∀ g ∈ rest, ∀ p ∈ ms ++ (documentMember f).toList, p.1 ≠ g.name := by
      intro g hg p hp
      rcases List.mem_append.mp hp with h1 | h1
      · exact hk g (List.mem_cons_of_mem _ hg) p h1
      · have hpn : p.1 = f.name := by
          cases hm : documentMember f with
          | none => simp [hm] at h1
          | some p1 =>
            simp only [hm, Option.toList, List.mem_singleton] at h1
            rw [h1]
            exact documentMember_name f p1 hm
        rw [hpn]
        intro e
        exact hd.1 (e ▸ List.mem_map_of_mem Field.name hg)
    have hr := formatFields_document rest (ms ++ (documentMember f).toList) hwf.2 hd.2 hk2
    rw [formatFields, hf]
    simp only []
    rw [hr, objectOf_append_member]
termination_by sizeOf fields

/-- The body of the loop of `FormatToJson` on a field whose name is no member
yet. -/
theorem formatField_document (f : Field) (ms : List (Str × Json)) (hwf : wfField f = true)
    (hk : ∀ p ∈ ms, p.1 ≠ f.name) :
    formatField (objectOf ms) f = some (objectOf (ms ++ (documentMember f).toList)) := by
  match f, hwf, hk with
  | .mk name is_repeated [], _, _ =>
    cases is_repeated <;> simp [formatField, documentMember]
  | .mk name true (v :: vs), hwf, hk =>
    have hk1 : ∀ p ∈ ms, p.1 ≠ name := hk
    simp only [wfField, wfValues, Bool.and_eq_true] at hwf
    have h1 := tmp_value_document v hwf.1
    have h2 := repeatedLoop_document vs [documentElement v] hwf.2
    have h3 : repeatedLoop .null (v :: vs) = some (.array (documentElements (v :: vs))) := by
      rw [repeatedLoop, h1]
      simp only [Json.append]
      rw [h2]
      simp [documentElements]
    have h4 : formatField (objectOf ms) (.mk name true (v :: vs))
        = match repeatedLoop ((objectOf ms).member name) (v :: vs) with
          | some sub => (objectOf ms).setMember name sub
          | none => none := by
      simp [formatField]
    rw [h4, member_objectOf_fresh ms name hk1, h3]
    simp only []
    rw [setMember_objectOf_fresh ms name _ hk1]
    simp [documentMember]
  | .mk name false (.TYPE_MESSAGE (.mk b fields) :: vs), hwf, hk =>
    have hk1 : ∀ p ∈ ms, p.1 ≠ name := hk
    simp only [wfField, wfValues, wfValue, wfMessage, Bool.and_eq_true,
      decide_eq_true_eq] at hwf
    by_cases hb : b = 0
    · simp [formatField, documentMember, hb]
    · have h1 := formatFields_document fields [] hwf.1.2 hwf.1.1 (fun _ _ p hp => by simp at hp)
      have h2 : objectOf [] = Json.null := rfl
      rw [h2, List.nil_append] at h1
      have h4 : formatField (objectOf ms) (.mk name false (.TYPE_MESSAGE (.mk b fields) :: vs))
          = match formatFields ((objectOf ms).member name) fields with
            | some sub => (objectOf ms).setMember name sub
            | none => none := by
        simp [formatField, hb]
      rw [h4, member_objectOf_fresh ms name hk1, h1]
      simp only []
      rw [setMember_objectOf_fresh ms name _ hk1]
      simp [documentMember, hb]
  | .mk name false (.TYPE_INT32 a :: vs), _, hk =>
    have hk1 : ∀ p ∈ ms, p.1 ≠ name := hk
    simp only [formatField, Bool.false_eq_true, if_false]
    rw [setMember_objectOf_fresh ms name _ hk1]
    simp [documentMember]
  | .mk name false (.TYPE_UINT32 a :: vs), _, hk =>
    have hk1 : ∀ p ∈ ms, p.1 ≠ name := hk
    simp only [formatField, Bool.false_eq_true, if_false]
    rw [setMember_objectOf_fresh ms name _ hk1]
    simp [documentMember]
  | .mk name false (.TYPE_INT64 a :: vs), hwf, hk =>
    have hk1 : ∀ p ∈ ms, p.1 ≠ name := hk
    simp only [wfField, wfValues, wfValue, Bool.and_eq_true, decide_eq_true_eq] at hwf
    simp only [formatField, Bool.false_eq_true, if_false]
    rw [snprintf_lld a hwf.1.1 hwf.1.2, setMember_objectOf_fresh ms name _ hk1]
    simp [documentMember]
  | .mk name false (.TYPE_UINT64 a :: vs), hwf, hk =>
    have hk1 : ∀ p ∈ ms, p.1 ≠ name := hk
    simp only [wfField, wfValues, wfValue, Bool.and_eq_true, decide_eq_true_eq] at hwf
    simp only [formatField, Bool.false_eq_true, if_false]
    rw [snprintf_llu a hwf.1, setMember_objectOf_fresh ms name _ hk1]
    simp [documentMember]
  | .mk name false (.TYPE_STRING a :: vs), _, hk =>
    have hk1 : ∀ p ∈ ms, p.1 ≠ name := hk
    simp only [formatField, Bool.false_eq_true, if_false]
    rw [setMember_objectOf_fresh ms name _ hk1]
    simp [documentMember]
  | .mk name false (.TYPE_BYTES a :: vs), _, hk =>
    have hk1 : ∀ p ∈ ms, p.1 ≠ name := hk
    simp only [formatField, Bool.false_eq_true, if_false]
    rw [setMember_objectOf_fresh ms name _ hk1]
    simp [documentMember]
  | .mk name false (.TYPE_OTHER :: vs), _, _ =>
    simp [formatField, documentMember]
termination_by sizeOf f

/-- The `tmp_value` of an element of a repeated field is its document. -/
theorem tmp_value_document (v : FieldValue) (hwf : wfValue v = true) :
    tmp_value v = some (documentElement v) := by
  match v, hwf with
  | .TYPE_MESSAGE (.mk b fields), hwf =>
    simp only [wfValue, wfMessage, Bool.and_eq_true, decide_eq_true_eq] at hwf
    by_cases hb : b = 0
    · simp [tmp_value, documentElement, hb]
    · have h1 := formatFields_document fields [] hwf.2 hwf.1 (fun _ _ p hp => by simp at hp)
      have h2 : objectOf [] = Json.null := rfl
      rw [h2, List.nil_append] at h1
      simp [tmp_value, documentElement, hb, h1]
  | .TYPE_INT32 a, _ => simp [tmp_value, documentElement]
  | .TYPE_UINT32 a, _ => simp [tmp_value, documentElement]
  | .TYPE_INT64 a, hwf =>
    simp only [wfValue, decide_eq_true_eq] at hwf
    simp only [tmp_value, documentElement]
    rw [snprintf_lld a hwf.1 hwf.2]
  | .TYPE_UINT64 a, hwf =>
    simp only [wfValue, decide_eq_true_eq] at hwf
    simp only [tmp_value, documentElement]
    rw [snprintf_llu a hwf]
  | .TYPE_STRING a, _ => simp [tmp_value, documentElement]
  | .TYPE_BYTES a, _ => simp [tmp_value, documentElement]
  | .TYPE_OTHER, _ => simp [tmp_value, documentElement]
termination_by sizeOf v

/-- The loop of `FormatRepeatedField` on an array appends the documents of the
elements in their order. -/
theorem repeatedLoop_document (values : List FieldValue) (xs : List Json)
    (hwf : wfValues values = true) :
    repeatedLoop (.array xs) values = some (.array (xs ++ documentElements values)) := by
  match values, hwf with
  | [], _ => simp [repeatedLoop, documentElements]
  | v :: rest, hwf =>
    simp only [wfValues, Bool.and_eq_true] at hwf
    have h1 := tmp_value_document v hwf.1
    have h2 := repeatedLoop_document rest (xs ++ [documentElement v]) hwf.2
    rw [repeatedLoop, h1]
    simp only [Json.append]
    rw [h2]
    simp [documentElements]
termination_by sizeOf values
end

/-- The loop of `FormatRepeatedField` on a null value makes the array of the
documents of the elements. -/
theorem repeatedLoop_null (v : FieldValue) (rest : List FieldValue)
    (hwf : wfValues (v :: rest) = true) :
    repeatedLoop .null (v :: rest) = some (.array (documentElements (v :: rest))) := by
  simp only [wfValues, Bool.and_eq_true] at hwf
  rw [repeatedLoop, tmp_value_document v hwf.1]
  simp only [Json.append]
  rw [repeatedLoop_document rest _ hwf.2]
  simp [documentElements]

/-- The function `FormatToJson` on a message as the library gives it, from a
null value: the document of the specification. -/
theorem FormatToJson_document (msg : Message) (hwf : wfMessage msg = true) :
    FormatToJson .null msg = some (toDocument msg) := by
  obtain ⟨b, fields⟩ := msg
  simp only [wfMessage, Bool.and_eq_true, decide_eq_true_eq] at hwf
  have h1 := formatFields_document fields [] hwf.2 hwf.1 (fun _ _ p hp => by simp at hp)
  have h2 : objectOf [] = Json.null := rfl
  rw [h2, List.nil_append] at h1
  rw [FormatToJson, toDocument, h1]

/-- Outside the queries `&g` the sequence built is that of the
specification. -/
theorem foundParams_eq (q : Str) (h : ¬ ∃ g, q = '&' :: g ∧ '&' ∉ g) :
    foundParams q = queryParams q := by
  have hl : lostQuery q = false := by
    cases hx : lostQuery q with
    | false => rfl
    | true => exact absurd ((lostQuery_iff q).mp hx) h
  simp [foundParams, hl]

theorem mem_foundParams (q : Str) (p : Str × Str) (hp : p ∈ foundParams q) :
    p ∈ queryParams q := by
  unfold foundParams at hp
  split at hp
  · simp at hp
  · exact hp

theorem length_foundParams_le (q : Str) : (foundParams q).length ≤ (queryParams q).length := by
  unfold foundParams
  split
  · simp
  · exact Nat.le_refl _

/-! ### Segments with two or more `=` -/

theorem filterMap_filter_good (l : List Str) :
    (l.filter goodSegment).filterMap segmentParam = l.filterMap segmentParam := by
  induction l with
  | nil => rfl
  | cons g rest ih =>
    cases hgood : goodSegment g with
    | false => simp [List.filter_cons, List.filterMap_cons, segmentParam, hgood, ih]
    | true => simp [List.filter_cons, List.filterMap_cons, hgood, ih]

/-- Removing the segments with two or more `=` from a query does not change
its parameters. -/
theorem queryParams_remove (q : Str) :
    queryParams (['&'].intercalate ((splitAmp q).filter goodSegment)) = queryParams q := by
  unfold queryParams
  cases hl : (splitAmp q).filter goodSegment with
  | nil =>
    rw [← filterMap_filter_good (splitAmp q), hl]
    rfl
  | cons g gs =>
    rw [splitAmp_intercalate (g :: gs) ?_ (by simp), ← hl, filterMap_filter_good]
    intro l hmem
    rw [← hl] at hmem
    exact not_mem_of_mem_splitAmp q l (List.mem_filter.mp hmem).1

/-- What a returned pair is made of. -/
theorem mem_queryParams (q : Str) (p : Str × Str) (hp : p ∈ queryParams q) :
    ∃ g ∈ splitAmp q, goodSegment g = true ∧ p = (segmentName g, segmentValue g) ∧
      segmentName g ≠ [] := by
  unfold queryParams at hp
  obtain ⟨g, hg, hgp⟩ := List.mem_filterMap.mp hp
  refine ⟨g, hg, ?_⟩
  cases hgood : goodSegment g with
  | false => simp [segmentParam, hgood] at hgp
  | true =>
    simp only [segmentParam, hgood, if_true, segmentPair] at hgp
    cases hn : segmentName g with
    | nil => simp [hn] at hgp
    | cons c t =>
      rw [hn] at hgp
      simp only [List.isEmpty_cons, Bool.false_eq_true, if_false, Option.some.injEq] at hgp
      exact ⟨rfl, hgp.symm, by simp⟩

theorem queryParams_pair (q : Str) (p : Str × Str) (hp : p ∈ queryParams q) :
    p.1 ≠ [] ∧ '&' ∉ p.1 ∧ '=' ∉ p.1 ∧ '&' ∉ p.2 ∧ '=' ∉ p.2 := by
  obtain ⟨g, hg, hgood, rfl, hne⟩ := mem_queryParams q p hp
  have hamp := not_mem_of_mem_splitAmp q g hg
  rcases segment_decomp g hgood with ⟨h1, h2, h3⟩ | ⟨h1, h2, h3⟩
  · refine ⟨hne, ?_, ?_, ?_, ?_⟩
    · rw [← h1]; exact hamp
    · rw [← h1]; exact h3
    · simp only [h2]; simp
    · simp only [h2]; simp
  · refine ⟨hne, ?_, h2, ?_, h3⟩
    · intro hm
      apply hamp
      rw [h1]
      exact List.mem_append_left _ hm
    · intro hm
      apply hamp
      rw [h1]
      exact List.mem_append_right _ (List.mem_cons_of_mem _ hm)

theorem length_queryParams (q : Str) : (queryParams q).length ≤ q.count '&' + 1 := by
  unfold queryParams
  rw [← length_splitAmp]
  exact List.length_filterMap_le _ _

/-! ### A port that is not a number -/

/-- The port fails on a text that goes on to a `:` and a port that is not a
number. -/
theorem portTail_append_colon (Y q : Str) (m : Caps) (hq : ∃ c ∈ q, isdigit c = false) :
    portTail (Y ++ ':' :: q) m = none := by
  cases Y with
  | nil => exact portTail_colon_nondigit q m hq
  | cons y Y1 =>
    have : (Y1 ++ ':' :: q).all isdigit = false := by
      rw [Bool.eq_false_iff]
      intro h
      have := List.all_eq_true.mp h ':' (by simp)
      exact absurd this (by decide)
    simp [portTail, this]

/-- The port fails behind a run of a class without `:`, before a port that is
not a number. -/
theorem portTail_dropWhile (p : Char → Bool) (hp : p ':' = false) (X q : Str) (m : Caps)
    (hq : ∃ c ∈ q, isdigit c = false) :
    portTail ((X ++ ':' :: q).dropWhile p) m = none := by
  induction X with
  | nil =>
    simp only [List.nil_append, List.dropWhile_cons, hp, Bool.false_eq_true, if_false]
    exact portTail_colon_nondigit q m hq
  | cons x X1 ih =>
    by_cases hx : p x = true
    · simp only [List.cons_append, List.dropWhile_cons, hx, if_true]
      exact ih
    · simp only [List.cons_append, List.dropWhile_cons, hx, Bool.false_eq_true, if_false]
      exact portTail_append_colon (x :: X1) q m hq

/-- The bracketed host fails before a port that is not a number, unless the
bracket closes inside the port. -/
theorem bracketScan_nondigit (X q : Str) (m : Caps) (hq : ∃ c ∈ q, isdigit c = false)
    (hb : X.head? ≠ some '[' ∨ ']' ∈ X ∨ ']' ∉ q) :
    bracketScan (X ++ ':' :: q) m = none := by
  cases X with
  | nil => exact bracketScan_none _ _ (by simp)
  | cons c X1 =>
    by_cases hc : c = '['
    · subst hc
      have hb2 : ']' ∈ X1 ∨ ']' ∉ q := by
        rcases hb with h | h | h
        · exact absurd rfl h
        · rcases List.mem_cons.mp h with h1 | h1
          · exact absurd h1 (by decide)
          · exact Or.inl h1
        · exact Or.inr h
      simp only [bracketScan, List.cons_append, beq_self_eq_true, if_true]
      by_cases hX : ']' ∈ X1
      · cases hd : X1.dropWhile notRBracket with
        | nil =>
          have := List.dropWhile_eq_nil_iff.mp hd ']' hX
          exact absurd this (by decide)
        | cons x X2 =>
          obtain ⟨hx, hX1⟩ := dropWhile_eq_cons notRBracket X1 x X2 hd
          have hx2 : x = ']' := by simpa [notRBracket] using hx
          subst hx2
          have htw : ∀ c ∈ X1.takeWhile notRBracket, notRBracket c = true :=
            fun c hc => List.mem_takeWhile_imp hc
          have hsplit : X1 ++ ':' :: q
              = X1.takeWhile notRBracket ++ ']' :: (X2 ++ ':' :: q) := by
            conv_lhs => rw [hX1]
            simp
          rw [hsplit, dropWhile_append_stop notRBracket _ ']' _ htw (by decide)]
          simp only [beq_self_eq_true, if_true]
          exact portTail_append_colon X2 q _ hq
      · have hq2 : ']' ∉ q := by
          rcases hb2 with h | h
          · exact absurd h hX
          · exact h
        have hall : ∀ c ∈ X1 ++ ':' :: q, notRBracket c = true := by
          intro c hc
          have hne : c ≠ ']' := by
            rintro rfl
            rcases List.mem_append.mp hc with h | h
            · exact hX h
            · rcases List.mem_cons.mp h with h1 | h1
              · exact absurd h1 (by decide)
              · exact hq2 h1
          simp [notRBracket, hne]
        rw [dropWhile_all notRBracket _ hall]
    · exact bracketScan_none _ _ (by simpa using hc)

/-- Host and port fail before a port that is not a number, unless a bracket
closes inside the port. -/
theorem hostScan_port_nondigit (X q : Str) (m : Caps) (hq : ∃ c ∈ q, isdigit c = false)
    (hb : X.head? ≠ some '[' ∨ ']' ∈ X ∨ ']' ∉ q) :
    hostScan (X ++ ':' :: q) m = none := by
  rw [hostScan, bracketScan_nondigit X q m hq hb, orElse_none_left]
  exact portTail_dropWhile notLBracketColon (by decide) X q _ hq

/-- A host of the grammar, before a `:`, is no bracket that closes behind the
`:`. -/
theorem host_shape_bracket (H q : Str)
    (hH : H.all notLBracketColon = true ∨ ∃ L, H = '[' :: (L ++ [']'])) :
    H.head? ≠ some '[' ∨ ']' ∈ H ∨ ']' ∉ q := by
  rcases hH with h | ⟨L, rfl⟩
  · left
    cases H with
    | nil => simp
    | cons c t =>
      have := List.all_eq_true.mp h c (by simp)
      simp only [notLBracketColon, Bool.and_eq_true, bne_iff_ne] at this
      simpa using this.1
  · right; left
    simp

/-- The pattern `authority_regex` rejects an authority whose port is not a
number. -/
theorem authorityScan_port_nondigit (ui : Option (Str × Option Str)) (H q : Str)
    (hui : userinfoShape ui = true)
    (hH : H.all notLBracketColon = true ∨ ∃ L, H = '[' :: (L ++ [']']))
    (hnone : ui = none → '@' ∉ H ∧ '@' ∉ q)
    (hb : (userinfoText ui).head? = some '[' → ']' ∈ userinfoText ui ++ H ∨ ']' ∉ q)
    (hnd : ∃ c ∈ q, isdigit c = false) :
    authorityScan (userinfoText ui ++ (H ++ ':' :: q)) = none := by
  have hhost : ∀ m, hostScan (H ++ ':' :: q) m = none :=
    fun m => hostScan_port_nondigit H q m hnd (host_shape_bracket H q hH)
  have hwhole : hostScan (userinfoText ui ++ (H ++ ':' :: q)) [] = none := by
    rw [← List.append_assoc]
    apply hostScan_port_nondigit _ q [] hnd
    cases hu : userinfoText ui with
    | nil =>
      rw [List.nil_append]
      exact host_shape_bracket H q hH
    | cons c t =>
      by_cases hc : c = '['
      · subst hc
        right
        rw [← hu]
        exact hb (by rw [hu]; rfl)
      · left
        simpa using hc
  rw [authorityScan, hwhole, orElse_none_right]
  match ui with
  | none =>
    obtain ⟨h1, h2⟩ := hnone rfl
    apply userinfoScan_no_at
    simp only [userinfoText, List.nil_append, List.mem_append, List.mem_cons, not_or]
    exact ⟨h1, by decide, h2⟩
  | some (u, none) =>
    have huA : ∀ c ∈ u, notAtColon c = true := List.all_eq_true.mp hui
    have hA : userinfoText (some (u, none)) ++ (H ++ ':' :: q) = u ++ '@' :: (H ++ ':' :: q) := by
      simp [userinfoText]
    rw [hA, userinfoScan, dropWhile_append_stop notAtColon u '@' _ huA (by decide)]
    simp [atScan, hhost, orElse]
  | some (u, some p) =>
    simp only [userinfoShape, Bool.and_eq_true] at hui
    have huA : ∀ c ∈ u, notAtColon c = true := List.all_eq_true.mp hui.1
    have hpA : ∀ c ∈ p, notAt c = true := List.all_eq_true.mp hui.2
    have hA : userinfoText (some (u, some p)) ++ (H ++ ':' :: q)
        = u ++ ':' :: (p ++ '@' :: (H ++ ':' :: q)) := by
      simp [userinfoText]
    rw [hA, userinfoScan, dropWhile_append_stop notAtColon u ':' _ huA (by decide)]
    simp only [beq_self_eq_true, if_true]
    rw [dropWhile_append_stop notAt p '@' _ hpA (by decide)]
    simp [atScan, hhost, orElse]

/-! ## The claims -/

/-- The constructor fails with `InvalidUri`, whose message is `invalid URI `
followed by the whole input, if and only if the input has no `:`, or the text
before its first `:` is not a letter followed by letters, digits, `+`, `.` or
`-`, or the text after the first `#` behind that `:` has a line feed or a
carriage return; `not a uri` is rejected with `InvalidUri`. -/
theorem invalid_uri_iff (str : Str) (errno : Nat) :
    ((Uri.Uri garbage str errno).1 = .error (.InvalidUri str) ↔
        (':' ∉ str ∨ isScheme (beforeColon str) = false ∨
          ∃ c ∈ fragmentOf (afterColon str), c = '\n' ∨ c = '\r')) ∧
      (UriError.InvalidUri str).what = "invalid URI ".toList ++ str ∧
      (Uri.Uri garbage "not a uri".toList errno).1 = .error (.InvalidUri "not a uri".toList) := by
  refine ⟨?_, rfl, ?_⟩
  · rw [construct_InvalidUri_iff_no_match, regex_match_uri_none]
    simp [isLineTerminator]
  · rw [construct_InvalidUri_iff_no_match, regex_match_uri_none]
    right; left; decide

/-- C1 fails on the input `a:b#` followed by a line feed: it has a `:` with the
scheme `a` before it, and is still rejected with `InvalidUri`, because the
fragment pattern `(.*)` stops at a line terminator.  The patterns of the
block and of the query, `[^?#]*` and `[^#]*`, take the line feed: `a:b`, a
line feed and `a:b?`, a line feed are accepted. -/
theorem C1_fragment_line_terminator :
    ':' ∈ ['a', ':', 'b', '#', '\n'] ∧
      isScheme (beforeColon ['a', ':', 'b', '#', '\n']) = true ∧
      (Uri.Uri zeroed ['a', ':', 'b', '#', '\n'] 0).1
        = .error (.InvalidUri ['a', ':', 'b', '#', '\n']) ∧
      (Uri.Uri zeroed ['a', ':', 'b', '\n'] 0).1
        = .ok ⟨['a'], [], [], [], false, 0, ['b', '\n'], [], [], []⟩ ∧
      (Uri.Uri zeroed ['a', ':', 'b', '?', '\n'] 0).1
        = .ok ⟨['a'], [], [], [], false, 0, ['b'], ['\n'], [], []⟩ :=
  ⟨by decide, by decide, rfl, rfl, rfl⟩

/-- C2: for an accepted input, with `rest` the text after the first `:`, the
authority-and-path block is the longest prefix of `rest` without `?` and `#`;
`query()` is the decoding of the text between a `?` right after the block and
the next `#` (or the end), and is empty when no `?` follows the block;
`fragment()` is the decoding of everything after the first `#` of `rest`, and
is empty when `rest` has no `#`. -/
theorem C2_query_fragment (str : Str) (errno : Nat) (u : Uri)
    (h : (Uri.Uri garbage str errno).1 = .ok u) :
    ∃ m block tail, regex_match uri_regex str = some m ∧ submatch m 2 = block ∧
      afterColon str = block ++ tail ∧
      (∀ c ∈ block, c ≠ '?' ∧ c ≠ '#') ∧
      (tail = [] ∨ tail.head? = some '?' ∨ tail.head? = some '#') ∧
      (∀ q, tail = '?' :: q → u.query_ = decode garbage (q.takeWhile (fun c => c != '#'))) ∧
      (tail.head? ≠ some '?' → u.query_ = []) ∧
      (∀ pre f, afterColon str = pre ++ '#' :: f → '#' ∉ pre → u.fragment_ = decode garbage f) ∧
      ('#' ∉ afterColon str → u.fragment_ = []) := by
  obtain ⟨m, hm, -, hq, hf⟩ := construct_ok_match str errno u h
  obtain ⟨-, -, -, h2, h3, h4⟩ := regex_match_uri_some str m hm
  refine ⟨m, blockOf (afterColon str), (afterColon str).dropWhile notQueryHash, hm, h2,
    (List.takeWhile_append_dropWhile _ _).symm, ?_, ?_, ?_, ?_, ?_, ?_⟩
  · intro c hc
    have := List.mem_takeWhile_imp hc
    simpa [notQueryHash] using this
  · cases hd : (afterColon str).dropWhile notQueryHash with
    | nil => exact Or.inl rfl
    | cons x r =>
      right
      rcases notQueryHash_false x (dropWhile_eq_cons _ _ _ _ hd).1 with rfl | rfl
      · exact Or.inl rfl
      · exact Or.inr rfl
  · intro q hq1
    rw [hq, h3, queryOf, hq1]
    rfl
  · intro hne
    rw [hq, h3, queryOf]
    cases hd : (afterColon str).dropWhile notQueryHash with
    | nil => rfl
    | cons x r =>
      by_cases hx : x = '?'
      · subst hx; rw [hd] at hne; exact absurd rfl hne
      · split
        · rename_i heq; simp only [List.cons.injEq] at heq; exact absurd heq.1 hx
        · rfl
  · intro pre f hpre hno
    rw [hf, h4, fragmentOf, hpre, dropWhile_append_stop notHash pre '#' f _ (by decide)]
    · rfl
    · intro c hc
      simp only [notHash, bne_iff_ne]
      rintro rfl
      exact hno hc
  · intro hno
    rw [hf, h4, fragmentOf, dropWhile_all notHash]
    · rfl
    · intro c hc
      simp only [notHash, bne_iff_ne]
      rintro rfl
      exact hno hc

/-- C2 at the input `http://h/p?a=%41#f`. -/
theorem C2_query_fragment_witness :
    (Uri.Uri zeroed "http://h/p?a=%41#f".toList 0).1
        = .ok ⟨"http".toList, [], [], "h".toList, true, 0, "/p".toList, "a=A".toList,
            "f".toList, []⟩ ∧
      ∃ m block tail, regex_match uri_regex "http://h/p?a=%41#f".toList = some m ∧
        submatch m 2 = block ∧
        afterColon "http://h/p?a=%41#f".toList = block ++ tail ∧
        (∀ c ∈ block, c ≠ '?' ∧ c ≠ '#') ∧
        (tail = [] ∨ tail.head? = some '?' ∨ tail.head? = some '#') ∧
        (∀ q, tail = '?' :: q → "a=A".toList = decode zeroed (q.takeWhile (fun c => c != '#'))) ∧
        (tail.head? ≠ some '?' → "a=A".toList = []) ∧
        (∀ pre f, afterColon "http://h/p?a=%41#f".toList = pre ++ '#' :: f → '#' ∉ pre →
          "f".toList = decode zeroed f) ∧
        ('#' ∉ afterColon "http://h/p?a=%41#f".toList → "f".toList = []) :=
  ⟨rfl, C2_query_fragment "http://h/p?a=%41#f".toList 0
    ⟨"http".toList, [], [], "h".toList, true, 0, "/p".toList, "a=A".toList, "f".toList, []⟩ rfl⟩

/-- C4 fails on the input `a://h/` followed by a line feed: the block
`//h/` and line feed begins with `//`, but `authority_and_path_regex` does not
match it, since `.` stops at the line terminator, and the constructor takes
the branch that the source comments as "does not start with //":
`has_authority` is false, the host is empty and the path is the whole block. -/
theorem C4_has_authority_line_terminator :
    ∃ m, regex_match uri_regex ['a', ':', '/', '/', 'h', '/', '\n'] = some m ∧
      submatch m 2 = '/' :: '/' :: ['h', '/', '\n'] ∧
      (Uri.Uri zeroed ['a', ':', '/', '/', 'h', '/', '\n'] 0).1
        = .ok ⟨['a'], [], [], [], false, 0, ['/', '/', 'h', '/', '\n'], [], [], []⟩ :=
  ⟨_, rfl, rfl, rfl⟩

/-- C5, as stated, fails: on `a://h/%41` the block is `//` `h` `/%41`, and
`path()` is `/A`, the decoding of the remainder, not the remainder. -/
theorem C5_path_counterexample :
    ∃ u m, (Uri.Uri zeroed "a://h/%41".toList 0).1 = .ok u ∧
      regex_match uri_regex "a://h/%41".toList = some m ∧
      submatch m 2 = '/' :: '/' :: ("h".toList ++ "/%41".toList) ∧
      '/' ∉ "h".toList ∧ u.path_ ≠ "/%41".toList :=
  ⟨_, _, rfl, rfl, rfl, by decide, by decide⟩

/-- C5, amended: for an accepted input whose block is `//` A R, where A has no
`/` and R is empty or begins with `/` and has no line feed and no carriage
return, the block matches `authority_and_path_regex`, the authority handed to
the authority pattern is A (which that pattern matches), `has_authority` is
true, and `path()` is the percent-decoding of R. -/
theorem C5_authority_path_split (str : Str) (errno : Nat) (u : Uri) (m : Caps) (A R : Str)
    (h : (Uri.Uri garbage str errno).1 = .ok u)
    (hm : regex_match uri_regex str = some m)
    (hb : submatch m 2 = '/' :: '/' :: (A ++ R))
    (hA : '/' ∉ A) (hR : R = [] ∨ R.head? = some '/')
    (hlt : ∀ c ∈ R, c ≠ '\n' ∧ c ≠ '\r') :
    ∃ apm am, regex_match authority_and_path_regex (submatch m 2) = some apm ∧
      submatch apm 1 = A ∧ regex_match authority_regex A = some am ∧
      u.has_authority_ = true ∧ u.path_ = decode garbage R := by
  have hA1 : ∀ c ∈ A, notSlash c = true := by
    intro c hc
    simp only [notSlash, bne_iff_ne]
    rintro rfl
    exact hA hc
  have hdot : ∀ c ∈ R, dot c = true := by
    intro c hc
    simp [dot, (hlt c hc).1, (hlt c hc).2]
  obtain ⟨apm, hap, h1, h2⟩ := apScan_build A R hA1 hR hdot
  rw [← hb, ← regex_match_authority_and_path] at hap
  cases ha : regex_match authority_regex (submatch apm 1) with
  | none =>
    rw [construct_bad_authority str errno m apm hm hap ha] at h
    simp at h
  | some am =>
    rw [construct_authority str errno m apm am hm hap ha] at h
    rcases hp : parsePort (decode garbage (submatch am 4)) errno with ⟨r, e1⟩
    rw [hp] at h
    cases r with
    | error e => simp at h
    | ok port =>
      simp only [Except.ok.injEq] at h
      subst h
      exact ⟨apm, am, hap, h1, by rw [← h1]; exact ha, rfl, by rw [← h2]⟩

/-- C5 at the input `a://h/%41`. -/
theorem C5_authority_path_split_witness :
    (Uri.Uri zeroed "a://h/%41".toList 0).1
        = .ok ⟨"a".toList, [], [], "h".toList, true, 0, "/A".toList, [], [], []⟩ ∧
      regex_match uri_regex "a://h/%41".toList = some [(2, "//h/%41".toList), (1, "a".toList)] ∧
      ∃ apm am, regex_match authority_and_path_regex
          (submatch [(2, "//h/%41".toList), (1, "a".toList)] 2) = some apm ∧
        submatch apm 1 = "h".toList ∧ regex_match authority_regex "h".toList = some am ∧
        true = true ∧ "/A".toList = decode zeroed "/%41".toList :=
  ⟨rfl, rfl, C5_authority_path_split "a://h/%41".toList 0
    ⟨"a".toList, [], [], "h".toList, true, 0, "/A".toList, [], [], []⟩
    [(2, "//h/%41".toList), (1, "a".toList)] "h".toList "/%41".toList rfl rfl rfl
    (by decide) (Or.inr rfl) (by decide)⟩

/-- C6 fails when `errno` is `ERANGE` on entry, since the constructor tests
`errno` after `strtoul` without having cleared it before: a construction that
overflows the port leaves `errno` at `ERANGE`, and the next construction of
`a://u:p@h:80`, whose port is 80, is rejected with `InvalidPort`. -/
theorem C6_authority_stale_errno :
    (Uri.Uri zeroed "a://h:99999999999999999999".toList 0).2 = ERANGE ∧
      (Uri.Uri zeroed "a://u:p@h:80".toList ERANGE).1 = .error (.InvalidPort "80".toList) ∧
      (Uri.Uri zeroed "a://u:p@h:80".toList 0).1
        = .ok ⟨"a".toList, "u".toList, "p".toList, "h".toList, true, 80, [], [], [], []⟩ :=
  ⟨rfl, rfl, rfl⟩

/-- C7, as stated, fails: the authority `user@host:abc` is rejected by the
authority pattern, whose port is `\d*`, so the constructor throws
`InvalidAuthority` with the whole authority, not `InvalidPort` with `abc`. -/
theorem C7_nondigit_port_counterexample :
    (Uri.Uri zeroed "a://user@host:abc".toList 0).1 ≠ .error (.InvalidPort "abc".toList) ∧
      (Uri.Uri zeroed "a://user@host:abc".toList 0).1
        = .error (.InvalidAuthority "user@host:abc".toList) :=
  ⟨by rw [show (Uri.Uri zeroed "a://user@host:abc".toList 0).1
        = .error (.InvalidAuthority "user@host:abc".toList) from rfl]
      simp, rfl⟩

/-- C7, amended: for an input that matches `uri_regex` and whose block is `//`
A R, where R is empty or begins with `/` and has no line feed and no carriage
return, and A, without `/`, is an optional user information (a user name in
`[^@:]*`, a password in `[^@]*`) with its `@`, a host that is a bracketed
literal or a text without `[` and `:`, a `:` and a port text with a character
that is not a digit (without user information A has no `@`; and if the user
name begins with `[`, a `]` stands before the `:` of the port or the port has
none), the constructor fails with `InvalidAuthority`, whose message is
`invalid URI authority ` followed by A; `user@host:abc` and `[::1]:abc` fail
so. -/
theorem C7_nondigit_port_invalid_authority (str : Str) (errno : Nat) (m : Caps)
    (ui : Option (Str × Option Str)) (H q R : Str)
    (hm : regex_match uri_regex str = some m)
    (hblock : submatch m 2 = '/' :: '/' :: ((userinfoText ui ++ (H ++ ':' :: q)) ++ R))
    (hA : '/' ∉ userinfoText ui ++ (H ++ ':' :: q))
    (hR : R = [] ∨ R.head? = some '/') (hlt : ∀ c ∈ R, c ≠ '\n' ∧ c ≠ '\r')
    (hui : userinfoShape ui = true)
    (hH : H.all notLBracketColon = true ∨ ∃ L, H = '[' :: (L ++ [']']))
    (hnone : ui = none → '@' ∉ H ∧ '@' ∉ q)
    (hb : (userinfoText ui).head? = some '[' → ']' ∈ userinfoText ui ++ H ∨ ']' ∉ q)
    (hnd : ∃ c ∈ q, isdigit c = false) :
    (Uri.Uri garbage str errno).1
        = .error (.InvalidAuthority (userinfoText ui ++ (H ++ ':' :: q))) ∧
      (UriError.InvalidAuthority (userinfoText ui ++ (H ++ ':' :: q))).what
        = "invalid URI authority ".toList ++ (userinfoText ui ++ (H ++ ':' :: q)) ∧
      (Uri.Uri garbage "a://user@host:abc".toList errno).1
        = .error (.InvalidAuthority "user@host:abc".toList) ∧
      (Uri.Uri garbage "a://[::1]:abc".toList errno).1
        = .error (.InvalidAuthority "[::1]:abc".toList) := by
  have hA1 : ∀ c ∈ userinfoText ui ++ (H ++ ':' :: q), notSlash c = true := by
    intro c hc
    simp only [notSlash, bne_iff_ne]
    rintro rfl
    exact hA hc
  have hdot : ∀ c ∈ R, dot c = true := by
    intro c hc
    simp [dot, (hlt c hc).1, (hlt c hc).2]
  obtain ⟨apm, hap, h1, -⟩ := apScan_build _ R hA1 hR hdot
  rw [← hblock, ← regex_match_authority_and_path] at hap
  have ha : regex_match authority_regex (submatch apm 1) = none := by
    rw [h1, regex_match_authority]
    exact authorityScan_port_nondigit ui H q hui hH hnone hb hnd
  rw [construct_bad_authority str errno m apm hm hap ha, h1]
  refine ⟨rfl, rfl, ?_, ?_⟩
  · rw [construct_bad_authority "a://user@host:abc".toList errno
      [(2, "//user@host:abc".toList), (1, "a".toList)] [(1, "user@host:abc".toList)]
      rfl rfl rfl]
    rfl
  · rw [construct_bad_authority "a://[::1]:abc".toList errno
      [(2, "//[::1]:abc".toList), (1, "a".toList)] [(1, "[::1]:abc".toList)]
      rfl rfl rfl]
    rfl

/-- C7 at the input `a://user@[::1]:abc/p`. -/
theorem C7_nondigit_port_invalid_authority_witness :
    regex_match uri_regex "a://user@[::1]:abc/p".toList
        = some [(2, "//user@[::1]:abc/p".toList), (1, "a".toList)] ∧
      submatch [(2, "//user@[::1]:abc/p".toList), (1, "a".toList)] 2
        = '/' :: '/' :: ((userinfoText (some ("user".toList, none))
            ++ ("[::1]".toList ++ ':' :: "abc".toList)) ++ "/p".toList) ∧
      (Uri.Uri zeroed "a://user@[::1]:abc/p".toList 0).1
        = .error (.InvalidAuthority
            (userinfoText (some ("user".toList, none))
              ++ ("[::1]".toList ++ ':' :: "abc".toList))) ∧
      userinfoText (some ("user".toList, none)) ++ ("[::1]".toList ++ ':' :: "abc".toList)
        = "user@[::1]:abc".toList :=
  ⟨rfl, rfl,
    (C7_nondigit_port_invalid_authority "a://user@[::1]:abc/p".toList 0
      [(2, "//user@[::1]:abc/p".toList), (1, "a".toList)]
      (some ("user".toList, none)) "[::1]".toList "abc".toList "/p".toList rfl rfl
      (by decide) (Or.inr rfl) (by decide) rfl (Or.inr ⟨"::1".toList, rfl⟩)
      (fun h => nomatch h) (fun h => absurd h (by decide))
      ⟨'a', by decide, by decide⟩).1,
    rfl⟩

/-- C8 fails when `errno` is `ERANGE` on entry: the port `18446744073709551616`
overflows `strtoul`, which sets `errno` to `ERANGE`; the constructor never
clears `errno`, so the next construction of `a://h:8080`, whose port text
`8080` is all digits with the value 8080, is rejected with `InvalidPort`,
although from a clear `errno` it succeeds with the port 8080. -/
theorem C8_port_stale_errno :
    Uri.Uri zeroed "a://h:18446744073709551616".toList 0
        = (.error (.InvalidPort "18446744073709551616".toList), ERANGE) ∧
      regex_match authority_regex "h:8080".toList = some [(4, "8080".toList), (3, "h".toList)] ∧
      decValue "8080".toList = 8080 ∧
      (Uri.Uri zeroed "a://h:8080".toList ERANGE).1 = .error (.InvalidPort "8080".toList) ∧
      (Uri.Uri zeroed "a://h:8080".toList 0).1
        = .ok ⟨"a".toList, [], [], "h".toList, true, 8080, [], [], [], []⟩ :=
  ⟨rfl, rfl, rfl, rfl, rfl⟩

/-- C9: on a string in which every `%` is followed by two hexadecimal digits,
`decode` is the reference decoding (each `%XY` becomes the byte
16 * hex X + hex Y, every other character is copied, and a decoded byte is not
decoded again); `decode` is the identity on a string without `%`;
`decode("%20")` is a space and `decode("100%25")` is `100%`. -/
theorem C9_decode_reference (s : Str)
    (h : ∀ i, s[i]? = some '%' →
      ∃ x y, s[i + 1]? = some x ∧ s[i + 2]? = some y ∧ isxdigit x = true ∧ isxdigit y = true) :
    refDecode s = some (decode garbage s) ∧ ('%' ∉ s → decode garbage s = s) ∧
      decode garbage "%20".toList = " ".toList ∧ decode garbage "100%25".toList = "100%".toList := by
  refine ⟨?_, decode_no_percent s, rfl, rfl⟩
  generalize hn : s.length = n
  induction n using Nat.strong_induction_on generalizing s with
  | _ n ih =>
    match s with
    | [] => rfl
    | c :: t =>
      by_cases hc : c = '%'
      · subst hc
        obtain ⟨x, y, hx, hy, hxd, hyd⟩ := h 0 (by simp)
        match t with
        | [] => simp at hx
        | [a] => simp at hy
        | a :: b :: t1 =>
          simp only [List.getElem?_cons_succ, List.getElem?_cons_zero, Option.some.injEq,
            zero_add] at hx hy
          subst hx hy
          have ht1 := ih t1.length (by simp at hn; omega) t1
            (fun i hi => by
              have := h (i + 3) (by simpa using hi)
              simpa using this) rfl
          rw [decode_percent, istream_hex_two _ _ _ hxd hyd,
            toChar_natCast _ (by have := hexVal_lt a; have := hexVal_lt b; omega)]
          simp [refDecode, hxd, hyd, ht1]
      · have ht := ih t.length (by simp at hn; omega) t
          (fun i hi => by
            have := h (i + 1) (by simpa using hi)
            simpa using this) rfl
        rw [decode_cons_ne c t hc]
        match t with
        | [] => simp [refDecode, hc, decode]
        | [a] =>
          have : refDecode (c :: [a]) = (refDecode [a]).map (fun r => c :: r) := by
            simp [refDecode, hc]
          rw [this, ht]; rfl
        | a :: b :: t1 =>
          have : refDecode (c :: a :: b :: t1)
              = (refDecode (a :: b :: t1)).map (fun r => c :: r) := by
            rw [refDecode]; simp [hc]
          rw [this, ht]; rfl

/-- C9 at the input `a%2Fb%25`. -/
theorem C9_decode_reference_witness :
    (∀ i, "a%2Fb%25".toList[i]? = some '%' →
      ∃ x y, "a%2Fb%25".toList[i + 1]? = some x ∧ "a%2Fb%25".toList[i + 2]? = some y ∧
        isxdigit x = true ∧ isxdigit y = true) ∧
      refDecode "a%2Fb%25".toList = some (decode zeroed "a%2Fb%25".toList) ∧
      ('%' ∉ "a%2Fb%25".toList → decode zeroed "a%2Fb%25".toList = "a%2Fb%25".toList) ∧
      decode zeroed "%20".toList = " ".toList ∧ decode zeroed "100%25".toList = "100%".toList :=
  have hw : ∀ i, "a%2Fb%25".toList[i]? = some '%' →
      ∃ x y, "a%2Fb%25".toList[i + 1]? = some x ∧ "a%2Fb%25".toList[i + 2]? = some y ∧
        isxdigit x = true ∧ isxdigit y = true := by
    intro i hi
    match i with
    | 0 => simp at hi
    | 1 => exact ⟨'2', 'F', rfl, rfl, by decide, by decide⟩
    | 2 => simp at hi
    | 3 => simp at hi
    | 4 => simp at hi
    | 5 => exact ⟨'2', '5', rfl, rfl, by decide, by decide⟩
    | 6 => simp at hi
    | 7 => simp at hi
    | n + 8 => simp at hi
  ⟨hw, C9_decode_reference "a%2Fb%25".toList hw⟩

/-- On an object whose vector of parameters is still empty (as the constructor
leaves it), whose query is not a `&` followed by a text without `&`, and
whose query has at most one `=` in each segment between `&`, `getQueryParams`
returns the query split at every `&`, without the segments of an empty name,
each other segment as the pair of its name (the text before its `=`, or all
of it) and its value (the text after the `=`, or nothing), in the order of the
query and with repeated names kept; it returns nothing for an empty query;
`a=1&b=&c` gives (a,1), (b,), (c,) and `=x&a=1` gives (a,1). -/
theorem query_params_spec (u : Uri) (hc : u.query_params_ = [])
    (hl : ¬ ∃ g, u.query_ = '&' :: g ∧ '&' ∉ g)
    (h1 : ∀ g ∈ u.query_.splitOn '&', g.count '=' ≤ 1) :
    u.getQueryParams.1
        = (u.query_.splitOn '&').filterMap (fun g =>
            if g.takeWhile (fun c => c != '=') = [] then none
            else some (g.takeWhile (fun c => c != '='),
              (g.dropWhile (fun c => c != '=')).tail)) ∧
      (u.query_ = [] → u.getQueryParams.1 = []) ∧
      (∀ v : Uri, v.query_params_ = [] → v.query_ = "a=1&b=&c".toList →
        v.getQueryParams.1
          = [("a".toList, "1".toList), ("b".toList, []), ("c".toList, [])]) ∧
      (∀ v : Uri, v.query_params_ = [] → v.query_ = "=x&a=1".toList →
        v.getQueryParams.1 = [("a".toList, "1".toList)]) := by
  refine ⟨?_, ?_, ?_, ?_⟩
  · rw [getQueryParams_fresh u hc, foundParams_eq _ hl, queryParams, splitAmp_eq_splitOn]
    apply List.filterMap_congr
    intro g hg
    have hgood : goodSegment g = true := by simpa [goodSegment] using h1 g hg
    simp only [segmentParam, hgood, if_true, segmentPair, segmentName, segmentValue]
    cases hn : g.takeWhile notEq with
    | nil =>
      have : g.takeWhile (fun c => c != '=') = [] := hn
      simp [this]
    | cons x xs =>
      have : g.takeWhile (fun c => c != '=') = x :: xs := hn
      simp only [this, List.isEmpty_cons, Bool.false_eq_true, if_false]
      rfl
  · intro hq
    rw [getQueryParams_fresh u hc, hq]
    rfl
  · intro v hv hq
    rw [getQueryParams_fresh v hv, hq]
    rfl
  · intro v hv hq
    rw [getQueryParams_fresh v hv, hq]
    rfl

/-- C11 fails on the query `&a=1`, whose segments (an empty one and `a=1`)
have at most one `=`: the split at `&` gives the pair (a,1), and
`getQueryParams` returns nothing.  After the empty match at the beginning the
iterator tries the same place again under `match_not_null`, where the library
refuses the lookahead `(?=(&|$))` at the end of the query, and then goes on
behind the `&`, where no parameter begins.  The same segment is found in
`&a=1&`, where a `&` follows it, and in `b&a=1`, where the first match is not
empty. -/
theorem C11_query_params_lost :
    (∀ g ∈ "&a=1".toList.splitOn '&', g.count '=' ≤ 1) ∧
      ("&a=1".toList.splitOn '&').filterMap (fun g =>
          if g.takeWhile (fun c => c != '=') = [] then none
          else some (g.takeWhile (fun c => c != '='),
            (g.dropWhile (fun c => c != '=')).tail))
        = [("a".toList, "1".toList)] ∧
      (⟨[], [], [], [], false, 0, [], "&a=1".toList, [], []⟩ : Uri).getQueryParams.1 = [] ∧
      (⟨[], [], [], [], false, 0, [], "&a=1&".toList, [], []⟩ : Uri).getQueryParams.1
        = [("a".toList, "1".toList)] ∧
      (⟨[], [], [], [], false, 0, [], "b&a=1".toList, [], []⟩ : Uri).getQueryParams.1
        = [("b".toList, []), ("a".toList, "1".toList)] := by
  refine ⟨?_, ?_, rfl, rfl, rfl⟩
  · rw [← splitAmp_eq_splitOn]
    decide
  · rw [← splitAmp_eq_splitOn]
    rfl

/-- C12: for a constructed `Uri`, every call of `getQueryParams`, the first
and any later one, returns the same sequence, which depends on `query()`
alone (it is what the loop over the iterator builds from an empty vector, so
nothing is appended twice, also after a call that returned nothing); after
any number of calls the object is the constructed one with only
`query_params_` changed. -/
theorem C12_query_params_stable (str : Str) (errno : Nat) (u : Uri)
    (h : (Uri.Uri garbage str errno).1 = .ok u) (n : Nat) :
    (Uri.afterCalls u n).getQueryParams.1
        = (regex_iterator query_param_regex u.query_).foldl addQueryParam [] ∧
      (Uri.afterCalls u n).getQueryParams.1 = u.getQueryParams.1 ∧
      Uri.afterCalls u (n + 1) = { u with query_params_ := u.getQueryParams.1 } := by
  have hc := construct_query_params_nil str errno u h
  have h0 : u.getQueryParams.1 = foundParams u.query_ := by rw [getQueryParams_fresh u hc]
  have hn : (Uri.afterCalls u n).getQueryParams.1 = foundParams u.query_ := by
    cases n with
    | zero => exact h0
    | succ k => rw [afterCalls_eq u hc k, getQueryParams_cached _ rfl]
  exact ⟨by rw [hn, foldl_regex_iterator], by rw [hn, h0], by rw [afterCalls_eq u hc n, h0]⟩

/-- C12 at the input `s:p?a=1&=x&a=2`, on the third call, and at the input
`s:p?&a=1`, whose every call returns nothing. -/
theorem C12_query_params_stable_witness :
    (Uri.Uri zeroed "s:p?a=1&=x&a=2".toList 0).1
        = .ok ⟨"s".toList, [], [], [], false, 0, "p".toList, "a=1&=x&a=2".toList, [], []⟩ ∧
      (Uri.afterCalls
          ⟨"s".toList, [], [], [], false, 0, "p".toList, "a=1&=x&a=2".toList, [], []⟩
          2).getQueryParams.1
        = [("a".toList, "1".toList), ("a".toList, "2".toList)] ∧
      Uri.afterCalls ⟨"s".toList, [], [], [], false, 0, "p".toList, "a=1&=x&a=2".toList, [], []⟩ 3
        = ⟨"s".toList, [], [], [], false, 0, "p".toList, "a=1&=x&a=2".toList, [],
            [("a".toList, "1".toList), ("a".toList, "2".toList)]⟩ ∧
      (Uri.Uri zeroed "s:p?&a=1".toList 0).1
        = .ok ⟨"s".toList, [], [], [], false, 0, "p".toList, "&a=1".toList, [], []⟩ ∧
      (Uri.afterCalls ⟨"s".toList, [], [], [], false, 0, "p".toList, "&a=1".toList, [], []⟩
          2).getQueryParams.1 = [] ∧
      Uri.afterCalls ⟨"s".toList, [], [], [], false, 0, "p".toList, "&a=1".toList, [], []⟩ 3
        = ⟨"s".toList, [], [], [], false, 0, "p".toList, "&a=1".toList, [], []⟩ :=
  ⟨rfl,
    (@C12_query_params_stable zeroed "s:p?a=1&=x&a=2".toList 0
      ⟨"s".toList, [], [], [], false, 0, "p".toList, "a=1&=x&a=2".toList, [], []⟩ rfl 2).2.1.trans
      rfl,
    (@C12_query_params_stable zeroed "s:p?a=1&=x&a=2".toList 0
      ⟨"s".toList, [], [], [], false, 0, "p".toList, "a=1&=x&a=2".toList, [], []⟩ rfl 2).2.2.trans
      rfl,
    rfl,
    (@C12_query_params_stable zeroed "s:p?&a=1".toList 0
      ⟨"s".toList, [], [], [], false, 0, "p".toList, "&a=1".toList, [], []⟩ rfl 2).2.1.trans rfl,
    (@C12_query_params_stable zeroed "s:p?&a=1".toList 0
      ⟨"s".toList, [], [], [], false, 0, "p".toList, "&a=1".toList, [], []⟩ rfl 2).2.2.trans rfl⟩

/-- C13: `authority()` is U, the host and P, where U is empty when the user
name and the password are both empty and is otherwise the user name, then `:`
and the password when the password is not empty, then `@`; and P is empty
when the port is 0 and is otherwise `:` and the decimal representation of the
port.  So (u, p, h, 8080) gives `u:p@h:8080`, and no user information with the
port 0 gives `h`. -/
theorem C13_authority (u : Uri) :
    u.authority
        = (if u.username_ = [] ∧ u.password_ = [] then []
            else u.username_ ++ (if u.password_ = [] then [] else ':' :: u.password_) ++ ['@'])
          ++ u.host_
          ++ (if u.port_ = 0 then [] else ':' :: Nat.toDigits 10 u.port_) ∧
      (∀ v : Uri, v.username_ = "u".toList → v.password_ = "p".toList → v.host_ = "h".toList →
        v.port_ = 8080 → v.authority = "u:p@h:8080".toList) ∧
      (∀ v : Uri, v.username_ = [] → v.password_ = [] → v.host_ = "h".toList →
        v.port_ = 0 → v.authority = "h".toList) := by
  refine ⟨authority_eq u, ?_, ?_⟩
  · intro v h1 h2 h3 h4
    unfold Uri.authority
    rw [h1, h2, h3, h4]
    rfl
  · intro v h1 h2 h3 h4
    unfold Uri.authority
    rw [h1, h2, h3, h4]
    rfl

/-- C14, as stated, fails: the constructor makes of `a://%5Bx` a `Uri` whose
host, decoded, is `[x`; it begins with `[`, `hostname()` is empty, and the host
is not `[`, the host name and `]`. -/
theorem C14_hostname_counterexample :
    ∃ u, (Uri.Uri zeroed "a://%5Bx".toList 0).1 = .ok u ∧ u.host_ = "[x".toList ∧
      u.host_.head? = some '[' ∧ u.hostname = [] ∧
      u.host_ ≠ '[' :: (u.hostname ++ [']']) :=
  ⟨_, rfl, rfl, rfl, rfl, by decide⟩

/-- C14, amended: for every `Uri` (its host shorter than 2^64, as every
`std::string` is), if `host()` begins with `[` then `hostname()` is `host()`
without its first and without its last character, so that `host()` is `[`,
`hostname()` and `]` whenever `host()` also ends with `]` behind the `[`;
otherwise `hostname()` is `host()`.  The host `[::1]` gives `::1` and the host
`example.com` gives `example.com`. -/
theorem C14_hostname (u : Uri) (hlen : u.host_.length < 2 ^ 64) :
    (u.host_.head? = some '[' → u.hostname = (u.host_.drop 1).dropLast) ∧
      (∀ L, u.host_ = '[' :: (L ++ [']']) →
        u.hostname = L ∧ u.host_ = '[' :: (u.hostname ++ [']'])) ∧
      (u.host_.head? ≠ some '[' → u.hostname = u.host_) ∧
      (∀ v : Uri, v.host_ = "[::1]".toList → v.hostname = "::1".toList) ∧
      (∀ v : Uri, v.host_ = "example.com".toList → v.hostname = "example.com".toList) := by
  refine ⟨hostname_bracket u hlen, ?_, hostname_plain u, ?_, ?_⟩
  · intro L hL
    have h1 : u.hostname = L := by
      rw [hostname_bracket u hlen (by rw [hL]; rfl), hL]
      simp
    exact ⟨h1, by rw [h1]; exact hL⟩
  · intro v hv
    unfold Uri.hostname
    rw [hv]
    rfl
  · intro v hv
    unfold Uri.hostname
    rw [hv]
    rfl

/-- C14 at the host `[::1]` that the constructor makes of `a://[::1]`. -/
theorem C14_hostname_witness :
    (Uri.Uri zeroed "a://[::1]".toList 0).1
        = .ok ⟨"a".toList, [], [], "[::1]".toList, true, 0, [], [], [], []⟩ ∧
      "[::1]".toList.length < 2 ^ 64 ∧
      (∀ L, "[::1]".toList = '[' :: (L ++ [']']) →
        Uri.hostname ⟨"a".toList, [], [], "[::1]".toList, true, 0, [], [], [], []⟩ = L ∧
          "[::1]".toList
            = '[' :: (Uri.hostname ⟨"a".toList, [], [], "[::1]".toList, true, 0, [], [], [], []⟩
                ++ [']'])) :=
  ⟨rfl, by decide,
    (C14_hostname ⟨"a".toList, [], [], "[::1]".toList, true, 0, [], [], [], []⟩
      (by decide)).2.1⟩

/-- C15 fails when `errno` is `ERANGE` on entry: the constructor tests `errno`
after `strtoul` without having cleared it before, so after a construction
whose port overflows, the construction of `a://[::1]:443` (the literal `::1`,
the port text `443`) is rejected with `InvalidPort`; from a clear `errno` it
succeeds with the host `[::1]`, the port 443 and the host name `::1`. -/
theorem C15_bracket_host_stale_errno :
    (Uri.Uri zeroed "a://[::1]:65536000000000000000000".toList 0).2 = ERANGE ∧
      noneOf [']', '@', '/', '?', '#', '%'] "::1".toList = true ∧
      decValue "443".toList = 443 ∧
      (Uri.Uri zeroed "a://[::1]:443".toList ERANGE).1 = .error (.InvalidPort "443".toList) ∧
      (Uri.Uri zeroed "a://[::1]:443".toList 0).1
        = .ok ⟨"a".toList, [], [], "[::1]".toList, true, 443, [], [], [], []⟩ ∧
      Uri.hostname ⟨"a".toList, [], [], "[::1]".toList, true, 443, [], [], [], []⟩
        = "::1".toList :=
  ⟨rfl, rfl, rfl, rfl, rfl, rfl⟩

/-- C16 fails when `errno` is `ERANGE` on entry: after a construction whose
port overflows `strtoul`, the construction of `a://:21` (an empty host and the
port text `21`) is rejected with `InvalidPort`, since `errno` is tested without
having been cleared; from a clear `errno` it succeeds with an empty host, an
empty user name and password, and the port 21. -/
theorem C16_empty_host_stale_errno :
    (Uri.Uri zeroed "a://:36893488147419103232".toList 0).2 = ERANGE ∧
      decValue "21".toList = 21 ∧
      (Uri.Uri zeroed "a://:21".toList ERANGE).1 = .error (.InvalidPort "21".toList) ∧
      (Uri.Uri zeroed "a://:21".toList 0).1
        = .ok ⟨"a".toList, [], [], [], true, 21, [], [], [], []⟩ :=
  ⟨rfl, rfl, rfl, rfl⟩

/-- C17: for every message as the library gives it (distinct field names, in
nested messages too; 64-bit values within the range of their type),
`FormatToJson` makes of a null value the document of the specification, and
`FormatRepeatedField`, with a field and a reflection that are not null,
appends the documents of the elements in their order (with a null pointer it
has no result).  In that document a set field that is not repeated, and an
element of a repeated field, is the number itself for an int32 or a uint32,
the string of the decimal representation for an int64 or a uint64, and the
string of the content for a string or for bytes; the decimal representation
has digits only and the number as its value, the least int64 gives
`-9223372036854775808` and the greatest uint64 `18446744073709551615`.  A set
field of these types is assigned so on any value that is null or an object. -/
theorem C17_format_by_type (msg : Message) (hwf : wfMessage msg = true) :
    FormatToJson .null msg = some (toDocument msg) ∧
      (∀ (holder : Message) (f : Field) (xs : List Json), wfField f = true →
        FormatRepeatedField (.array xs) holder (some f) (some ())
            = some (.array (xs ++ documentElements f.values)) ∧
          (f.values ≠ [] → FormatRepeatedField .null holder (some f) (some ())
            = some (.array (documentElements f.values)))) ∧
      (∀ (value : Json) (holder : Message) (field : Option Field) (reflection : Option Unit),
        field = none ∨ reflection = none →
          FormatRepeatedField value holder field reflection = none) ∧
      (∀ name vs (a : Int), documentMember (.mk name false (.TYPE_INT32 a :: vs))
        = some (name, .int a)) ∧
      (∀ name vs (a : Nat), documentMember (.mk name false (.TYPE_UINT32 a :: vs))
        = some (name, .uint a)) ∧
      (∀ name vs (a : Nat), documentMember (.mk name false (.TYPE_INT64 (a : Int) :: vs))
        = some (name, .string (Nat.toDigits 10 a))) ∧
      (∀ name vs (a : Nat), documentMember (.mk name false (.TYPE_INT64 (-((a : Int) + 1)) :: vs))
        = some (name, .string ('-' :: Nat.toDigits 10 (a + 1)))) ∧
      (∀ name vs (a : Nat), documentMember (.mk name false (.TYPE_UINT64 a :: vs))
        = some (name, .string (Nat.toDigits 10 a))) ∧
      (∀ name vs (s : Str), documentMember (.mk name false (.TYPE_STRING s :: vs))
        = some (name, .string s)) ∧
      (∀ name vs (s : Str), documentMember (.mk name false (.TYPE_BYTES s :: vs))
        = some (name, .string s)) ∧
      (∀ a : Int, documentElement (.TYPE_INT32 a) = .int a) ∧
      (∀ a : Nat, documentElement (.TYPE_UINT32 a) = .uint a) ∧
      (∀ a : Nat, documentElement (.TYPE_INT64 (a : Int)) = .string (Nat.toDigits 10 a)) ∧
      (∀ a : Nat, documentElement (.TYPE_INT64 (-((a : Int) + 1)))
        = .string ('-' :: Nat.toDigits 10 (a + 1))) ∧
      (∀ a : Nat, documentElement (.TYPE_UINT64 a) = .string (Nat.toDigits 10 a)) ∧
      (∀ s : Str, documentElement (.TYPE_STRING s) = .string s) ∧
      (∀ s : Str, documentElement (.TYPE_BYTES s) = .string s) ∧
      (∀ n : Nat, (∀ c ∈ Nat.toDigits 10 n, isdigit c = true) ∧
        decValue (Nat.toDigits 10 n) = n) ∧
      (∀ (value : Json) (name : Str) (v : FieldValue) (vs : List FieldValue) (x : Json),
        (value = .null ∨ ∃ ms, value = .object ms) → inRange v → scalarJson v = some x →
          ∃ j, formatField value (.mk name false (v :: vs)) = some j ∧
            value.setMember name x = some j ∧ j.member name = x) ∧
      formatField .null (.mk "a".toList false [.TYPE_INT64 (-9223372036854775808)])
        = some (.object [("a".toList, .string "-9223372036854775808".toList)]) ∧
      formatField .null (.mk "a".toList false [.TYPE_UINT64 18446744073709551615])
        = some (.object [("a".toList, .string "18446744073709551615".toList)]) := by
  have hneg : ∀ a : Nat, (-((a : Int) + 1)) < 0 ∧ (-((a : Int) + 1)).natAbs = a + 1 :=
    fun a => ⟨by omega, by omega⟩
  have hpos : ∀ a : Nat, ¬ ((a : Int) < 0) := fun a => by omega
  refine ⟨FormatToJson_document msg hwf, ?_, ?_, fun _ _ _ => rfl, fun _ _ _ => rfl, ?_, ?_,
    fun _ _ _ => rfl, fun _ _ _ => rfl, fun _ _ _ => rfl, fun _ => rfl, fun _ => rfl, ?_, ?_,
    fun _ => rfl, fun _ => rfl, fun _ => rfl, to_string_spec, ?_, rfl, rfl⟩
  · intro holder f xs hf
    obtain ⟨name, is_repeated, values⟩ := f
    refine ⟨repeatedLoop_document values xs hf, ?_⟩
    intro hne
    cases values with
    | nil => exact absurd rfl hne
    | cons v rest => exact repeatedLoop_null v rest hf
  · intro value holder field reflection h
    rcases h with rfl | rfl
    · cases reflection <;> simp only [FormatRepeatedField] <;>
        cases FormatToJson value holder <;> rfl
    · cases field <;> simp only [FormatRepeatedField] <;>
        cases FormatToJson value holder <;> rfl
  · intro name vs a
    simp [documentMember, hpos a, to_string]
  · intro name vs a
    simp only [documentMember, Bool.false_eq_true, if_false, (hneg a).1, if_true, (hneg a).2,
      to_string]
  · intro a
    simp [documentElement, hpos a, to_string]
  · intro a
    simp only [documentElement, (hneg a).1, if_true, (hneg a).2, to_string]
  · intro value name v vs x hv hr hx
    obtain ⟨j, h1, h2⟩ := member_setMember value name x hv
    exact ⟨j, by rw [formatField_scalar value name v vs x hr hx, h1], h1, h2⟩

/-- C17 at a message with 64-bit values, a repeated field, a field that is not
set, a field of another type and nested messages. -/
theorem C17_format_by_type_witness :
    wfMessage (.mk 9 [.mk "a".toList false [.TYPE_INT64 (-9223372036854775808)],
        .mk "b".toList true [.TYPE_UINT64 18446744073709551615, .TYPE_STRING "x".toList],
        .mk "c".toList false [],
        .mk "o".toList false [.TYPE_OTHER],
        .mk "z".toList false [.TYPE_MESSAGE (.mk 0 [])],
        .mk "d".toList false [.TYPE_MESSAGE (.mk 3 [.mk "e".toList false [.TYPE_UINT32 7],
          .mk "f".toList true [.TYPE_MESSAGE (.mk 2 [.mk "g".toList false
            [.TYPE_BYTES "y".toList]]), .TYPE_MESSAGE (.mk 0 [])]])]]) = true ∧
      FormatToJson .null (.mk 9 [.mk "a".toList false [.TYPE_INT64 (-9223372036854775808)],
        .mk "b".toList true [.TYPE_UINT64 18446744073709551615, .TYPE_STRING "x".toList],
        .mk "c".toList false [],
        .mk "o".toList false [.TYPE_OTHER],
        .mk "z".toList false [.TYPE_MESSAGE (.mk 0 [])],
        .mk "d".toList false [.TYPE_MESSAGE (.mk 3 [.mk "e".toList false [.TYPE_UINT32 7],
          .mk "f".toList true [.TYPE_MESSAGE (.mk 2 [.mk "g".toList false
            [.TYPE_BYTES "y".toList]]), .TYPE_MESSAGE (.mk 0 [])]])]])
        = some (.object [("a".toList, .string "-9223372036854775808".toList),
            ("b".toList, .array [.string "18446744073709551615".toList, .string "x".toList]),
            ("d".toList, .object [("e".toList, .uint 7),
              ("f".toList, .array [.object [("g".toList, .string "y".toList)], .null])])]) :=
  ⟨rfl,
    (C17_format_by_type (.mk 9 [.mk "a".toList false [.TYPE_INT64 (-9223372036854775808)],
        .mk "b".toList true [.TYPE_UINT64 18446744073709551615, .TYPE_STRING "x".toList],
        .mk "c".toList false [],
        .mk "o".toList false [.TYPE_OTHER],
        .mk "z".toList false [.TYPE_MESSAGE (.mk 0 [])],
        .mk "d".toList false [.TYPE_MESSAGE (.mk 3 [.mk "e".toList false [.TYPE_UINT32 7],
          .mk "f".toList true [.TYPE_MESSAGE (.mk 2 [.mk "g".toList false
            [.TYPE_BYTES "y".toList]]), .TYPE_MESSAGE (.mk 0 [])]])]]) (by rfl)).1.trans (by rfl)⟩

/-- On objects whose vector of parameters is still empty, when neither the
query nor the query without its segments of two or more `=` is a `&`
followed by a text without `&`, the parameters of the query are those of the
query without these segments: they are the pairs of the other segments, in
their order; `x=1&a=b=c&d=2` gives (x,1), (d,2), and `a=b=c` and `a==b` give
nothing. -/
theorem many_equals_dropped (u v : Uri) (hu : u.query_params_ = [])
    (hv : v.query_params_ = [])
    (hq : v.query_ = ['&'].intercalate
      ((u.query_.splitOn '&').filter (fun g => decide (g.count '=' ≤ 1))))
    (hlu : ¬ ∃ g, u.query_ = '&' :: g ∧ '&' ∉ g)
    (hlv : ¬ ∃ g, v.query_ = '&' :: g ∧ '&' ∉ g) :
    u.getQueryParams.1 = v.getQueryParams.1 ∧
      u.getQueryParams.1
        = ((u.query_.splitOn '&').filter (fun g => decide (g.count '=' ≤ 1))).filterMap
            (fun g =>
              if g.takeWhile (fun c => c != '=') = [] then none
              else some (g.takeWhile (fun c => c != '='),
                (g.dropWhile (fun c => c != '=')).tail)) ∧
      (∀ w : Uri, w.query_params_ = [] → w.query_ = "x=1&a=b=c&d=2".toList →
        w.getQueryParams.1 = [("x".toList, "1".toList), ("d".toList, "2".toList)]) ∧
      (∀ w : Uri, w.query_params_ = [] → w.query_ = "a=b=c".toList →
        w.getQueryParams.1 = []) ∧
      (∀ w : Uri, w.query_params_ = [] → w.query_ = "a==b".toList →
        w.getQueryParams.1 = []) := by
  have hgood : (fun g : Str => decide (g.count '=' ≤ 1)) = goodSegment := rfl
  rw [hgood] at hq ⊢
  rw [← splitAmp_eq_splitOn] at hq ⊢
  refine ⟨?_, ?_, ?_, ?_, ?_⟩
  · rw [getQueryParams_fresh u hu, getQueryParams_fresh v hv, foundParams_eq _ hlu,
      foundParams_eq _ hlv, hq, queryParams_remove]
  · rw [getQueryParams_fresh u hu, foundParams_eq _ hlu, queryParams, ← filterMap_filter_good]
    apply List.filterMap_congr
    intro g hg
    have hg1 : goodSegment g = true := (List.mem_filter.mp hg).2
    simp only [segmentParam, hg1, if_true, segmentPair, segmentName, segmentValue]
    cases hn : g.takeWhile notEq with
    | nil =>
      have : g.takeWhile (fun c => c != '=') = [] := hn
      simp [this]
    | cons x xs =>
      have : g.takeWhile (fun c => c != '=') = x :: xs := hn
      simp only [this, List.isEmpty_cons, Bool.false_eq_true, if_false]
      rfl
  · intro w hw hwq
    rw [getQueryParams_fresh w hw, hwq]
    rfl
  · intro w hw hwq
    rw [getQueryParams_fresh w hw, hwq]
    rfl
  · intro w hw hwq
    rw [getQueryParams_fresh w hw, hwq]
    rfl

/-- C18 fails on the query `&a=1&b=c=d`: its segment `b=c=d` has two `=` and
gives no pair, the query without it is `&a=1`, and `getQueryParams` returns
(a,1) for the first and nothing for the second, because under
`match_not_null` the library refuses the lookahead `(?=(&|$))` at the end of
`&a=1`.  The examples of the claim hold: `x=1&a=b=c&d=2` gives (x,1), (d,2),
and `a=b=c` gives nothing. -/
theorem C18_many_equals_lost :
    ['&'].intercalate
        (("&a=1&b=c=d".toList.splitOn '&').filter (fun g => decide (g.count '=' ≤ 1)))
        = "&a=1".toList ∧
      (⟨[], [], [], [], false, 0, [], "&a=1&b=c=d".toList, [], []⟩ : Uri).getQueryParams.1
        = [("a".toList, "1".toList)] ∧
      (⟨[], [], [], [], false, 0, [], "&a=1".toList, [], []⟩ : Uri).getQueryParams.1 = [] ∧
      (⟨[], [], [], [], false, 0, [], "x=1&a=b=c&d=2".toList, [], []⟩ : Uri).getQueryParams.1
        = [("x".toList, "1".toList), ("d".toList, "2".toList)] ∧
      (⟨[], [], [], [], false, 0, [], "a=b=c".toList, [], []⟩ : Uri).getQueryParams.1 = [] := by
  refine ⟨?_, rfl, rfl, rfl, rfl⟩
  rw [← splitAmp_eq_splitOn]
  rfl

/-- C19 fails when `errno` is `ERANGE` on entry: the constructor tests `errno`
after `strtoul` without having cleared it before, so after a construction
whose port overflows, the canonical authority `bob:pw@example.com:8080` is
not parsed at all (`InvalidPort`), although from a clear `errno` it is parsed
and `authority()` gives it back. -/
theorem C19_authority_roundtrip_stale_errno :
    (Uri.Uri zeroed "s://example.com:123456789012345678901".toList 0).2 = ERANGE ∧
      authorityText (some ("bob".toList, some "pw".toList)) "example.com".toList (some 8080)
        = "bob:pw@example.com:8080".toList ∧
      (Uri.Uri zeroed "s://bob:pw@example.com:8080".toList ERANGE).1
        = .error (.InvalidPort "8080".toList) ∧
      (Uri.Uri zeroed "s://bob:pw@example.com:8080".toList 0).1
        = .ok ⟨"s".toList, "bob".toList, "pw".toList, "example.com".toList, true, 8080,
            [], [], [], []⟩ ∧
      Uri.authority ⟨"s".toList, "bob".toList, "pw".toList, "example.com".toList, true, 8080,
            [], [], [], []⟩
        = "bob:pw@example.com:8080".toList :=
  ⟨rfl, rfl, rfl, rfl, rfl⟩

/-- C20: on an object whose vector of parameters is still empty (as the
constructor leaves it), every pair that `getQueryParams` returns has a name
that is not empty, neither its name nor its value has a `&` or a `=`, and the
pairs are at most one more than the `&` of the query. -/
theorem C20_query_params_shape (u : Uri) (hc : u.query_params_ = []) :
    (∀ p ∈ u.getQueryParams.1,
        p.1 ≠ [] ∧ '&' ∉ p.1 ∧ '=' ∉ p.1 ∧ '&' ∉ p.2 ∧ '=' ∉ p.2) ∧
      u.getQueryParams.1.length ≤ u.query_.count '&' + 1 := by
  rw [getQueryParams_fresh u hc]
  exact ⟨fun p hp => queryParams_pair u.query_ p (mem_foundParams _ p hp),
    (length_foundParams_le u.query_).trans (length_queryParams u.query_)⟩

/-- C20 at the query `a=1&b=2`, whose two pairs are one more than its `&`. -/
theorem C20_query_params_shape_witness :
    (⟨[], [], [], [], false, 0, [], "a=1&b=2".toList, [], []⟩ : Uri).getQueryParams.1
        = [("a".toList, "1".toList), ("b".toList, "2".toList)] ∧
      (∀ p ∈ (⟨[], [], [], [], false, 0, [], "a=1&b=2".toList, [], []⟩ : Uri).getQueryParams.1,
        p.1 ≠ [] ∧ '&' ∉ p.1 ∧ '=' ∉ p.1 ∧ '&' ∉ p.2 ∧ '=' ∉ p.2) ∧
      (⟨[], [], [], [], false, 0, [], "a=1&b=2".toList, [], []⟩ : Uri).getQueryParams.1.length
        ≤ (⟨[], [], [], [], false, 0, [], "a=1&b=2".toList, [], []⟩ : Uri).query_.count '&' + 1 :=
  ⟨rfl, (C20_query_params_shape ⟨[], [], [], [], false, 0, [], "a=1&b=2".toList, [], []⟩ rfl).1,
    (C20_query_params_shape ⟨[], [], [], [], false, 0, [], "a=1&b=2".toList, [], []⟩ rfl).2⟩

end artanis
